import Mathlib

/-!
# SSD1306 framebuffer driver: embedding and verification

A shallow embedding of `components/ssd1306_driver/src/ssd1306_driver.c`.

* `uint8_t` values are natural numbers below 256; a conversion to `uint8_t` is `to_u8`.
* C `int` values (the type every operand of `|`, `&`, `~`, `<<`, `>>` is promoted to) are
  natural numbers below `2 ^ 32`, read as 32-bit two's complement.
* The framebuffer is the list of pages of the handle, each page a list of segment bytes.
  Every access is bounds-checked against these lists: an access outside an allocated array
  has no defined result and is `none`.
* A `for` loop over a `uint8_t` counter is `for_u8`; a loop that never leaves is `none`.
* The I2C bus is a log of the transactions sent and a transport function that says, for
  every transaction, which `esp_err_t` the bus returns.

The header `ssd1306_cmd.h` (the command opcodes and the glyph table `font8x8`) is not
part of the sources; opcodes and glyph table are parameters of the functions that use
them.
-/

namespace SSD1306

/-! ## Machine integers -/

/-- Conversion of an integer value to `uint8_t`. -/
def to_u8 (v : Nat) : Nat := v % 256

/-- The C operator `~` on an `int`. -/
def int_not (v : Nat) : Nat := v ^^^ 0xFFFFFFFF

/-- The C operator `<<` on an `int`: the bits shifted out at the top are lost. -/
def int_shl (v k : Nat) : Nat := (v <<< k) % 2 ^ 32

/-- The C operator `>>` on an `int`, an arithmetic shift: a negative value (top bit set)
keeps its sign, the vacated bits are filled with ones. -/
def int_sar (v k : Nat) : Nat :=
  if v < 2 ^ 31 then v >>> k else (v >>> k) ||| int_shl 0xFFFFFFFF (32 - k)

/-! ## Data model -/

/-- The segments of one page: `uint8_t *segment`. -/
structure ssd1306_page_t where
  segment : List Nat
deriving DecidableEq, Repr

/-- The driver handle: display configuration and framebuffer (`ssd1306_page_t *page`). -/
structure i2c_ssd1306_handle_t where
  i2c_addr : Nat
  scl_speed_hz : Nat
  width : Nat
  height : Nat
  total_pages : Nat
  page : List ssd1306_page_t
deriving DecidableEq, Repr

/-- Read of `page[p].segment[c]`. -/
def seg_read (h : i2c_ssd1306_handle_t) (p c : Nat) : Option Nat :=
  match h.page[p]? with
  | none => none
  | some pg => pg.segment[c]?

/-- Store of the `uint8_t` value `v` to `page[p].segment[c]`. -/
def seg_write (h : i2c_ssd1306_handle_t) (p c v : Nat) : Option i2c_ssd1306_handle_t :=
  match h.page[p]? with
  | none => none
  | some pg =>
    if c < pg.segment.length then
      some { h with page := h.page.set p { segment := pg.segment.set c v } }
    else none

/-- The statement `page[p].segment[c] = v;` with `v` an `int`. -/
def seg_assign (h : i2c_ssd1306_handle_t) (p c v : Nat) : Option i2c_ssd1306_handle_t :=
  seg_write h p c (to_u8 v)

/-- The statement `page[p].segment[c] |= v;` with `v` an `int`. -/
def seg_or_assign (h : i2c_ssd1306_handle_t) (p c v : Nat) : Option i2c_ssd1306_handle_t :=
  match seg_read h p c with
  | none => none
  | some b => seg_write h p c (to_u8 (b ||| v))

/-- The statement `page[p].segment[c] &= v;` with `v` an `int`. -/
def seg_and_assign (h : i2c_ssd1306_handle_t) (p c v : Nat) : Option i2c_ssd1306_handle_t :=
  match seg_read h p c with
  | none => none
  | some b => seg_write h p c (to_u8 (b &&& v))

/-- What `i2c_ssd1306_init` establishes about the configuration: `width <= 128`,
`16 <= height <= 64`, `height % 8 == 0`, `total_pages = height / 8`. -/
def config_ok (h : i2c_ssd1306_handle_t) : Prop :=
  h.width ≤ 128 ∧ 16 ≤ h.height ∧ h.height ≤ 64 ∧ h.height % 8 = 0 ∧
    h.total_pages = h.height / 8

/-- The allocation done by `i2c_ssd1306_init`: `total_pages` pages of `width` segments. -/
def shape_ok (h : i2c_ssd1306_handle_t) : Prop :=
  h.page.length = h.total_pages ∧ ∀ pg ∈ h.page, pg.segment.length = h.width

/-- Every segment holds a `uint8_t`. -/
def bytes_ok (h : i2c_ssd1306_handle_t) : Prop :=
  ∀ pg ∈ h.page, ∀ b ∈ pg.segment, b < 256

/-- A handle as `i2c_ssd1306_init` leaves it and as every drawing operation keeps it. -/
def handle_ok (h : i2c_ssd1306_handle_t) : Prop :=
  config_ok h ∧ shape_ok h ∧ bytes_ok h

instance (h : i2c_ssd1306_handle_t) : Decidable (config_ok h) := by
  unfold config_ok; infer_instance

instance (h : i2c_ssd1306_handle_t) : Decidable (shape_ok h) := by
  unfold shape_ok; infer_instance

instance (h : i2c_ssd1306_handle_t) : Decidable (bytes_ok h) := by
  unfold bytes_ok; infer_instance

instance (h : i2c_ssd1306_handle_t) : Decidable (handle_ok h) := by
  unfold handle_ok; infer_instance

/-- Two handles with the same configuration fields. -/
def same_config (h k : i2c_ssd1306_handle_t) : Prop :=
  k.i2c_addr = h.i2c_addr ∧ k.scl_speed_hz = h.scl_speed_hz ∧ k.width = h.width ∧
    k.height = h.height ∧ k.total_pages = h.total_pages

/-- Pixel `(x, y)` of the framebuffer: bit `y % 8` of `page[y / 8].segment[x]`. -/
def pixel (h : i2c_ssd1306_handle_t) (x y : Nat) : Bool :=
  match seg_read h (y / 8) x with
  | none => false
  | some b => b.testBit (y % 8)

/-- Number of set bits of a byte. -/
def bit_count (b : Nat) : Nat := ((List.range 8).filter (fun k => b.testBit k)).length

/-- Number of lit pixels: the set bits counted over all bytes of all pages. -/
def lit_pixels (h : i2c_ssd1306_handle_t) : Nat :=
  (h.page.map (fun pg => (pg.segment.map bit_count).sum)).sum

/-- A framebuffer of `pages` pages of `width` bytes, every byte `v`. -/
def uniform_pages (pages width v : Nat) : List ssd1306_page_t :=
  List.replicate pages { segment := List.replicate width v }

/-- The handle of the examples: a 32x16 display, framebuffer all zero. -/
def demo_handle : i2c_ssd1306_handle_t :=
  { i2c_addr := 0x3C, scl_speed_hz := 400000, width := 32, height := 16, total_pages := 2,
    page := uniform_pages 2 32 0 }

/-- The handle of the examples with every pixel lit. -/
def demo_handle_lit : i2c_ssd1306_handle_t :=
  { demo_handle with page := uniform_pages 2 32 0xFF }

/-- A glyph table for the examples (the table of `ssd1306_cmd.h` is not in the sources):
256 entries of 8 bytes. -/
def demo_font8x8 (c j : Nat) : Nat := (c * 8 + j * 37 + 1) % 256

/-! ## Loops over a `uint8_t` counter -/

/-- How one pass through a loop body ends: at its end, or in a `return`. -/
inductive loop_step (σ : Type) where
  | next (s : σ)
  | exit (s : σ)

/-- The loop `for (uint8_t i = ..; cond(i); i++) body`, where `fuel` bounds the number of
times the condition is tested. The counter wraps at 256. -/
def loop_u8 {σ : Type} (cond : Nat → Bool) (body : Nat → σ → Option (loop_step σ)) :
    Nat → Nat → σ → Option σ
  | 0, _, _ => none
  | fuel + 1, i, s =>
    if cond i then
      match body i s with
      | none => none
      | some (loop_step.exit s1) => some s1
      | some (loop_step.next s1) => loop_u8 cond body fuel (to_u8 (i + 1)) s1
    else some s

/-- A `for` loop over a `uint8_t` counter starting at `init`. The condition depends on the
counter only, and the counter has 256 values: a loop whose condition held 256 times in a
row never ends, so 257 tests decide it. -/
def for_u8 {σ : Type} (init : Nat) (cond : Nat → Bool)
    (body : Nat → σ → Option (loop_step σ)) (s : σ) : Option σ :=
  loop_u8 cond body 257 init s

/-- A loop body without `return`. -/
def plain {σ : Type} (r : Option σ) : Option (loop_step σ) := r.map loop_step.next

/-! ## Framebuffer operations -/

/-- The call `memset(page[p].segment, v, n)`. -/
def memset_page (h : i2c_ssd1306_handle_t) (p v n : Nat) : Option i2c_ssd1306_handle_t :=
  match h.page[p]? with
  | none => none
  | some pg =>
    if n ≤ pg.segment.length then
      some { h with
        page := h.page.set p ⟨List.replicate n (to_u8 v) ++ pg.segment.drop n⟩ }
    else none

/-- Embedding of `i2c_ssd1306_buffer_clear`. -/
def i2c_ssd1306_buffer_clear (h : i2c_ssd1306_handle_t) : Option i2c_ssd1306_handle_t :=
  for_u8 0 (fun i => decide (i < h.total_pages))
    (fun i hh => plain (memset_page hh i 0x00 h.width)) h

/-- Embedding of `i2c_ssd1306_buffer_fill`. -/
def i2c_ssd1306_buffer_fill (h : i2c_ssd1306_handle_t) (fill : Bool) :
    Option i2c_ssd1306_handle_t :=
  for_u8 0 (fun i => decide (i < h.total_pages))
    (fun i hh =>
      if fill then plain (memset_page hh i 0xFF h.width)
      else plain (memset_page hh i 0x00 h.width)) h

/-- Embedding of `i2c_ssd1306_buffer_fill_pixel`. -/
def i2c_ssd1306_buffer_fill_pixel (h : i2c_ssd1306_handle_t) (x y : Nat) (fill : Bool) :
    Option i2c_ssd1306_handle_t :=
  if x ≥ h.width ∨ y ≥ h.height then some h
  else if fill then seg_or_assign h (y / 8) x (int_shl 1 (y % 8))
  else seg_and_assign h (y / 8) x (int_not (int_shl 1 (y % 8)))

/-- Embedding of `i2c_ssd1306_buffer_fill_space`. -/
def i2c_ssd1306_buffer_fill_space (h : i2c_ssd1306_handle_t) (x1 x2 y1 y2 : Nat)
    (fill : Bool) : Option i2c_ssd1306_handle_t :=
  if x1 ≥ h.width ∨ x2 ≥ h.width ∨ y1 ≥ h.height ∨ y2 ≥ h.height ∨ x1 > x2 ∨ y1 > y2 then
    some h
  else
    for_u8 y1 (fun i => decide (i ≤ y2))
      (fun i hi =>
        plain (for_u8 x1 (fun j => decide (j ≤ x2))
          (fun j hj =>
            if fill then plain (seg_or_assign hj (i / 8) j (int_shl 1 (i % 8)))
            else plain (seg_and_assign hj (i / 8) j (int_not (int_shl 1 (i % 8))))) hi)) h

/-- Embedding of `i2c_ssd1306_buffer_text`. The glyph table `font8x8` of `ssd1306_cmd.h`
is a parameter; `text` holds the characters before the terminating NUL, so `strlen(text)`
is its length. The loop state is the pair of the running `x` and the handle. -/
def i2c_ssd1306_buffer_text (font8x8 : Nat → Nat → Nat) (h : i2c_ssd1306_handle_t)
    (x y : Nat) (text : List Nat) (invert : Bool) : Option i2c_ssd1306_handle_t :=
  if x ≥ h.width ∨ y ≥ h.height then some h
  else
    let len := to_u8 text.length
    let page := to_u8 (y / 8)
    let y_offset := to_u8 (y % 8)
    if y_offset = 0 then
      (for_u8 0 (fun i => decide (i < len))
        (fun i (s : Nat × i2c_ssd1306_handle_t) =>
          if s.1 + 8 > h.width then some (loop_step.exit s)
          else
            match text[i]? with
            | none => none
            | some ch =>
              (for_u8 0 (fun j => decide (j < 8))
                (fun j hj =>
                  if invert then
                    plain (seg_assign hj page (s.1 + j) (int_not (font8x8 (to_u8 ch) j)))
                  else plain (seg_assign hj page (s.1 + j) (font8x8 (to_u8 ch) j)))
                s.2).map (fun hh => loop_step.next (to_u8 (s.1 + 8), hh)))
        (x, h)).map Prod.snd
    else if page + 1 ≥ h.total_pages then some h
    else
      (for_u8 0 (fun i => decide (i < len))
        (fun i (s : Nat × i2c_ssd1306_handle_t) =>
          if s.1 + 8 > h.width then some (loop_step.exit s)
          else
            match text[i]? with
            | none => none
            | some ch =>
              (for_u8 0 (fun j => decide (j < 8))
                (fun j hj =>
                  if invert then
                    match seg_or_assign hj page (s.1 + j)
                        (int_shl (int_not (font8x8 (to_u8 ch) j)) y_offset) with
                    | none => none
                    | some hk =>
                      plain (seg_or_assign hk (page + 1) (s.1 + j)
                        (int_sar (int_not (font8x8 (to_u8 ch) j)) (8 - y_offset)))
                  else
                    match seg_or_assign hj page (s.1 + j)
                        (int_shl (font8x8 (to_u8 ch) j) y_offset) with
                    | none => none
                    | some hk =>
                      plain (seg_or_assign hk (page + 1) (s.1 + j)
                        (int_sar (font8x8 (to_u8 ch) j) (8 - y_offset))))
                s.2).map (fun hh => loop_step.next (to_u8 (s.1 + 8), hh)))
        (x, h)).map Prod.snd

/-- Embedding of `i2c_ssd1306_buffer_image`. `image` is the caller's array, read with a
bounds check. `y + height - 1` is an `int`; it is negative only for `y = height = 0`, where
C's truncating division gives `-1 / 8 = 0`, as the truncated subtraction does here. -/
def i2c_ssd1306_buffer_image (h : i2c_ssd1306_handle_t) (x y : Nat) (image : List Nat)
    (width height : Nat) (invert : Bool) : Option i2c_ssd1306_handle_t :=
  if x ≥ h.width ∨ y ≥ h.height ∨ width > h.width ∨ height > h.height ∨
      x + width > h.width ∨ y + height > h.height then some h
  else
    let initial_page := to_u8 (y / 8)
    let final_page := to_u8 ((y + height - 1) / 8)
    let page_range := to_u8 (final_page + 256 - initial_page)
    let y_offset := to_u8 (y % 8)
    if y_offset = 0 then
      for_u8 0 (fun i => decide (i ≤ page_range))
        (fun i hi =>
          plain (for_u8 0 (fun j => decide (j < width))
            (fun j hj =>
              match image[i * width + j]? with
              | none => none
              | some b =>
                if invert then plain (seg_assign hj (initial_page + i) (x + j) (int_not b))
                else plain (seg_assign hj (initial_page + i) (x + j) b)) hi)) h
    else
      for_u8 0 (fun i => decide (i < page_range))
        (fun i hi =>
          plain (for_u8 0 (fun j => decide (j < width))
            (fun j hj =>
              match image[i * width + j]? with
              | none => none
              | some b =>
                if invert then
                  match seg_or_assign hj (initial_page + i) (x + j)
                      (int_shl (int_not b) y_offset &&& int_shl 0xFF y_offset) with
                  | none => none
                  | some hk =>
                    plain (seg_or_assign hk (initial_page + i + 1) (x + j)
                      (int_sar (int_not b) (8 - y_offset) &&& int_sar 0xFF (8 - y_offset)))
                else
                  match seg_or_assign hj (initial_page + i) (x + j)
                      (int_shl b y_offset &&& int_shl 0xFF y_offset) with
                  | none => none
                  | some hk =>
                    plain (seg_or_assign hk (initial_page + i + 1) (x + j)
                      (int_sar b (8 - y_offset) &&& int_sar 0xFF (8 - y_offset)))) hi)) h

/-! ## The loops of the text renderer, named

`i2c_ssd1306_buffer_text` is the composition of the following loops
(`buffer_text_eq`). -/

/-- The inner loop of the byte-aligned case: the 8 columns of the glyph of `ch` are stored
to `page[page].segment[xc ..]`. -/
def text_glyph_aligned (font8x8 : Nat → Nat → Nat) (invert : Bool) (page : Nat)
    (hh : i2c_ssd1306_handle_t) (xc ch : Nat) : Option i2c_ssd1306_handle_t :=
  for_u8 0 (fun j => decide (j < 8))
    (fun j hj =>
      if invert then
        plain (seg_assign hj page (xc + j) (int_not (font8x8 (to_u8 ch) j)))
      else plain (seg_assign hj page (xc + j) (font8x8 (to_u8 ch) j)))
    hh

/-- The inner loop of the offset case: the 8 columns of the glyph of `ch` are ORed into
the pages `page` and `page + 1`. -/
def text_glyph_offset (font8x8 : Nat → Nat → Nat) (invert : Bool) (page y_offset : Nat)
    (hh : i2c_ssd1306_handle_t) (xc ch : Nat) : Option i2c_ssd1306_handle_t :=
  for_u8 0 (fun j => decide (j < 8))
    (fun j hj =>
      if invert then
        match seg_or_assign hj page (xc + j)
            (int_shl (int_not (font8x8 (to_u8 ch) j)) y_offset) with
        | none => none
        | some hk =>
          plain (seg_or_assign hk (page + 1) (xc + j)
            (int_sar (int_not (font8x8 (to_u8 ch) j)) (8 - y_offset)))
      else
        match seg_or_assign hj page (xc + j)
            (int_shl (font8x8 (to_u8 ch) j) y_offset) with
        | none => none
        | some hk =>
          plain (seg_or_assign hk (page + 1) (xc + j)
            (int_sar (font8x8 (to_u8 ch) j) (8 - y_offset))))
    hh

/-- The loop over the characters, the same in both cases: `draw` is the inner loop. -/
def text_chars (width : Nat) (text : List Nat)
    (draw : i2c_ssd1306_handle_t → Nat → Nat → Option i2c_ssd1306_handle_t)
    (x : Nat) (h : i2c_ssd1306_handle_t) : Option i2c_ssd1306_handle_t :=
  (for_u8 0 (fun i => decide (i < to_u8 text.length))
    (fun i (s : Nat × i2c_ssd1306_handle_t) =>
      if s.1 + 8 > width then some (loop_step.exit s)
      else
        match text[i]? with
        | none => none
        | some ch =>
          (draw s.2 s.1 ch).map (fun hh => loop_step.next (to_u8 (s.1 + 8), hh)))
    (x, h)).map Prod.snd

/-! ## The loops of the bitmap blitter, named

`i2c_ssd1306_buffer_image` is the composition of the following loops
(`buffer_image_eq`). -/

/-- The bounds check of `i2c_ssd1306_buffer_image` passes. -/
def image_call_valid (h : i2c_ssd1306_handle_t) (x y width height : Nat) : Prop :=
  ¬ (x ≥ h.width ∨ y ≥ h.height ∨ width > h.width ∨ height > h.height ∨
      x + width > h.width ∨ y + height > h.height)

instance (h : i2c_ssd1306_handle_t) (x y width height : Nat) :
    Decidable (image_call_valid h x y width height) := by
  unfold image_call_valid; infer_instance

/-- The `uint8_t page_range = final_page - initial_page` of `i2c_ssd1306_buffer_image`. -/
def image_page_range (y height : Nat) : Nat :=
  to_u8 (to_u8 ((y + height - 1) / 8) + 256 - to_u8 (y / 8))

/-- The inner loop of the byte-aligned case: row `i` of the source is stored to page
`initial_page + i`. -/
def image_row_aligned (image : List Nat) (width : Nat) (invert : Bool)
    (initial_page x i : Nat) (hi : i2c_ssd1306_handle_t) : Option i2c_ssd1306_handle_t :=
  for_u8 0 (fun j => decide (j < width))
    (fun j hj =>
      match image[i * width + j]? with
      | none => none
      | some b =>
        if invert then plain (seg_assign hj (initial_page + i) (x + j) (int_not b))
        else plain (seg_assign hj (initial_page + i) (x + j) b)) hi

/-- The inner loop of the offset case: row `i` of the source is ORed into the pages
`initial_page + i` and `initial_page + i + 1`. -/
def image_row_offset (image : List Nat) (width : Nat) (invert : Bool)
    (initial_page y_offset x i : Nat) (hi : i2c_ssd1306_handle_t) :
    Option i2c_ssd1306_handle_t :=
  for_u8 0 (fun j => decide (j < width))
    (fun j hj =>
      match image[i * width + j]? with
      | none => none
      | some b =>
        if invert then
          match seg_or_assign hj (initial_page + i) (x + j)
              (int_shl (int_not b) y_offset &&& int_shl 0xFF y_offset) with
          | none => none
          | some hk =>
            plain (seg_or_assign hk (initial_page + i + 1) (x + j)
              (int_sar (int_not b) (8 - y_offset) &&& int_sar 0xFF (8 - y_offset)))
        else
          match seg_or_assign hj (initial_page + i) (x + j)
              (int_shl b y_offset &&& int_shl 0xFF y_offset) with
          | none => none
          | some hk =>
            plain (seg_or_assign hk (initial_page + i + 1) (x + j)
              (int_sar b (8 - y_offset) &&& int_sar 0xFF (8 - y_offset)))) hi

/-! ## RAM synchronisation -/

/-- The opcodes of `ssd1306_cmd.h` that the synchronisation uses. The header is not part
of the sources: the opcodes are parameters. -/
structure oled_cmd_t where
  OLED_CONTROL_BYTE_CMD : Nat
  OLED_CONTROL_BYTE_DATA : Nat
  OLED_MASK_PAGE_ADDR : Nat
  OLED_MASK_LSB_NIBBLE_SEG_ADDR : Nat
  OLED_MASK_HSB_NIBBLE_SEG_ADDR : Nat
deriving DecidableEq, Repr

/-- The opcodes of the SSD1306 data sheet, for the examples. -/
def demo_cmd : oled_cmd_t :=
  { OLED_CONTROL_BYTE_CMD := 0x00, OLED_CONTROL_BYTE_DATA := 0x40,
    OLED_MASK_PAGE_ADDR := 0xB0, OLED_MASK_LSB_NIBBLE_SEG_ADDR := 0x00,
    OLED_MASK_HSB_NIBBLE_SEG_ADDR := 0x10 }

/-- The value `ESP_OK` of `esp_err_t`. -/
def ESP_OK : Nat := 0

/-- The transport: the `esp_err_t` that `i2c_master_transmit` returns for a byte sequence,
given the transactions sent before it. -/
abbrev transport_t := List (List Nat) → List Nat → Nat

/-- A transport on which every transaction succeeds. -/
def transport_ok : transport_t := fun _ _ => ESP_OK

/-- The bus as the driver sees it: the transactions sent so far, oldest first, and the
error on which `ESP_ERROR_CHECK` aborted the program, if it did. -/
structure bus_state where
  sent : List (List Nat)
  aborted : Option Nat
deriving DecidableEq, Repr

/-- The statement `ESP_ERROR_CHECK(i2c_master_transmit(dev, buf, sizeof(buf), timeout));`. -/
def esp_error_check_transmit (T : transport_t) (s : bus_state) (buf : List Nat) : bus_state :=
  if T s.sent buf = ESP_OK then { s with sent := s.sent ++ [buf] }
  else { s with aborted := some (T s.sent buf) }

/-- Store to element `i` of a local `uint8_t` array. -/
def array_set (arr : List Nat) (i v : Nat) : Option (List Nat) :=
  if i < arr.length then some (arr.set i (to_u8 v)) else none

/-- A local `uint8_t` array of `n` elements before its first store; what an element
holds then is not determined, 0 stands for it. -/
def array_new (n : Nat) : List Nat := List.replicate n 0

/-- The array `ram_data_cmd` of `i2c_ssd1306_segments_to_ram` as the loop leaves it. -/
def segments_data_cmd (cmd : oled_cmd_t) (h : i2c_ssd1306_handle_t)
    (page initial_segment final_segment : Nat) : Option (List Nat) :=
  match array_set (array_new (final_segment - initial_segment + 2)) 0
      cmd.OLED_CONTROL_BYTE_DATA with
  | none => none
  | some ram_data_cmd =>
    for_u8 0 (fun i => decide (i < final_segment - initial_segment + 1))
      (fun i arr =>
        match seg_read h page (initial_segment + i) with
        | none => none
        | some b => plain (array_set arr (i + 1) b)) ram_data_cmd

/-- The array `ram_data_cmd` of `i2c_ssd1306_page_to_ram` as the loop leaves it. -/
def page_data_cmd (cmd : oled_cmd_t) (h : i2c_ssd1306_handle_t) (page : Nat) :
    Option (List Nat) :=
  match array_set (array_new (h.width + 1)) 0 cmd.OLED_CONTROL_BYTE_DATA with
  | none => none
  | some ram_data_cmd =>
    for_u8 0 (fun i => decide (i < h.width))
      (fun i arr =>
        match seg_read h page i with
        | none => none
        | some b => plain (array_set arr (i + 1) b)) ram_data_cmd

/-- Embedding of `i2c_ssd1306_segment_to_ram`. -/
def i2c_ssd1306_segment_to_ram (cmd : oled_cmd_t) (T : transport_t) (h : i2c_ssd1306_handle_t)
    (page segment : Nat) (s : bus_state) : Option bus_state :=
  if page ≥ h.total_pages then some s
  else if segment ≥ h.width then some s
  else
    let ram_addr_cmd := [
      to_u8 cmd.OLED_CONTROL_BYTE_CMD,
      to_u8 (cmd.OLED_MASK_PAGE_ADDR ||| page),
      to_u8 (cmd.OLED_MASK_LSB_NIBBLE_SEG_ADDR ||| (segment &&& 0x0F)),
      to_u8 (cmd.OLED_MASK_HSB_NIBBLE_SEG_ADDR ||| ((segment >>> 4) &&& 0x0F))]
    let s1 := esp_error_check_transmit T s ram_addr_cmd
    if s1.aborted.isSome then some s1
    else
      match seg_read h page segment with
      | none => none
      | some b =>
        let ram_data_cmd := [to_u8 cmd.OLED_CONTROL_BYTE_DATA, b]
        some (esp_error_check_transmit T s1 ram_data_cmd)

/-- Embedding of `i2c_ssd1306_segments_to_ram`. -/
def i2c_ssd1306_segments_to_ram (cmd : oled_cmd_t) (T : transport_t)
    (h : i2c_ssd1306_handle_t) (page initial_segment final_segment : Nat) (s : bus_state) :
    Option bus_state :=
  if page ≥ h.total_pages then some s
  else if initial_segment ≥ h.width ∨ final_segment ≥ h.width ∨
      initial_segment > final_segment then some s
  else
    let ram_addr_cmd := [
      to_u8 cmd.OLED_CONTROL_BYTE_CMD,
      to_u8 (cmd.OLED_MASK_PAGE_ADDR ||| page),
      to_u8 (cmd.OLED_MASK_LSB_NIBBLE_SEG_ADDR ||| (initial_segment &&& 0x0F)),
      to_u8 (cmd.OLED_MASK_HSB_NIBBLE_SEG_ADDR ||| ((initial_segment >>> 4) &&& 0x0F))]
    let s1 := esp_error_check_transmit T s ram_addr_cmd
    if s1.aborted.isSome then some s1
    else
      match segments_data_cmd cmd h page initial_segment final_segment with
      | none => none
      | some ram_data_cmd => some (esp_error_check_transmit T s1 ram_data_cmd)

/-- Embedding of `i2c_ssd1306_page_to_ram`. -/
def i2c_ssd1306_page_to_ram (cmd : oled_cmd_t) (T : transport_t) (h : i2c_ssd1306_handle_t)
    (page : Nat) (s : bus_state) : Option bus_state :=
  if page ≥ h.total_pages then some s
  else
    let ram_addr_cmd := [
      to_u8 cmd.OLED_CONTROL_BYTE_CMD,
      to_u8 (cmd.OLED_MASK_PAGE_ADDR ||| page),
      to_u8 (cmd.OLED_MASK_LSB_NIBBLE_SEG_ADDR ||| (0x00 &&& 0x0F)),
      to_u8 (cmd.OLED_MASK_HSB_NIBBLE_SEG_ADDR ||| ((0x00 >>> 4) &&& 0x0F))]
    let s1 := esp_error_check_transmit T s ram_addr_cmd
    if s1.aborted.isSome then some s1
    else
      match page_data_cmd cmd h page with
      | none => none
      | some ram_data_cmd => some (esp_error_check_transmit T s1 ram_data_cmd)

/-- Embedding of `i2c_ssd1306_pages_to_ram`: the loop ends where a call aborted the
program. -/
def i2c_ssd1306_pages_to_ram (cmd : oled_cmd_t) (T : transport_t) (h : i2c_ssd1306_handle_t)
    (s : bus_state) : Option bus_state :=
  for_u8 0 (fun i => decide (i < h.total_pages))
    (fun i si =>
      match i2c_ssd1306_page_to_ram cmd T h i si with
      | none => none
      | some sj => if sj.aborted.isSome then some (loop_step.exit sj) else some (loop_step.next sj))
    s

/-- The set-address command for `(page, column)`: the command marker, the page ORed into
the page opcode, the low and the high nibble of the column ORed into their opcodes. -/
def set_address_cmd (cmd : oled_cmd_t) (page column : Nat) : List Nat :=
  [to_u8 cmd.OLED_CONTROL_BYTE_CMD,
   to_u8 (cmd.OLED_MASK_PAGE_ADDR ||| page),
   to_u8 (cmd.OLED_MASK_LSB_NIBBLE_SEG_ADDR ||| (column &&& 0x0F)),
   to_u8 (cmd.OLED_MASK_HSB_NIBBLE_SEG_ADDR ||| ((column >>> 4) &&& 0x0F))]

/-- The data command that carries `bytes`: the data marker, then the bytes. -/
def transfer_data_cmd (cmd : oled_cmd_t) (bytes : List Nat) : List Nat :=
  to_u8 cmd.OLED_CONTROL_BYTE_DATA :: bytes

/-- The bytes of page `p` of the framebuffer. -/
def page_bytes (h : i2c_ssd1306_handle_t) (p : Nat) : List Nat :=
  match h.page[p]? with
  | none => []
  | some pg => pg.segment

/-- The transactions of `i2c_ssd1306_page_to_ram` for page `p`. -/
def page_transactions (cmd : oled_cmd_t) (h : i2c_ssd1306_handle_t) (p : Nat) :
    List (List Nat) :=
  [set_address_cmd cmd p 0, transfer_data_cmd cmd (page_bytes h p)]

/-- The 128x64 display of `main.c`, framebuffer all zero. -/
def display_128x64 : i2c_ssd1306_handle_t :=
  { i2c_addr := 0x3C, scl_speed_hz := 400000, width := 128, height := 64, total_pages := 8,
    page := uniform_pages 8 128 0 }

/-- The transactions `txs` sent in order through `ESP_ERROR_CHECK`: the first one that
fails aborts the program, and an aborted program sends nothing. -/
def transmit_all (T : transport_t) : bus_state → List (List Nat) → bus_state
  | s, [] => s
  | s, buf :: rest =>
    if s.aborted.isSome then s else transmit_all T (esp_error_check_transmit T s buf) rest

/-- What a sync operation that is to send `txs` after the log `log` leaves on the bus when
it stops at the first failure. If every transaction succeeds, all are sent and the program
is not aborted. If transaction `k` (counted from 0) is the first for which the transport
returns an error, exactly the `k` transactions before it are sent, none after it, and the
program is aborted with that error. -/
def stops_at_first_failure (T : transport_t) (log : List (List Nat)) (txs : List (List Nat))
    (r : Option bus_state) : Prop :=
  ((∀ j, j < txs.length → T (log ++ txs.take j) (txs.getD j []) = ESP_OK) →
    r = some { sent := log ++ txs, aborted := none }) ∧
  ∀ k, k < txs.length →
    (∀ j, j < k → T (log ++ txs.take j) (txs.getD j []) = ESP_OK) →
    T (log ++ txs.take k) (txs.getD k []) ≠ ESP_OK →
    r = some { sent := log ++ txs.take k,
               aborted := some (T (log ++ txs.take k) (txs.getD k [])) }

/-- A transport on which the transaction number `n` (counted from 0 over the whole log)
fails with `ESP_FAIL`, and every other one succeeds. -/
def transport_fails_at (n : Nat) : transport_t :=
  fun log _ => if log.length = n then 0xFFFFFFFF else ESP_OK

/-! ## Construction -/

/-- The value `ESP_ERR_NO_MEM` of `esp_err.h`. -/
def ESP_ERR_NO_MEM : Nat := 0x101

/-- The value `ESP_ERR_INVALID_ARG` of `esp_err.h`. -/
def ESP_ERR_INVALID_ARG : Nat := 0x102

/-- The opcodes of `ssd1306_cmd.h` that the power-up sequence uses. The header is not part
of the sources: the opcodes are parameters. -/
structure oled_init_cmd_t where
  OLED_CMD_DISPLAY_OFF : Nat
  OLED_CMD_SET_MUX_RATIO : Nat
  OLED_CMD_SET_VERT_DISPLAY_OFFSET : Nat
  OLED_MASK_DISPLAY_START_LINE : Nat
  OLED_CMD_SET_COM_PIN_HARDWARE_MAP : Nat
  OLED_CMD_SET_MEMORY_ADDR_MODE : Nat
  OLED_CMD_SET_CONTRAST_CONTROL : Nat
  OLED_CMD_SET_DISPLAY_CLK_DIVIDE : Nat
  OLED_CMD_ENABLE_DISPLAY_RAM : Nat
  OLED_CMD_NORMAL_DISPLAY : Nat
  OLED_CMD_SET_CHARGE_PUMP : Nat
  OLED_CMD_DISPLAY_ON : Nat
  OLED_CMD_COM_SCAN_DIRECTION_NORMAL : Nat
  OLED_CMD_COM_SCAN_DIRECTION_REMAP : Nat
  OLED_CMD_SEGMENT_REMAP_LEFT_TO_RIGHT : Nat
  OLED_CMD_SEGMENT_REMAP_RIGHT_TO_LEFT : Nat
deriving DecidableEq, Repr

/-- The power-up opcodes of the SSD1306 data sheet, for the examples. -/
def demo_init_cmd : oled_init_cmd_t :=
  { OLED_CMD_DISPLAY_OFF := 0xAE, OLED_CMD_SET_MUX_RATIO := 0xA8,
    OLED_CMD_SET_VERT_DISPLAY_OFFSET := 0xD3, OLED_MASK_DISPLAY_START_LINE := 0x40,
    OLED_CMD_SET_COM_PIN_HARDWARE_MAP := 0xDA, OLED_CMD_SET_MEMORY_ADDR_MODE := 0x20,
    OLED_CMD_SET_CONTRAST_CONTROL := 0x81, OLED_CMD_SET_DISPLAY_CLK_DIVIDE := 0xD5,
    OLED_CMD_ENABLE_DISPLAY_RAM := 0xA4, OLED_CMD_NORMAL_DISPLAY := 0xA6,
    OLED_CMD_SET_CHARGE_PUMP := 0x8D, OLED_CMD_DISPLAY_ON := 0xAF,
    OLED_CMD_COM_SCAN_DIRECTION_NORMAL := 0xC0, OLED_CMD_COM_SCAN_DIRECTION_REMAP := 0xC8,
    OLED_CMD_SEGMENT_REMAP_LEFT_TO_RIGHT := 0xA0,
    OLED_CMD_SEGMENT_REMAP_RIGHT_TO_LEFT := 0xA1 }

/-- The enumeration `ssd1306_wise_t`. -/
inductive ssd1306_wise_t where
  | SSD1306_TOP_TO_BOTTOM
  | SSD1306_BOTTOM_TO_TOP
deriving DecidableEq, Repr

/-- The collaborators of `i2c_ssd1306_init`: the `esp_err_t` that
`i2c_master_bus_add_device` returns, the transport behind `i2c_master_transmit`, and for
each call of `calloc` (number 0 allocates the page array, number `i + 1` the segments of
page `i`) whether it returns memory. -/
structure init_env where
  add_device : Nat
  T : transport_t
  calloc_ok : Nat → Bool

/-- Collaborators that all succeed. -/
def init_env_ok : init_env :=
  { add_device := ESP_OK, T := transport_ok, calloc_ok := fun _ => true }

/-- What a call of `i2c_ssd1306_init` leaves: the `esp_err_t` returned, whether
`i2c_master_bus_add_device` was called, the log of the bus, and the handle as far as it
was written (`none`: neither the configuration nor the framebuffer was written). -/
structure init_result where
  ret : Nat
  add_device_called : Bool
  sent : List (List Nat)
  handle : Option i2c_ssd1306_handle_t
deriving DecidableEq, Repr

/-- The array `ssd1306_init_cmd` of `i2c_ssd1306_init`, with elements 7 and 8 as the
`wise` branches set them. -/
def ssd1306_init_cmd (cmd : oled_cmd_t) (icmd : oled_init_cmd_t) (height : Nat)
    (wise : ssd1306_wise_t) : List Nat :=
  let arr := [
    to_u8 cmd.OLED_CONTROL_BYTE_CMD,
    to_u8 icmd.OLED_CMD_DISPLAY_OFF,
    to_u8 icmd.OLED_CMD_SET_MUX_RATIO, to_u8 (height - 1),
    to_u8 icmd.OLED_CMD_SET_VERT_DISPLAY_OFFSET, 0x00,
    to_u8 (icmd.OLED_MASK_DISPLAY_START_LINE ||| 0x00),
    0x00,
    0x00,
    to_u8 icmd.OLED_CMD_SET_COM_PIN_HARDWARE_MAP, 0x12,
    to_u8 icmd.OLED_CMD_SET_MEMORY_ADDR_MODE, 0x02,
    to_u8 icmd.OLED_CMD_SET_CONTRAST_CONTROL, 0xFF,
    to_u8 icmd.OLED_CMD_SET_DISPLAY_CLK_DIVIDE, 0x80,
    to_u8 icmd.OLED_CMD_ENABLE_DISPLAY_RAM,
    to_u8 icmd.OLED_CMD_NORMAL_DISPLAY,
    to_u8 icmd.OLED_CMD_SET_CHARGE_PUMP, 0x14,
    to_u8 icmd.OLED_CMD_DISPLAY_ON]
  match wise with
  | ssd1306_wise_t.SSD1306_TOP_TO_BOTTOM =>
    (arr.set 7 (to_u8 icmd.OLED_CMD_COM_SCAN_DIRECTION_NORMAL)).set 8
      (to_u8 icmd.OLED_CMD_SEGMENT_REMAP_LEFT_TO_RIGHT)
  | ssd1306_wise_t.SSD1306_BOTTOM_TO_TOP =>
    (arr.set 7 (to_u8 icmd.OLED_CMD_COM_SCAN_DIRECTION_REMAP)).set 8
      (to_u8 icmd.OLED_CMD_SEGMENT_REMAP_RIGHT_TO_LEFT)

/-- Store of a freshly allocated segment array to `page[i].segment`. -/
def page_set (pages : List ssd1306_page_t) (i : Nat) (segment : List Nat) :
    Option (List ssd1306_page_t) :=
  if i < pages.length then some (pages.set i { segment := segment }) else none

/-- The allocation loop of `i2c_ssd1306_init`. The state is the page array and whether a
`calloc` returned `NULL` (the `return ESP_ERR_NO_MEM` inside the loop). -/
def init_alloc_segments (env : init_env) (width total_pages : Nat)
    (pages : List ssd1306_page_t) : Option (List ssd1306_page_t × Bool) :=
  for_u8 0 (fun i => decide (i < total_pages))
    (fun i (s : List ssd1306_page_t × Bool) =>
      if env.calloc_ok (i + 1) then
        match page_set s.1 i (List.replicate width 0) with
        | none => none
        | some pages1 => some (loop_step.next (pages1, false))
      else some (loop_step.exit (s.1, true)))
    (pages, false)

/-- Embedding of `i2c_ssd1306_init`. `calloc` returns zeroed memory: the page array holds
`total_pages` pages without segments, a segment array `width` zero bytes. -/
def i2c_ssd1306_init (cmd : oled_cmd_t) (icmd : oled_init_cmd_t) (env : init_env)
    (log : List (List Nat)) (i2c_addr i2c_scl_speed_hz width height : Nat)
    (wise : ssd1306_wise_t) : Option init_result :=
  if i2c_scl_speed_hz > 400000 ∨ width > 128 ∨ height < 16 ∨ height > 64 ∨ height % 8 ≠ 0 then
    some { ret := ESP_ERR_INVALID_ARG, add_device_called := false, sent := log, handle := none }
  else if env.add_device ≠ ESP_OK then
    some { ret := env.add_device, add_device_called := true, sent := log, handle := none }
  else
    let init_cmd := ssd1306_init_cmd cmd icmd height wise
    if env.T log init_cmd ≠ ESP_OK then
      some { ret := env.T log init_cmd, add_device_called := true, sent := log,
             handle := none }
    else
      let total_pages := to_u8 (height / 8)
      let hd : i2c_ssd1306_handle_t :=
        { i2c_addr := i2c_addr, scl_speed_hz := i2c_scl_speed_hz, width := width,
          height := height, total_pages := total_pages, page := [] }
      if ¬ env.calloc_ok 0 then
        some { ret := ESP_ERR_NO_MEM, add_device_called := true, sent := log ++ [init_cmd],
               handle := some hd }
      else
        match init_alloc_segments env width total_pages
            (List.replicate total_pages { segment := [] }) with
        | none => none
        | some (pages, failed) =>
          if failed then
            some { ret := ESP_ERR_NO_MEM, add_device_called := true,
                   sent := log ++ [init_cmd], handle := some { hd with page := pages } }
          else
            some { ret := ESP_OK, add_device_called := true, sent := log ++ [init_cmd],
                   handle := some { hd with page := pages } }

/-- Number of bytes of the framebuffer. -/
def byte_count (h : i2c_ssd1306_handle_t) : Nat :=
  (h.page.map (fun pg => pg.segment.length)).sum

/-- The row `font8x8[(uint8_t)ch]` of the glyph table, as the 8-byte bitmap handed to
`i2c_ssd1306_buffer_image` (one page of 8 columns). -/
def glyph_image (font8x8 : Nat → Nat → Nat) (ch : Nat) : List Nat :=
  (List.range 8).map (fun j => font8x8 (to_u8 ch) j)

/-! ## Bit-level facts -/

theorem to_u8_lt (v : Nat) : to_u8 v < 256 := Nat.mod_lt _ (by decide)

theorem to_u8_of_lt {v : Nat} (hv : v < 256) : to_u8 v = v := Nat.mod_eq_of_lt hv

theorem testBit_to_u8 (v j : Nat) : (to_u8 v).testBit j = (decide (j < 8) && v.testBit j) := by
  have : to_u8 v = v % 2 ^ 8 := rfl
  rw [this, Nat.testBit_mod_two_pow]

theorem testBit_of_byte {b j : Nat} (hb : b < 256) (hj : 8 ≤ j) : b.testBit j = false := by
  apply Nat.testBit_lt_two_pow
  calc b < 2 ^ 8 := hb
    _ ≤ 2 ^ j := Nat.pow_le_pow_right (by decide) hj

theorem testBit_int_shl (v k j : Nat) :
    (int_shl v k).testBit j = (decide (j < 32) && (decide (k ≤ j) && v.testBit (j - k))) := by
  unfold int_shl
  rw [Nat.testBit_mod_two_pow, Nat.testBit_shiftLeft]

theorem testBit_int_not (v j : Nat) :
    (int_not v).testBit j = (v.testBit j ^^ decide (j < 32)) := by
  unfold int_not
  have : (0xFFFFFFFF : Nat) = 2 ^ 32 - 1 := by norm_num
  rw [Nat.testBit_xor, this, Nat.testBit_two_pow_sub_one]

theorem testBit_one (m : Nat) : Nat.testBit 1 m = decide (m = 0) := by
  cases m with
  | zero => rfl
  | succ m => simp [Nat.testBit_succ]

/-- Bits of a byte after `|= 1 << k`. -/
theorem testBit_or_bit {b k : Nat} (hb : b < 256) (hk : k < 8) (j : Nat) :
    (to_u8 (b ||| int_shl 1 k)).testBit j = (b.testBit j || decide (j = k)) := by
  rw [testBit_to_u8, Nat.testBit_or, testBit_int_shl]
  by_cases hj : j < 8
  · by_cases hjk : j = k
    · subst hjk; simp [hj]; omega
    · have h32 : j < 32 := by omega
      by_cases hle : k ≤ j
      · have : j - k ≠ 0 := by omega
        simp [hj, hjk, h32, hle, testBit_one, this]
      · simp [hj, hjk, hle]
  · have hne : j ≠ k := by omega
    simp [hj, hne, testBit_of_byte hb (by omega : 8 ≤ j)]

/-- Bits of a byte after `&= ~(1 << k)`. -/
theorem testBit_and_not_bit {b k : Nat} (hb : b < 256) (hk : k < 8) (j : Nat) :
    (to_u8 (b &&& int_not (int_shl 1 k))).testBit j = (b.testBit j && !decide (j = k)) := by
  rw [testBit_to_u8, Nat.testBit_and, testBit_int_not, testBit_int_shl]
  by_cases hj : j < 8
  · have h32 : j < 32 := by omega
    by_cases hjk : j = k
    · subst hjk; simp [hj, h32]
    · by_cases hle : k ≤ j
      · have : j - k ≠ 0 := by omega
        simp [hj, hjk, h32, hle, testBit_one, this]
      · simp [hj, hjk, hle, h32]
  · simp [hj, testBit_of_byte hb (by omega : 8 ≤ j)]

/-! ## Framebuffer accesses -/

theorem same_config_refl (h : i2c_ssd1306_handle_t) : same_config h h :=
  ⟨rfl, rfl, rfl, rfl, rfl⟩

theorem same_config_trans {h k l : i2c_ssd1306_handle_t} (a : same_config h k)
    (b : same_config k l) : same_config h l := by
  obtain ⟨a1, a2, a3, a4, a5⟩ := a
  obtain ⟨b1, b2, b3, b4, b5⟩ := b
  exact ⟨b1.trans a1, b2.trans a2, b3.trans a3, b4.trans a4, b5.trans a5⟩

theorem config_ok_of_same {h k : i2c_ssd1306_handle_t} (a : same_config h k)
    (hc : config_ok h) : config_ok k := by
  obtain ⟨_, _, a3, a4, a5⟩ := a
  unfold config_ok at *
  rw [a3, a4, a5]; exact hc

theorem seg_read_some {h : i2c_ssd1306_handle_t} (hs : shape_ok h) {p c : Nat}
    (hp : p < h.total_pages) (hc : c < h.width) : ∃ b, seg_read h p c = some b := by
  obtain ⟨hl, hw⟩ := hs
  have hp1 : p < h.page.length := by omega
  have hm : h.page[p] ∈ h.page := List.getElem_mem hp1
  have hc1 : c < (h.page[p]).segment.length := by rw [hw _ hm]; exact hc
  refine ⟨(h.page[p]).segment[c], ?_⟩
  simp [seg_read, List.getElem?_eq_getElem hp1, List.getElem?_eq_getElem hc1]

theorem seg_read_lt {h : i2c_ssd1306_handle_t} (hb : bytes_ok h) {p c b : Nat}
    (hr : seg_read h p c = some b) : b < 256 := by
  unfold seg_read at hr
  cases hpg : h.page[p]? with
  | none => simp [hpg] at hr
  | some pg =>
    simp only [hpg] at hr
    exact hb pg (List.getElem?_mem hpg) b (List.getElem?_mem hr)

theorem seg_read_none_of_page {h : i2c_ssd1306_handle_t} (hs : shape_ok h) {p : Nat}
    (hp : h.total_pages ≤ p) (c : Nat) : seg_read h p c = none := by
  have : h.page[p]? = none := List.getElem?_eq_none (by rw [hs.1]; exact hp)
  simp [seg_read, this]

theorem seg_read_none_of_col {h : i2c_ssd1306_handle_t} (hs : shape_ok h) {c : Nat}
    (hc : h.width ≤ c) (p : Nat) : seg_read h p c = none := by
  unfold seg_read
  cases hpg : h.page[p]? with
  | none => rfl
  | some pg =>
    have := hs.2 pg (List.getElem?_mem hpg)
    exact List.getElem?_eq_none (by omega)

/-- A store inside the allocated framebuffer succeeds, keeps the configuration and the
shape, and changes the byte written and no other. -/
theorem seg_write_spec {h : i2c_ssd1306_handle_t} (hs : shape_ok h) {p c : Nat}
    (hp : p < h.total_pages) (hc : c < h.width) (v : Nat) :
    ∃ k, seg_write h p c v = some k ∧ same_config h k ∧ shape_ok k ∧
      (bytes_ok h → v < 256 → bytes_ok k) ∧
      ∀ q d, seg_read k q d = if q = p ∧ d = c then some v else seg_read h q d := by
  obtain ⟨hl, hw⟩ := hs
  have hp1 : p < h.page.length := by omega
  have hm : h.page[p] ∈ h.page := List.getElem_mem hp1
  have hc1 : c < (h.page[p]).segment.length := by rw [hw _ hm]; exact hc
  refine ⟨{ h with page := h.page.set p ⟨(h.page[p]).segment.set c v⟩ }, ?_, ?_, ?_, ?_, ?_⟩
  · simp [seg_write, List.getElem?_eq_getElem hp1, hc1]
  · exact ⟨rfl, rfl, rfl, rfl, rfl⟩
  · refine ⟨by simp [hl], ?_⟩
    intro pg hpg
    rcases List.mem_or_eq_of_mem_set hpg with h1 | h1
    · exact hw pg h1
    · subst h1; simp [hw _ hm]
  · intro hb hv pg hpg b hbm
    rcases List.mem_or_eq_of_mem_set hpg with h1 | h1
    · exact hb pg h1 b hbm
    · subst h1
      rcases List.mem_or_eq_of_mem_set hbm with h2 | h2
      · exact hb _ hm b h2
      · subst h2; exact hv
  · intro q d
    simp only [seg_read, List.getElem?_set]
    by_cases hq : p = q
    · subst hq
      simp only [hp1, if_true, true_and, List.getElem?_eq_getElem hp1, List.getElem?_set]
      by_cases hd : c = d
      · subst hd; simp [hc1]
      · have : ¬ d = c := fun e => hd e.symm
        simp [hd, this]
    · have : ¬ q = p := fun e => hq e.symm
      simp [hq, this]

/-- The statement `page[p].segment[c] |= v` inside the framebuffer. -/
theorem seg_or_assign_spec {h : i2c_ssd1306_handle_t} (hs : shape_ok h) {p c : Nat}
    (hp : p < h.total_pages) (hc : c < h.width) (v : Nat) :
    ∃ k b, seg_read h p c = some b ∧ seg_or_assign h p c v = some k ∧ same_config h k ∧
      shape_ok k ∧ (bytes_ok h → bytes_ok k) ∧
      ∀ q d, seg_read k q d =
        if q = p ∧ d = c then some (to_u8 (b ||| v)) else seg_read h q d := by
  obtain ⟨b, hb⟩ := seg_read_some hs hp hc
  obtain ⟨k, hk, h1, h2, h3, h4⟩ := seg_write_spec hs hp hc (to_u8 (b ||| v))
  exact ⟨k, b, hb, by simp [seg_or_assign, hb, hk], h1, h2,
    fun hbo => h3 hbo (to_u8_lt _), h4⟩

/-- The statement `page[p].segment[c] &= v` inside the framebuffer. -/
theorem seg_and_assign_spec {h : i2c_ssd1306_handle_t} (hs : shape_ok h) {p c : Nat}
    (hp : p < h.total_pages) (hc : c < h.width) (v : Nat) :
    ∃ k b, seg_read h p c = some b ∧ seg_and_assign h p c v = some k ∧ same_config h k ∧
      shape_ok k ∧ (bytes_ok h → bytes_ok k) ∧
      ∀ q d, seg_read k q d =
        if q = p ∧ d = c then some (to_u8 (b &&& v)) else seg_read h q d := by
  obtain ⟨b, hb⟩ := seg_read_some hs hp hc
  obtain ⟨k, hk, h1, h2, h3, h4⟩ := seg_write_spec hs hp hc (to_u8 (b &&& v))
  exact ⟨k, b, hb, by simp [seg_and_assign, hb, hk], h1, h2,
    fun hbo => h3 hbo (to_u8_lt _), h4⟩

/-- The statement `page[p].segment[c] = v` inside the framebuffer. -/
theorem seg_assign_spec {h : i2c_ssd1306_handle_t} (hs : shape_ok h) {p c : Nat}
    (hp : p < h.total_pages) (hc : c < h.width) (v : Nat) :
    ∃ k, seg_assign h p c v = some k ∧ same_config h k ∧ shape_ok k ∧
      (bytes_ok h → bytes_ok k) ∧
      ∀ q d, seg_read k q d = if q = p ∧ d = c then some (to_u8 v) else seg_read h q d := by
  obtain ⟨k, hk, h1, h2, h3, h4⟩ := seg_write_spec hs hp hc (to_u8 v)
  exact ⟨k, hk, h1, h2, fun hbo => h3 hbo (to_u8_lt _), h4⟩

/-! ## Loop rules -/

theorem loop_u8_rule {σ : Type} (cond : Nat → Bool) (body : Nat → σ → Option (loop_step σ))
    (n : Nat) (hn : n ≤ 255) (Inv : Nat → σ → Prop) (Post : σ → Prop)
    (hcond : ∀ i, i ≤ n → (cond i = true ↔ i < n))
    (hstep : ∀ i s, i < n → Inv i s →
      (∃ t, body i s = some (loop_step.next t) ∧ Inv (i + 1) t) ∨
      (∃ t, body i s = some (loop_step.exit t) ∧ Post t))
    (hend : ∀ s, Inv n s → Post s) :
    ∀ (d i fuel : Nat) (s : σ), i + d = n → d + 1 ≤ fuel → Inv i s →
      ∃ t, loop_u8 cond body fuel i s = some t ∧ Post t := by
  intro d
  induction d with
  | zero =>
    intro i fuel s hi hf hinv
    obtain ⟨f, rfl⟩ : ∃ f, fuel = f + 1 := ⟨fuel - 1, by omega⟩
    have hin : i = n := by omega
    subst hin
    have hc : cond i = false := by
      cases hcc : cond i with
      | false => rfl
      | true => exact absurd ((hcond i (le_refl _)).1 hcc) (lt_irrefl _)
    exact ⟨s, by simp [loop_u8, hc], hend s hinv⟩
  | succ d ih =>
    intro i fuel s hi hf hinv
    obtain ⟨f, rfl⟩ : ∃ f, fuel = f + 1 := ⟨fuel - 1, by omega⟩
    have hlt : i < n := by omega
    have hc : cond i = true := (hcond i (by omega)).2 hlt
    have hwrap : to_u8 (i + 1) = i + 1 := to_u8_of_lt (by omega)
    rcases hstep i s hlt hinv with ⟨t, hb, ht⟩ | ⟨t, hb, ht⟩
    · obtain ⟨u, hu, hpost⟩ := ih (i + 1) f t (by omega) (by omega) ht
      exact ⟨u, by simp [loop_u8, hc, hb, hwrap, hu], hpost⟩
    · exact ⟨t, by simp [loop_u8, hc, hb], ht⟩

/-- Hoare rule for a counting loop from `a` up to (excluding) `n` whose body may `return`. -/
theorem for_u8_rule {σ : Type} {c : Nat → Bool} {b : Nat → σ → Option (loop_step σ)}
    {a n : Nat} (han : a ≤ n) (hn : n ≤ 255) (Inv : Nat → σ → Prop) (Post : σ → Prop)
    (hcond : ∀ i, i ≤ n → (c i = true ↔ i < n)) {s : σ} (h0 : Inv a s)
    (hstep : ∀ i s, a ≤ i → i < n → Inv i s →
      (∃ t, b i s = some (loop_step.next t) ∧ Inv (i + 1) t) ∨
      (∃ t, b i s = some (loop_step.exit t) ∧ Post t))
    (hend : ∀ s, Inv n s → Post s) :
    ∃ t, for_u8 a c b s = some t ∧ Post t := by
  have := loop_u8_rule c b n hn (fun i s => a ≤ i ∧ Inv i s) Post hcond
    (fun i s hi hinv => by
      rcases hstep i s hinv.1 hi hinv.2 with ⟨t, hb, ht⟩ | ⟨t, hb, ht⟩
      · exact Or.inl ⟨t, hb, by omega, ht⟩
      · exact Or.inr ⟨t, hb, ht⟩)
    (fun s hs => hend s hs.2) (n - a) a 257 s (by omega) (by omega) ⟨le_refl _, h0⟩
  exact this

/-- Hoare rule for a counting loop from `a` up to (excluding) `n` without `return`. -/
theorem for_u8_plain_rule {σ : Type} {c : Nat → Bool} {f : Nat → σ → Option σ}
    {a n : Nat} (han : a ≤ n) (hn : n ≤ 255) (Inv : Nat → σ → Prop)
    (hcond : ∀ i, i ≤ n → (c i = true ↔ i < n)) {s : σ} (h0 : Inv a s)
    (hstep : ∀ i s, a ≤ i → i < n → Inv i s → ∃ t, f i s = some t ∧ Inv (i + 1) t) :
    ∃ t, for_u8 a c (fun i s => plain (f i s)) s = some t ∧ Inv n t := by
  refine for_u8_rule han hn Inv (Inv n) hcond h0 ?_ (fun s hs => hs)
  intro i s hai hin hinv
  obtain ⟨t, ht, hi⟩ := hstep i s hai hin hinv
  exact Or.inl ⟨t, by simp [plain, ht], hi⟩

/-! ## Single pixels -/

theorem page_lt_of_row {h : i2c_ssd1306_handle_t} (hc : config_ok h) {y : Nat}
    (hy : y < h.height) : y / 8 < h.total_pages := by
  obtain ⟨_, _, _, h8, ht⟩ := hc
  omega

/-- The pixel store shared by `fill_pixel` and `fill_space`: `|= 1 << (y % 8)` to light,
`&= ~(1 << (y % 8))` to clear. -/
theorem store_bit_spec {h : i2c_ssd1306_handle_t} (hok : handle_ok h) {x y : Nat}
    (hx : x < h.width) (hy : y < h.height) (lit : Bool) :
    ∃ k b c,
      (if lit then seg_or_assign h (y / 8) x (int_shl 1 (y % 8))
        else seg_and_assign h (y / 8) x (int_not (int_shl 1 (y % 8)))) = some k ∧
      same_config h k ∧ handle_ok k ∧
      seg_read h (y / 8) x = some b ∧ seg_read k (y / 8) x = some c ∧
      (∀ j, c.testBit j = if j = y % 8 then lit else b.testBit j) ∧
      ∀ q d, ¬ (q = y / 8 ∧ d = x) → seg_read k q d = seg_read h q d := by
  obtain ⟨hcfg, hs, hb⟩ := hok
  have hp := page_lt_of_row hcfg hy
  have hk8 : y % 8 < 8 := Nat.mod_lt _ (by decide)
  cases lit with
  | true =>
    obtain ⟨k, b, hr, hw, h1, h2, h3, h4⟩ := seg_or_assign_spec hs hp hx (int_shl 1 (y % 8))
    refine ⟨k, b, to_u8 (b ||| int_shl 1 (y % 8)), by simpa using hw, h1,
      ⟨config_ok_of_same h1 hcfg, h2, h3 hb⟩, hr, by simp [h4], ?_, ?_⟩
    · intro j
      rw [testBit_or_bit (seg_read_lt hb hr) hk8]
      by_cases hj : j = y % 8 <;> simp [hj]
    · intro q d hqd
      simp [h4, hqd]
  | false =>
    obtain ⟨k, b, hr, hw, h1, h2, h3, h4⟩ :=
      seg_and_assign_spec hs hp hx (int_not (int_shl 1 (y % 8)))
    refine ⟨k, b, to_u8 (b &&& int_not (int_shl 1 (y % 8))), by simpa using hw, h1,
      ⟨config_ok_of_same h1 hcfg, h2, h3 hb⟩, hr, by simp [h4], ?_, ?_⟩
    · intro j
      rw [testBit_and_not_bit (seg_read_lt hb hr) hk8]
      by_cases hj : j = y % 8 <;> simp [hj]
    · intro q d hqd
      simp [h4, hqd]

/-- The pixel store at the level of pixels: pixel `(x, y)` becomes `lit`, every other
pixel keeps its value. -/
theorem store_bit_pixel {h : i2c_ssd1306_handle_t} (hok : handle_ok h) {x y : Nat}
    (hx : x < h.width) (hy : y < h.height) (lit : Bool) :
    ∃ k,
      (if lit then seg_or_assign h (y / 8) x (int_shl 1 (y % 8))
        else seg_and_assign h (y / 8) x (int_not (int_shl 1 (y % 8)))) = some k ∧
      same_config h k ∧ handle_ok k ∧
      ∀ u v, pixel k u v = if u = x ∧ v = y then lit else pixel h u v := by
  obtain ⟨k, b, c, hrun, hsame, hok1, hb, hc, hbits, hframe⟩ := store_bit_spec hok hx hy lit
  refine ⟨k, hrun, hsame, hok1, ?_⟩
  intro u v
  by_cases hq : v / 8 = y / 8 ∧ u = x
  · obtain ⟨hq1, hq2⟩ := hq
    subst hq2
    simp only [pixel, hq1, hb, hc, hbits, true_and]
    by_cases hv : v = y
    · subst hv; simp
    · have : ¬ v % 8 = y % 8 := by omega
      simp [hv, this]
  · have hne : ¬ (u = x ∧ v = y) := by
      rintro ⟨rfl, rfl⟩; exact hq ⟨rfl, rfl⟩
    simp only [pixel, hframe _ _ hq, hne, if_false]

/-- C1: for an in-range `(x, y)`, `i2c_ssd1306_buffer_fill_pixel` succeeds and makes bit
`y % 8` of byte `page[y / 8].segment[x]` equal to `lit`; every other bit of that byte and
every other byte of the framebuffer keep their value, and so does the configuration. -/
theorem fill_pixel_sets_bit (h : i2c_ssd1306_handle_t) (hok : handle_ok h) (x y : Nat)
    (hx : x < h.width) (hy : y < h.height) (lit : Bool) :
    ∃ k b c, i2c_ssd1306_buffer_fill_pixel h x y lit = some k ∧
      same_config h k ∧ handle_ok k ∧
      seg_read h (y / 8) x = some b ∧ seg_read k (y / 8) x = some c ∧
      c.testBit (y % 8) = lit ∧
      (∀ j, j ≠ y % 8 → c.testBit j = b.testBit j) ∧
      ∀ q d, ¬ (q = y / 8 ∧ d = x) → seg_read k q d = seg_read h q d := by
  obtain ⟨k, b, c, hrun, hsame, hok1, hb, hc, hbits, hframe⟩ := store_bit_spec hok hx hy lit
  refine ⟨k, b, c, ?_, hsame, hok1, hb, hc, by simp [hbits], ?_, hframe⟩
  · have hg : ¬ (x ≥ h.width ∨ y ≥ h.height) := by omega
    unfold i2c_ssd1306_buffer_fill_pixel
    rw [if_neg hg]
    cases lit <;> simpa using hrun
  · intro j hj
    simp [hbits, hj]

theorem fill_pixel_sets_bit_witness :
    ∃ k b c, i2c_ssd1306_buffer_fill_pixel demo_handle 3 9 true = some k ∧
      same_config demo_handle k ∧ handle_ok k ∧
      seg_read demo_handle (9 / 8) 3 = some b ∧ seg_read k (9 / 8) 3 = some c ∧
      c.testBit (9 % 8) = true ∧
      (∀ j, j ≠ 9 % 8 → c.testBit j = b.testBit j) ∧
      ∀ q d, ¬ (q = 9 / 8 ∧ d = 3) → seg_read k q d = seg_read demo_handle q d :=
  fill_pixel_sets_bit demo_handle (by decide) 3 9 (by decide) (by decide) true

/-! ## Rectangles -/

/-- The rectangle fill at the level of pixels. -/
theorem fill_space_pixels {h : i2c_ssd1306_handle_t} (hok : handle_ok h) {x1 x2 y1 y2 : Nat}
    (hx : x1 ≤ x2) (hx2 : x2 < h.width) (hy : y1 ≤ y2) (hy2 : y2 < h.height) (lit : Bool) :
    ∃ k, i2c_ssd1306_buffer_fill_space h x1 x2 y1 y2 lit = some k ∧
      same_config h k ∧ handle_ok k ∧
      ∀ u v, pixel k u v =
        if x1 ≤ u ∧ u ≤ x2 ∧ y1 ≤ v ∧ v ≤ y2 then lit else pixel h u v := by
  have hcfg := hok.1
  obtain ⟨hw128, _, hh64, _, _⟩ := hcfg
  have hg : ¬ (x1 ≥ h.width ∨ x2 ≥ h.width ∨ y1 ≥ h.height ∨ y2 ≥ h.height ∨ x1 > x2 ∨
      y1 > y2) := by omega
  unfold i2c_ssd1306_buffer_fill_space
  rw [if_neg hg]
  have houter := for_u8_plain_rule (a := y1) (n := y2 + 1)
    (c := fun i => decide (i ≤ y2))
    (f := fun i hi => for_u8 x1 (fun j => decide (j ≤ x2))
          (fun j hj =>
            if lit then plain (seg_or_assign hj (i / 8) j (int_shl 1 (i % 8)))
            else plain (seg_and_assign hj (i / 8) j (int_not (int_shl 1 (i % 8))))) hi)
    (by omega) (by omega)
    (fun i k => same_config h k ∧ handle_ok k ∧
      ∀ u v, pixel k u v =
        if x1 ≤ u ∧ u ≤ x2 ∧ y1 ≤ v ∧ v < i then lit else pixel h u v)
    (by intro i _; simp; omega) (s := h)
    ⟨same_config_refl h, hok, by
      intro u v
      have : ¬ (x1 ≤ u ∧ u ≤ x2 ∧ y1 ≤ v ∧ v < y1) := by omega
      simp [this]⟩
    (by
      intro i s hyi hiy ⟨hsame, hoks, hpix⟩
      have hinner := for_u8_plain_rule (a := x1) (n := x2 + 1)
        (c := fun j => decide (j ≤ x2))
        (f := fun j hj =>
          if lit then seg_or_assign hj (i / 8) j (int_shl 1 (i % 8))
          else seg_and_assign hj (i / 8) j (int_not (int_shl 1 (i % 8))))
        (by omega) (by omega)
        (fun j k => same_config h k ∧ handle_ok k ∧
          ∀ u v, pixel k u v =
            if (x1 ≤ u ∧ u ≤ x2 ∧ y1 ≤ v ∧ v < i) ∨ (v = i ∧ x1 ≤ u ∧ u < j) then lit
            else pixel h u v)
        (by intro j _; simp; omega) (s := s)
        ⟨hsame, hoks, by
          intro u v
          rw [hpix]
          have : ¬ (v = i ∧ x1 ≤ u ∧ u < x1) := by omega
          simp [this]⟩
        (by
          intro j t hxj hjx ⟨hsame1, hokt, hpixt⟩
          have hjw : j < t.width := by rw [hsame1.2.2.1]; omega
          have hih : i < t.height := by rw [hsame1.2.2.2.1]; omega
          obtain ⟨k, hrun, hsame2, hokk, hpixk⟩ := store_bit_pixel hokt hjw hih lit
          refine ⟨k, hrun, same_config_trans hsame1 hsame2, hokk, ?_⟩
          intro u v
          rw [hpixk, hpixt]
          by_cases huv : u = j ∧ v = i
          · obtain ⟨rfl, rfl⟩ := huv
            have : (x1 ≤ u ∧ u ≤ x2 ∧ y1 ≤ v ∧ v < v) ∨ (v = v ∧ x1 ≤ u ∧ u < u + 1) := by
              right; omega
            rw [if_pos ⟨rfl, rfl⟩, if_pos this]
          · rw [if_neg huv]
            have : ((x1 ≤ u ∧ u ≤ x2 ∧ y1 ≤ v ∧ v < i) ∨ (v = i ∧ x1 ≤ u ∧ u < j + 1)) ↔
                ((x1 ≤ u ∧ u ≤ x2 ∧ y1 ≤ v ∧ v < i) ∨ (v = i ∧ x1 ≤ u ∧ u < j)) := by
              constructor
              · rintro (a | ⟨b1, b2, b3⟩)
                · exact Or.inl a
                · refine Or.inr ⟨b1, b2, ?_⟩
                  by_contra hcon
                  exact huv ⟨by omega, b1⟩
              · rintro (a | ⟨b1, b2, b3⟩)
                · exact Or.inl a
                · exact Or.inr ⟨b1, b2, by omega⟩
            simp only [this])
      obtain ⟨t, hrun, hsame1, hokt, hpixt⟩ := hinner
      refine ⟨t, by cases lit <;> exact hrun, hsame1, hokt, ?_⟩
      intro u v
      rw [hpixt]
      have : ((x1 ≤ u ∧ u ≤ x2 ∧ y1 ≤ v ∧ v < i) ∨ (v = i ∧ x1 ≤ u ∧ u < x2 + 1)) ↔
          (x1 ≤ u ∧ u ≤ x2 ∧ y1 ≤ v ∧ v < i + 1) := by omega
      simp only [this])
  obtain ⟨k, hrun, hsame, hokk, hpix⟩ := houter
  refine ⟨k, hrun, hsame, hokk, ?_⟩
  intro u v
  rw [hpix]
  have : (x1 ≤ u ∧ u ≤ x2 ∧ y1 ≤ v ∧ v < y2 + 1) ↔ (x1 ≤ u ∧ u ≤ x2 ∧ y1 ≤ v ∧ v ≤ y2) := by
    omega
  simp only [this]

/-! ## Counting lit pixels -/

theorem list_sum_map_index {α : Type} (f : α → Nat) (l : List α) :
    (l.map f).sum = ∑ i in Finset.range l.length, ((l[i]?).map f).getD 0 := by
  induction l with
  | nil => simp
  | cons a l ih =>
    rw [List.map_cons, List.sum_cons, List.length_cons, Finset.sum_range_succ', ih]
    simp [add_comm]

theorem length_filter_range (p : Nat → Bool) (n : Nat) :
    ((List.range n).filter p).length = ∑ i in Finset.range n, if p i then 1 else 0 := by
  induction n with
  | zero => simp
  | succ n ih =>
    rw [List.range_succ, List.filter_append, List.length_append, ih, Finset.sum_range_succ]
    by_cases hp : p n <;> simp [hp]

theorem sum_pages_rows (g : Nat → Nat) (P : Nat) :
    ∑ p in Finset.range P, ∑ j in Finset.range 8, g (8 * p + j) =
      ∑ y in Finset.range (8 * P), g y := by
  induction P with
  | zero => simp
  | succ P ih =>
    rw [Finset.sum_range_succ, ih, Nat.mul_succ, Finset.sum_range_add]

theorem sum_interval (a b n : Nat) (hab : a ≤ b) (hb : b < n) :
    (∑ y in Finset.range n, if a ≤ y ∧ y ≤ b then 1 else 0) = b - a + 1 := by
  rw [Finset.sum_boole]
  have : Finset.filter (fun y => a ≤ y ∧ y ≤ b) (Finset.range n) = Finset.Icc a b := by
    ext y
    simp only [Finset.mem_filter, Finset.mem_range, Finset.mem_Icc]
    omega
  rw [this]
  simp
  omega

/-- The lit pixels counted byte by byte are the lit pixels counted by coordinates. -/
theorem lit_pixels_eq {k : i2c_ssd1306_handle_t} (hs : shape_ok k) :
    lit_pixels k = ∑ c in Finset.range k.width, ∑ y in Finset.range (8 * k.total_pages),
      if pixel k c y then 1 else 0 := by
  obtain ⟨hl, hw⟩ := hs
  have h1 : lit_pixels k = ∑ p in Finset.range k.total_pages, ∑ c in Finset.range k.width,
      ∑ j in Finset.range 8, if pixel k c (8 * p + j) then 1 else 0 := by
    unfold lit_pixels
    rw [list_sum_map_index, hl]
    apply Finset.sum_congr rfl
    intro p hp
    have hp1 : p < k.page.length := by rw [hl]; exact Finset.mem_range.1 hp
    have hm : k.page[p] ∈ k.page := List.getElem_mem hp1
    rw [List.getElem?_eq_getElem hp1]
    simp only [Option.map_some', Option.getD_some]
    rw [list_sum_map_index, hw _ hm]
    apply Finset.sum_congr rfl
    intro c hc
    have hc1 : c < (k.page[p]).segment.length := by rw [hw _ hm]; exact Finset.mem_range.1 hc
    rw [List.getElem?_eq_getElem hc1]
    simp only [Option.map_some', Option.getD_some]
    unfold bit_count
    rw [length_filter_range]
    apply Finset.sum_congr rfl
    intro j hj
    have hj8 : j < 8 := Finset.mem_range.1 hj
    have e1 : (8 * p + j) / 8 = p := by omega
    have e2 : (8 * p + j) % 8 = j := by omega
    simp [pixel, seg_read, e1, e2, List.getElem?_eq_getElem hp1, List.getElem?_eq_getElem hc1]
  rw [h1, Finset.sum_comm]
  apply Finset.sum_congr rfl
  intro c _
  exact sum_pages_rows (fun y => if pixel k c y then 1 else 0) k.total_pages

theorem count_rectangle (W H x1 x2 y1 y2 : Nat) (hx : x1 ≤ x2) (hx2 : x2 < W) (hy : y1 ≤ y2)
    (hy2 : y2 < H) :
    (∑ c in Finset.range W, ∑ y in Finset.range H,
      if x1 ≤ c ∧ c ≤ x2 ∧ y1 ≤ y ∧ y ≤ y2 then 1 else 0) = (x2 - x1 + 1) * (y2 - y1 + 1) := by
  have inner : ∀ c, (∑ y in Finset.range H,
      if x1 ≤ c ∧ c ≤ x2 ∧ y1 ≤ y ∧ y ≤ y2 then 1 else 0) =
      (if x1 ≤ c ∧ c ≤ x2 then 1 else 0) * (y2 - y1 + 1) := by
    intro c
    by_cases hc : x1 ≤ c ∧ c ≤ x2
    · rw [if_pos hc, one_mul, ← sum_interval y1 y2 H hy hy2]
      apply Finset.sum_congr rfl
      intro y _
      simp [hc.1, hc.2]
    · rw [if_neg hc, zero_mul]
      apply Finset.sum_eq_zero
      intro y _
      have : ¬ (x1 ≤ c ∧ c ≤ x2 ∧ y1 ≤ y ∧ y ≤ y2) := fun e => hc ⟨e.1, e.2.1⟩
      simp [this]
  simp only [inner]
  rw [← Finset.sum_mul, sum_interval x1 x2 W hx hx2]

theorem pixel_false_of_zero {h : i2c_ssd1306_handle_t}
    (hz : ∀ p c b, seg_read h p c = some b → b = 0) (u v : Nat) : pixel h u v = false := by
  unfold pixel
  cases hr : seg_read h (v / 8) u with
  | none => rfl
  | some b => simp [hz _ _ _ hr]

/-- C2: for `x1 <= x2 < width` and `y1 <= y2 < height`, `i2c_ssd1306_buffer_fill_space`
terminates, sets every pixel of the inclusive rectangle to `lit` and leaves every pixel
outside of it unchanged; on an all-zero framebuffer, filling with `true` leaves exactly
`(x2 - x1 + 1) * (y2 - y1 + 1)` set bits counted over all bytes. -/
theorem fill_space_rectangle (h : i2c_ssd1306_handle_t) (hok : handle_ok h)
    (x1 x2 y1 y2 : Nat) (hx : x1 ≤ x2) (hx2 : x2 < h.width) (hy : y1 ≤ y2)
    (hy2 : y2 < h.height) (lit : Bool) :
    ∃ k, i2c_ssd1306_buffer_fill_space h x1 x2 y1 y2 lit = some k ∧
      same_config h k ∧ handle_ok k ∧
      (∀ u v, x1 ≤ u → u ≤ x2 → y1 ≤ v → v ≤ y2 → pixel k u v = lit) ∧
      (∀ u v, ¬ (x1 ≤ u ∧ u ≤ x2 ∧ y1 ≤ v ∧ v ≤ y2) → pixel k u v = pixel h u v) ∧
      (lit = true → (∀ p c b, seg_read h p c = some b → b = 0) →
        lit_pixels k = (x2 - x1 + 1) * (y2 - y1 + 1)) := by
  obtain ⟨k, hrun, hsame, hokk, hpix⟩ := fill_space_pixels hok hx hx2 hy hy2 lit
  refine ⟨k, hrun, hsame, hokk, ?_, ?_, ?_⟩
  · intro u v h1 h2 h3 h4
    rw [hpix, if_pos ⟨h1, h2, h3, h4⟩]
  · intro u v hn
    rw [hpix, if_neg hn]
  · intro hlit hz
    subst hlit
    obtain ⟨_, _, hw, hh, ht⟩ := hsame
    have h8 : 8 * k.total_pages = h.height := by
      obtain ⟨_, _, _, h8, ht0⟩ := hok.1
      omega
    rw [lit_pixels_eq hokk.2.1, hw, h8, ← count_rectangle h.width h.height x1 x2 y1 y2 hx hx2 hy hy2]
    apply Finset.sum_congr rfl
    intro c _
    apply Finset.sum_congr rfl
    intro y _
    rw [hpix, pixel_false_of_zero hz]
    by_cases hr : x1 ≤ c ∧ c ≤ x2 ∧ y1 ≤ y ∧ y ≤ y2 <;> simp [hr]

/-! ## Loops over the columns of a row -/

/-- Hoare rule for a counting loop whose body never takes a `return`. -/
theorem for_u8_next_rule {σ : Type} {c : Nat → Bool}
    {b : Nat → σ → Option (loop_step σ)}
    {a n : Nat} (han : a ≤ n) (hn : n ≤ 255) (Inv : Nat → σ → Prop)
    (hcond : ∀ i, i ≤ n → (c i = true ↔ i < n)) {s : σ} (h0 : Inv a s)
    (hstep : ∀ i s, a ≤ i → i < n → Inv i s →
      ∃ t, b i s = some (loop_step.next t) ∧ Inv (i + 1) t) :
    ∃ t, for_u8 a c b s = some t ∧ Inv n t :=
  for_u8_rule han hn Inv (Inv n) hcond h0
    (fun i s hai hin hinv => Or.inl (hstep i s hai hin hinv)) (fun _ hs => hs)

/-- A loop over `n` columns starting at column `xc`, whose pass `j` rewrites the bytes of
column `xc + j` (in every page `q` from the old byte `b` to `upd q j b`) and nothing else:
afterwards the columns `xc .. xc + n - 1` are rewritten and the others untouched. -/
theorem column_loop
    (body : Nat → i2c_ssd1306_handle_t → Option (loop_step i2c_ssd1306_handle_t))
    (n xc : Nat) (hn : n ≤ 255) (upd : Nat → Nat → Nat → Nat) {hh : i2c_ssd1306_handle_t}
    (hok : handle_ok hh)
    (hstep : ∀ j t, j < n → same_config hh t → handle_ok t →
      ∃ t1, body j t = some (loop_step.next t1) ∧ same_config t t1 ∧ handle_ok t1 ∧
        ∀ q d, seg_read t1 q d =
          if d = xc + j then (seg_read t q d).map (upd q j) else seg_read t q d) :
    ∃ k, for_u8 0 (fun j => decide (j < n)) body hh = some k ∧ same_config hh k ∧
      handle_ok k ∧
      ∀ q d, seg_read k q d =
        if xc ≤ d ∧ d < xc + n then (seg_read hh q d).map (upd q (d - xc))
        else seg_read hh q d := by
  have := for_u8_next_rule (a := 0) (n := n) (c := fun j => decide (j < n)) (b := body)
    (Nat.zero_le _) hn
    (fun j k => same_config hh k ∧ handle_ok k ∧
      ∀ q d, seg_read k q d =
        if xc ≤ d ∧ d < xc + j then (seg_read hh q d).map (upd q (d - xc))
        else seg_read hh q d)
    (by intro i _; simp) (s := hh)
    ⟨same_config_refl hh, hok, by
      intro q d
      have : ¬ (xc ≤ d ∧ d < xc + 0) := by omega
      rw [if_neg this]⟩
    (by
      intro j t _ hjn ⟨hsame, hokt, hrd⟩
      obtain ⟨t1, hrun, hsame1, hok1, hrd1⟩ := hstep j t hjn hsame hokt
      refine ⟨t1, hrun, same_config_trans hsame hsame1, hok1, ?_⟩
      intro q d
      rw [hrd1, hrd]
      by_cases hd : d = xc + j
      · subst hd
        have h1 : ¬ (xc ≤ xc + j ∧ xc + j < xc + j) := by omega
        have h2 : xc ≤ xc + j ∧ xc + j < xc + (j + 1) := by omega
        rw [if_pos rfl, if_neg h1, if_pos h2, Nat.add_sub_cancel_left]
      · rw [if_neg hd]
        have : (xc ≤ d ∧ d < xc + (j + 1)) ↔ (xc ≤ d ∧ d < xc + j) := by omega
        simp only [this])
  exact this

/-- The 8-bit complement, as stored by `= ~b` into a `uint8_t`. -/
theorem to_u8_int_not {g : Nat} (hg : g < 256) : to_u8 (int_not g) = 255 - g := by
  apply Nat.eq_of_testBit_eq
  intro j
  have e : 255 - g = 2 ^ 8 - (g + 1) := by norm_num; omega
  rw [testBit_to_u8, testBit_int_not, e, Nat.testBit_two_pow_sub_succ (by simpa using hg)]
  by_cases hj : j < 8
  · have : j < 32 := by omega
    simp [hj, this]
  · simp [hj]

/-- The inner loop of the aligned cases: `n` bytes `val 0 .. val (n - 1)` are stored to
`page[p].segment[xc ..]`. -/
theorem row_assign_loop
    {body : Nat → i2c_ssd1306_handle_t → Option (loop_step i2c_ssd1306_handle_t)}
    {n p xc : Nat} (val : Nat → Nat) {hh : i2c_ssd1306_handle_t} (hok : handle_ok hh)
    (hp : p < hh.total_pages) (hfit : xc + n ≤ hh.width)
    (hbody : ∀ j t, j < n → body j t = plain (seg_assign t p (xc + j) (val j))) :
    ∃ k, for_u8 0 (fun j => decide (j < n)) body hh = some k ∧ same_config hh k ∧
      handle_ok k ∧
      ∀ q d, seg_read k q d =
        if q = p ∧ xc ≤ d ∧ d < xc + n then some (to_u8 (val (d - xc)))
        else seg_read hh q d := by
  have hn : n ≤ 255 := by have := hok.1.1; omega
  obtain ⟨k, hrun, hsame, hokk, hrd⟩ := column_loop body n xc hn
    (fun q j b => if q = p then to_u8 (val j) else b) hok
    (by
      intro j t hj hsame hokt
      have hpt : p < t.total_pages := by rw [hsame.2.2.2.2]; exact hp
      have hct : xc + j < t.width := by rw [hsame.2.2.1]; omega
      obtain ⟨t1, hrun, hs1, hshape, hbytes, hrd⟩ := seg_assign_spec hokt.2.1 hpt hct (val j)
      refine ⟨t1, by rw [hbody j t hj, hrun]; rfl, hs1,
        ⟨config_ok_of_same hs1 hokt.1, hshape, hbytes hokt.2.2⟩, ?_⟩
      intro q d
      rw [hrd]
      by_cases hd : d = xc + j
      · subst hd
        by_cases hq : q = p
        · subst hq
          obtain ⟨b, hb⟩ := seg_read_some hokt.2.1 hpt hct
          simp [hb]
        · simp [hq]
      · have : ¬ (q = p ∧ d = xc + j) := fun e => hd e.2
        rw [if_neg this, if_neg hd])
  refine ⟨k, hrun, hsame, hokk, ?_⟩
  intro q d
  rw [hrd]
  by_cases hq : q = p
  · subst hq
    by_cases hd : xc ≤ d ∧ d < xc + n
    · have hdw : d < hh.width := by omega
      obtain ⟨b, hb⟩ := seg_read_some hok.2.1 hp hdw
      simp [hd, hb]
    · simp [hd]
  · have : ¬ (q = p ∧ xc ≤ d ∧ d < xc + n) := fun e => hq e.1
    rw [if_neg this]
    by_cases hd : xc ≤ d ∧ d < xc + n
    · simp [hd, hq]
    · simp [hd]

/-! ## Text -/

/-- The text renderer is the composition of its named loops. -/
theorem buffer_text_eq (font8x8 : Nat → Nat → Nat) (h : i2c_ssd1306_handle_t) (x y : Nat)
    (text : List Nat) (invert : Bool) :
    i2c_ssd1306_buffer_text font8x8 h x y text invert =
      if x ≥ h.width ∨ y ≥ h.height then some h
      else if to_u8 (y % 8) = 0 then
        text_chars h.width text (text_glyph_aligned font8x8 invert (to_u8 (y / 8))) x h
      else if to_u8 (y / 8) + 1 ≥ h.total_pages then some h
      else
        text_chars h.width text
          (text_glyph_offset font8x8 invert (to_u8 (y / 8)) (to_u8 (y % 8))) x h := rfl

/-- The loop over the characters of a text that fits in the display: character `i` is drawn
by `draw` at column `x + 8 * i`, where it rewrites the 8 columns of its cell (the byte `b`
of page `q`, column `j` of the cell, to `upd ch q j b`). -/
theorem text_chars_fits {h : i2c_ssd1306_handle_t} (hok : handle_ok h) {x : Nat}
    {text : List Nat} (hfit : x + 8 * text.length ≤ h.width)
    (draw : i2c_ssd1306_handle_t → Nat → Nat → Option i2c_ssd1306_handle_t)
    (upd : Nat → Nat → Nat → Nat → Nat)
    (hdraw : ∀ t xc ch, same_config h t → handle_ok t → xc + 8 ≤ h.width →
      ∃ t1, draw t xc ch = some t1 ∧ same_config t t1 ∧ handle_ok t1 ∧
        ∀ q d, seg_read t1 q d =
          if xc ≤ d ∧ d < xc + 8 then (seg_read t q d).map (upd ch q (d - xc))
          else seg_read t q d) :
    ∃ k, text_chars h.width text draw x h = some k ∧ same_config h k ∧ handle_ok k ∧
      ∀ q d, seg_read k q d =
        if x ≤ d ∧ d < x + 8 * text.length then
          (seg_read h q d).map (upd (text.getD ((d - x) / 8) 0) q ((d - x) % 8))
        else seg_read h q d := by
  have hw := hok.1.1
  have hlen : to_u8 text.length = text.length := to_u8_of_lt (by omega)
  unfold text_chars
  rw [hlen]
  have := for_u8_next_rule (a := 0) (n := text.length)
    (c := fun i => decide (i < text.length))
    (b := fun i (s : Nat × i2c_ssd1306_handle_t) =>
      if s.1 + 8 > h.width then some (loop_step.exit s)
      else
        match text[i]? with
        | none => none
        | some ch =>
          (draw s.2 s.1 ch).map (fun hh => loop_step.next (to_u8 (s.1 + 8), hh)))
    (Nat.zero_le _) (by omega)
    (fun i s => s.1 = x + 8 * i ∧ same_config h s.2 ∧ handle_ok s.2 ∧
      ∀ q d, seg_read s.2 q d =
        if x ≤ d ∧ d < x + 8 * i then
          (seg_read h q d).map (upd (text.getD ((d - x) / 8) 0) q ((d - x) % 8))
        else seg_read h q d)
    (by intro i _; simp) (s := (x, h))
    ⟨by simp, same_config_refl h, hok, by
      intro q d
      have : ¬ (x ≤ d ∧ d < x + 8 * 0) := by omega
      rw [if_neg this]⟩
    (by
      intro i s _ hi ⟨hx, hsame, hoks, hrd⟩
      have hget : text[i]? = some text[i] := List.getElem?_eq_getElem hi
      have hroom : ¬ (s.1 + 8 > h.width) := by omega
      obtain ⟨t1, hrun, hsame1, hok1, hrd1⟩ := hdraw s.2 s.1 text[i] hsame hoks (by omega)
      refine ⟨(to_u8 (s.1 + 8), t1), by simp only [hroom, if_false, hget, hrun]; rfl, ?_,
        same_config_trans hsame hsame1, hok1, ?_⟩
      · show to_u8 (s.1 + 8) = x + 8 * (i + 1)
        rw [to_u8_of_lt (by omega)]; omega
      · intro q d
        show seg_read t1 q d = _
        rw [hrd1, hrd, hx]
        by_cases hd : x + 8 * i ≤ d ∧ d < x + 8 * i + 8
        · have h1 : ¬ (x ≤ d ∧ d < x + 8 * i) := by omega
          have h2 : x ≤ d ∧ d < x + 8 * (i + 1) := by omega
          have h3 : (d - x) / 8 = i := by omega
          have h4 : (d - x) % 8 = d - (x + 8 * i) := by omega
          rw [if_pos hd, if_neg h1, if_pos h2, h3, h4, List.getD_eq_getElem?_getD, hget]
          rfl
        · rw [if_neg hd]
          have : (x ≤ d ∧ d < x + 8 * (i + 1)) ↔ (x ≤ d ∧ d < x + 8 * i) := by omega
          simp only [this])
  obtain ⟨t, hrun, _, hsame, hokt, hrd⟩ := this
  exact ⟨t.2, by rw [hrun]; rfl, hsame, hokt, hrd⟩

/-- The inner loop of the byte-aligned case stores the glyph (or its complement) to the
8 columns of the cell in page `p`. -/
theorem text_glyph_aligned_spec (font8x8 : Nat → Nat → Nat) (invert : Bool) {p xc : Nat}
    (ch : Nat) {t : i2c_ssd1306_handle_t} (hok : handle_ok t) (hp : p < t.total_pages)
    (hroom : xc + 8 ≤ t.width) :
    ∃ k, text_glyph_aligned font8x8 invert p t xc ch = some k ∧ same_config t k ∧
      handle_ok k ∧
      ∀ q d, seg_read k q d =
        if q = p ∧ xc ≤ d ∧ d < xc + 8 then
          some (to_u8 (if invert then int_not (font8x8 (to_u8 ch) (d - xc))
            else font8x8 (to_u8 ch) (d - xc)))
        else seg_read t q d := by
  unfold text_glyph_aligned
  exact row_assign_loop
    (fun j => if invert then int_not (font8x8 (to_u8 ch) j) else font8x8 (to_u8 ch) j)
    hok hp hroom (by intro j t _; cases invert <;> rfl)

/-- C3: a text of `n` characters drawn by `i2c_ssd1306_buffer_text` at an 8-aligned row
(`y % 8 == 0`) with `x + 8 * n <= width`: afterwards the byte
`page[y / 8].segment[x + 8 * i + j]` is the glyph byte `font8x8[text[i]][j]` (its 8-bit
complement when `invert` is set) for every character `i` and column `j < 8`, and every
other byte of the framebuffer is unchanged. -/
theorem text_aligned_copies_glyphs (font8x8 : Nat → Nat → Nat)
    (hfont : ∀ c j, font8x8 c j < 256) (h : i2c_ssd1306_handle_t) (hok : handle_ok h)
    (x y : Nat) (text : List Nat) (invert : Bool) (hy0 : y % 8 = 0) (hx : x < h.width)
    (hy : y < h.height) (hfit : x + 8 * text.length ≤ h.width) :
    ∃ k, i2c_ssd1306_buffer_text font8x8 h x y text invert = some k ∧
      same_config h k ∧ handle_ok k ∧
      (∀ i ch j, text[i]? = some ch → j < 8 →
        seg_read k (y / 8) (x + 8 * i + j) =
          some (if invert then 255 - font8x8 (to_u8 ch) j else font8x8 (to_u8 ch) j)) ∧
      ∀ q d, ¬ (q = y / 8 ∧ x ≤ d ∧ d < x + 8 * text.length) →
        seg_read k q d = seg_read h q d := by
  have hg : ¬ (x ≥ h.width ∨ y ≥ h.height) := by omega
  have hp := page_lt_of_row hok.1 hy
  have hh64 := hok.1.2.2.1
  have hpage : to_u8 (y / 8) = y / 8 := to_u8_of_lt (by omega)
  have hoff : to_u8 (y % 8) = 0 := by rw [hy0]; rfl
  rw [buffer_text_eq, if_neg hg, if_pos hoff, hpage]
  obtain ⟨k, hrun, hsame, hokk, hrd⟩ := text_chars_fits hok hfit
    (text_glyph_aligned font8x8 invert (y / 8))
    (fun ch q j b =>
      if q = y / 8 then
        to_u8 (if invert then int_not (font8x8 (to_u8 ch) j) else font8x8 (to_u8 ch) j)
      else b)
    (by
      intro t xc ch hsame hokt hroom
      have hpt : y / 8 < t.total_pages := by rw [hsame.2.2.2.2]; exact hp
      obtain ⟨t1, hrun, hs1, hok1, hrd⟩ := text_glyph_aligned_spec font8x8 invert ch hokt hpt
        (by rw [hsame.2.2.1]; exact hroom)
      refine ⟨t1, hrun, hs1, hok1, ?_⟩
      intro q d
      rw [hrd]
      by_cases hq : q = y / 8
      · subst hq
        by_cases hd : xc ≤ d ∧ d < xc + 8
        · have hdw : d < t.width := by rw [hsame.2.2.1]; omega
          obtain ⟨b, hb⟩ := seg_read_some hokt.2.1 hpt hdw
          simp [hd, hb]
        · simp [hd]
      · by_cases hd : xc ≤ d ∧ d < xc + 8 <;> simp [hd, hq])
  refine ⟨k, hrun, hsame, hokk, ?_, ?_⟩
  · intro i ch j hch hj
    have hi : i < text.length := by
      rcases List.getElem?_eq_some.1 hch with ⟨hi, _⟩
      exact hi
    have hin : x ≤ x + 8 * i + j ∧ x + 8 * i + j < x + 8 * text.length := by omega
    have e1 : (x + 8 * i + j - x) / 8 = i := by omega
    have e2 : (x + 8 * i + j - x) % 8 = j := by omega
    obtain ⟨b, hb⟩ := seg_read_some hok.2.1 hp (by omega : x + 8 * i + j < h.width)
    rw [hrd, if_pos hin, e1, e2, hb, List.getD_eq_getElem?_getD, hch]
    cases invert
    · simp [to_u8_of_lt (hfont _ _)]
    · simp [to_u8_int_not (hfont _ _)]
  · intro q d hqd
    rw [hrd]
    by_cases hd : x ≤ d ∧ d < x + 8 * text.length
    · have hq : ¬ q = y / 8 := fun e => hqd ⟨e, hd⟩
      simp [hd, hq]
    · rw [if_neg hd]

theorem testBit_int_sar_of_nonneg {v : Nat} (hv : v < 2 ^ 31) (k j : Nat) :
    (int_sar v k).testBit j = v.testBit (k + j) := by
  unfold int_sar
  rw [if_pos hv, Nat.testBit_shiftRight]

/-- The byte after `|= b << o` for a byte `b`. -/
theorem or_shl_byte {old : Nat} (hold : old < 256) (b o : Nat) :
    to_u8 (old ||| int_shl b o) = old ||| to_u8 (b <<< o) := by
  apply Nat.eq_of_testBit_eq
  intro j
  rw [testBit_to_u8, Nat.testBit_or, Nat.testBit_or, testBit_to_u8, testBit_int_shl,
    Nat.testBit_shiftLeft]
  by_cases hj : j < 8
  · have : j < 32 := by omega
    simp [hj, this]
  · simp [hj, testBit_of_byte hold (by omega : 8 ≤ j)]

/-- The byte after `|= b >> k` for a byte `b`. -/
theorem or_sar_byte {old b : Nat} (hold : old < 256) (hb : b < 256) (k : Nat) :
    to_u8 (old ||| int_sar b k) = old ||| (b >>> k) := by
  apply Nat.eq_of_testBit_eq
  intro j
  rw [testBit_to_u8, Nat.testBit_or, Nat.testBit_or,
    testBit_int_sar_of_nonneg (by omega : b < 2 ^ 31), Nat.testBit_shiftRight]
  by_cases hj : j < 8
  · simp [hj]
  · simp [hj, testBit_of_byte hold (by omega : 8 ≤ j), testBit_of_byte hb (by omega : 8 ≤ k + j)]

/-- The two fragments of a byte split at `o` give the byte back. -/
theorem split_reconstructs {g o : Nat} (hg : g < 256) (ho : 0 < o) (ho8 : o < 8) :
    to_u8 ((to_u8 (g <<< o) >>> o) ||| ((g >>> (8 - o)) <<< (8 - o))) = g := by
  apply Nat.eq_of_testBit_eq
  intro j
  rw [testBit_to_u8, Nat.testBit_or, Nat.testBit_shiftRight, testBit_to_u8,
    Nat.testBit_shiftLeft, Nat.testBit_shiftLeft, Nat.testBit_shiftRight]
  by_cases hj : j < 8
  · by_cases hlo : o + j < 8
    · have e : o + j - o = j := by omega
      have hge : ¬ 8 - o ≤ j := by omega
      simp [hj, hlo, e, hge]
    · have e : 8 - o + (j - (8 - o)) = j := by omega
      have hge : 8 - o ≤ j := by omega
      simp [hj, hlo, e, hge]
  · simp [hj, testBit_of_byte hg (by omega : 8 ≤ j)]

/-- The inner loop of the offset cases: for each of `n` columns, `v1 j` is ORed into
`page[p].segment[xc + j]` and `v2 j` into `page[p + 1].segment[xc + j]`. -/
theorem row_or_loop
    {body : Nat → i2c_ssd1306_handle_t → Option (loop_step i2c_ssd1306_handle_t)}
    {n p xc : Nat} (v1 v2 : Nat → Nat) {hh : i2c_ssd1306_handle_t} (hok : handle_ok hh)
    (hp : p + 1 < hh.total_pages) (hfit : xc + n ≤ hh.width)
    (hbody : ∀ j t, j < n → body j t =
      (seg_or_assign t p (xc + j) (v1 j)).bind
        (fun hk => plain (seg_or_assign hk (p + 1) (xc + j) (v2 j)))) :
    ∃ k, for_u8 0 (fun j => decide (j < n)) body hh = some k ∧ same_config hh k ∧
      handle_ok k ∧
      ∀ q d, seg_read k q d =
        if xc ≤ d ∧ d < xc + n then
          (seg_read hh q d).map (fun b =>
            if q = p then to_u8 (b ||| v1 (d - xc))
            else if q = p + 1 then to_u8 (b ||| v2 (d - xc)) else b)
        else seg_read hh q d := by
  have hn : n ≤ 255 := by have := hok.1.1; omega
  exact column_loop body n xc hn
    (fun q j b =>
      if q = p then to_u8 (b ||| v1 j) else if q = p + 1 then to_u8 (b ||| v2 j) else b) hok
    (by
      intro j t hj hsame hokt
      have hpt : p + 1 < t.total_pages := by rw [hsame.2.2.2.2]; exact hp
      have hct : xc + j < t.width := by rw [hsame.2.2.1]; omega
      obtain ⟨t1, b1, hb1, hrun1, hs1, hshape1, hbytes1, hrd1⟩ :=
        seg_or_assign_spec hokt.2.1 (by omega : p < t.total_pages) hct (v1 j)
      have hpt1 : p + 1 < t1.total_pages := by rw [hs1.2.2.2.2]; exact hpt
      have hct1 : xc + j < t1.width := by rw [hs1.2.2.1]; exact hct
      obtain ⟨t2, b2, hb2, hrun2, hs2, hshape2, hbytes2, hrd2⟩ :=
        seg_or_assign_spec hshape1 hpt1 hct1 (v2 j)
      have hb2t : seg_read t (p + 1) (xc + j) = some b2 := by
        rw [hrd1] at hb2
        have : ¬ (p + 1 = p ∧ xc + j = xc + j) := by omega
        rwa [if_neg this] at hb2
      refine ⟨t2, by rw [hbody j t hj, hrun1]; simp [plain, hrun2],
        same_config_trans hs1 hs2,
        ⟨config_ok_of_same (same_config_trans hs1 hs2) hokt.1, hshape2,
          hbytes2 (hbytes1 hokt.2.2)⟩, ?_⟩
      intro q d
      rw [hrd2, hrd1]
      by_cases hd : d = xc + j
      · subst hd
        by_cases hq : q = p
        · subst hq
          have : ¬ (q = q + 1 ∧ xc + j = xc + j) := by omega
          simp [this, hb1]
        · by_cases hq1 : q = p + 1
          · subst hq1
            simp [hb2t]
          · simp [hq, hq1]
      · have h1 : ¬ (q = p + 1 ∧ d = xc + j) := fun e => hd e.2
        have h2 : ¬ (q = p ∧ d = xc + j) := fun e => hd e.2
        rw [if_neg h1, if_neg h2, if_neg hd])

/-- The inner loop of the offset case of the text renderer. -/
theorem text_glyph_offset_spec (font8x8 : Nat → Nat → Nat) (invert : Bool) {p o xc : Nat}
    (ch : Nat) {t : i2c_ssd1306_handle_t} (hok : handle_ok t) (hp : p + 1 < t.total_pages)
    (hroom : xc + 8 ≤ t.width) :
    ∃ k, text_glyph_offset font8x8 invert p o t xc ch = some k ∧ same_config t k ∧
      handle_ok k ∧
      ∀ q d, seg_read k q d =
        if xc ≤ d ∧ d < xc + 8 then
          (seg_read t q d).map (fun b =>
            if q = p then
              to_u8 (b ||| int_shl (if invert then int_not (font8x8 (to_u8 ch) (d - xc))
                else font8x8 (to_u8 ch) (d - xc)) o)
            else if q = p + 1 then
              to_u8 (b ||| int_sar (if invert then int_not (font8x8 (to_u8 ch) (d - xc))
                else font8x8 (to_u8 ch) (d - xc)) (8 - o))
            else b)
        else seg_read t q d := by
  unfold text_glyph_offset
  exact row_or_loop
    (fun j => int_shl (if invert then int_not (font8x8 (to_u8 ch) j)
      else font8x8 (to_u8 ch) j) o)
    (fun j => int_sar (if invert then int_not (font8x8 (to_u8 ch) j)
      else font8x8 (to_u8 ch) j) (8 - o))
    hok hp hroom
    (by
      intro j t _
      cases invert
      · simp only [Bool.false_eq_true, if_false]
        cases seg_or_assign t p (xc + j) (int_shl (font8x8 (to_u8 ch) j) o) <;> rfl
      · simp only [if_true]
        cases seg_or_assign t p (xc + j) (int_shl (int_not (font8x8 (to_u8 ch) j)) o) <;> rfl)

theorem demo_font8x8_lt (c j : Nat) : demo_font8x8 c j < 256 := Nat.mod_lt _ (by decide)

theorem text_aligned_copies_glyphs_witness :
    ∃ k, i2c_ssd1306_buffer_text demo_font8x8 demo_handle 12 0 [72, 105] false = some k ∧
      (∀ j, j < 8 → seg_read k 0 (12 + j) = some (demo_font8x8 72 j)) ∧
      (∀ j, j < 8 → seg_read k 0 (20 + j) = some (demo_font8x8 105 j)) ∧
      ∀ q d, ¬ (q = 0 ∧ 12 ≤ d ∧ d < 28) → seg_read k q d = seg_read demo_handle q d := by
  obtain ⟨k, hrun, _, _, hglyph, hframe⟩ :=
    text_aligned_copies_glyphs demo_font8x8 demo_font8x8_lt demo_handle (by decide) 12 0
      [72, 105] false (by decide) (by decide) (by decide) (by decide)
  refine ⟨k, hrun, ?_, ?_, hframe⟩
  · intro j hj
    exact hglyph 0 72 j rfl hj
  · intro j hj
    exact hglyph 1 105 j rfl hj

/-- C4: a single non-inverted character drawn by `i2c_ssd1306_buffer_text` at a
non-aligned row (`offset = y % 8` in 1..7, `y / 8 + 1 < total_pages`, `x + 8 <= width`)
onto target bytes that are zero: at each of the 8 columns the fragment `u` left in page
`y / 8` and the fragment `l` left in page `y / 8 + 1` give the glyph byte back,
`((u >> offset) | (l << (8 - offset)))` truncated to 8 bits is `font8x8[ch][j]`. -/
theorem text_offset_fragments_reconstruct (font8x8 : Nat → Nat → Nat)
    (hfont : ∀ c j, font8x8 c j < 256) (h : i2c_ssd1306_handle_t) (hok : handle_ok h)
    (x y ch : Nat) (hoff : y % 8 ≠ 0) (hpages : y / 8 + 1 < h.total_pages)
    (hfit : x + 8 ≤ h.width)
    (hzero : ∀ j, j < 8 →
      seg_read h (y / 8) (x + j) = some 0 ∧ seg_read h (y / 8 + 1) (x + j) = some 0) :
    ∃ k, i2c_ssd1306_buffer_text font8x8 h x y [ch] false = some k ∧
      ∀ j, j < 8 → ∃ u l,
        seg_read k (y / 8) (x + j) = some u ∧ seg_read k (y / 8 + 1) (x + j) = some l ∧
        to_u8 ((u >>> (y % 8)) ||| (l <<< (8 - y % 8))) = font8x8 (to_u8 ch) j := by
  obtain ⟨_, _, hh64, h8, ht⟩ := hok.1
  have hy : y < h.height := by omega
  have hg : ¬ (x ≥ h.width ∨ y ≥ h.height) := by omega
  have hpage : to_u8 (y / 8) = y / 8 := to_u8_of_lt (by omega)
  have ho8 : y % 8 < 8 := Nat.mod_lt _ (by decide)
  have hoffu : to_u8 (y % 8) = y % 8 := to_u8_of_lt (by omega)
  have hoff0 : ¬ to_u8 (y % 8) = 0 := by rw [hoffu]; exact hoff
  have hpg : ¬ (y / 8 + 1 ≥ h.total_pages) := by omega
  rw [buffer_text_eq, if_neg hg, if_neg hoff0, hpage, if_neg hpg, hoffu]
  have hfit1 : x + 8 * [ch].length ≤ h.width := by simpa using hfit
  obtain ⟨k, hrun, _, _, hrd⟩ := text_chars_fits hok hfit1
    (text_glyph_offset font8x8 false (y / 8) (y % 8))
    (fun ch q j b =>
      if q = y / 8 then
        to_u8 (b ||| int_shl (if false = true then int_not (font8x8 (to_u8 ch) j)
          else font8x8 (to_u8 ch) j) (y % 8))
      else if q = y / 8 + 1 then
        to_u8 (b ||| int_sar (if false = true then int_not (font8x8 (to_u8 ch) j)
          else font8x8 (to_u8 ch) j) (8 - y % 8))
      else b)
    (by
      intro t xc c hsame hokt hroom
      exact text_glyph_offset_spec font8x8 false c hokt
        (by rw [hsame.2.2.2.2]; exact hpages) (by rw [hsame.2.2.1]; exact hroom))
  refine ⟨k, hrun, ?_⟩
  intro j hj
  obtain ⟨hz1, hz2⟩ := hzero j hj
  have hin : x ≤ x + j ∧ x + j < x + 8 * [ch].length := by simp; omega
  have e1 : (x + j - x) / 8 = 0 := by omega
  have e2 : (x + j - x) % 8 = j := by omega
  have hg256 := hfont (to_u8 ch) j
  refine ⟨to_u8 (font8x8 (to_u8 ch) j <<< (y % 8)), font8x8 (to_u8 ch) j >>> (8 - y % 8),
    ?_, ?_, split_reconstructs hg256 (by omega) ho8⟩
  · rw [hrd, if_pos hin, hz1, e1, e2]
    have e := or_shl_byte (by decide : 0 < 256) (font8x8 (to_u8 ch) j) (y % 8)
    simpa using e
  · rw [hrd, if_pos hin, hz2, e1, e2]
    have e := or_sar_byte (by decide : 0 < 256) hg256 (8 - y % 8)
    simpa using e

theorem text_offset_fragments_reconstruct_witness :
    ∃ k, i2c_ssd1306_buffer_text demo_font8x8 demo_handle 4 3 [72] false = some k ∧
      ∀ j, j < 8 → ∃ u l,
        seg_read k (3 / 8) (4 + j) = some u ∧ seg_read k (3 / 8 + 1) (4 + j) = some l ∧
        to_u8 ((u >>> (3 % 8)) ||| (l <<< (8 - 3 % 8))) = demo_font8x8 (to_u8 72) j :=
  text_offset_fragments_reconstruct demo_font8x8 demo_font8x8_lt demo_handle (by decide)
    4 3 72 (by decide) (by decide) (by decide) (by decide)

/-! ## Bitmaps -/

/-- The bitmap blitter is the composition of its named loops. -/
theorem buffer_image_eq (h : i2c_ssd1306_handle_t) (x y : Nat) (image : List Nat)
    (width height : Nat) (invert : Bool) :
    i2c_ssd1306_buffer_image h x y image width height invert =
      if ¬ image_call_valid h x y width height then some h
      else if to_u8 (y % 8) = 0 then
        for_u8 0 (fun i => decide (i ≤ image_page_range y height))
          (fun i hi => plain (image_row_aligned image width invert (to_u8 (y / 8)) x i hi)) h
      else
        for_u8 0 (fun i => decide (i < image_page_range y height))
          (fun i hi => plain (image_row_offset image width invert (to_u8 (y / 8))
            (to_u8 (y % 8)) x i hi)) h := by
  unfold i2c_ssd1306_buffer_image image_call_valid
  by_cases hg : x ≥ h.width ∨ y ≥ h.height ∨ width > h.width ∨ height > h.height ∨
      x + width > h.width ∨ y + height > h.height
  · rw [if_pos hg, if_pos (not_not.2 hg)]
  · rw [if_neg hg, if_neg (not_not.2 hg)]
    rfl

/-- For a bitmap of at least one row, `page_range` does not wrap: it is the difference
of the last and the first page. -/
theorem image_page_range_eq {h : i2c_ssd1306_handle_t} (hc : config_ok h) {y height : Nat}
    (hy : y + height ≤ h.height) (hh : 1 ≤ height) :
    y / 8 ≤ (y + height - 1) / 8 ∧
      image_page_range y height = (y + height - 1) / 8 - y / 8 := by
  obtain ⟨_, _, h64, _, _⟩ := hc
  have h1 : y / 8 ≤ (y + height - 1) / 8 := Nat.div_le_div_right (by omega)
  refine ⟨h1, ?_⟩
  unfold image_page_range
  rw [to_u8_of_lt (by omega : (y + height - 1) / 8 < 256), to_u8_of_lt (by omega : y / 8 < 256)]
  unfold to_u8
  omega

/-- One row of the byte-aligned case. -/
theorem image_row_aligned_spec (image : List Nat) (bw : Nat) (invert : Bool) {p0 x i : Nat}
    {t : i2c_ssd1306_handle_t} (hok : handle_ok t) (hp : p0 + i < t.total_pages)
    (hroom : x + bw ≤ t.width) (himg : (i + 1) * bw ≤ image.length) :
    ∃ k, image_row_aligned image bw invert p0 x i t = some k ∧ same_config t k ∧
      handle_ok k ∧
      ∀ q d, seg_read k q d =
        if q = p0 + i ∧ x ≤ d ∧ d < x + bw then
          some (to_u8 (if invert then int_not (image.getD (i * bw + (d - x)) 0)
            else image.getD (i * bw + (d - x)) 0))
        else seg_read t q d := by
  unfold image_row_aligned
  exact row_assign_loop
    (fun j => if invert then int_not (image.getD (i * bw + j) 0)
      else image.getD (i * bw + j) 0)
    hok hp hroom
    (by
      intro j t hj
      have hlt : i * bw + j < image.length := by
        have : (i + 1) * bw = i * bw + bw := by ring
        omega
      simp only [List.getElem?_eq_getElem hlt, List.getD_eq_getElem?_getD, Option.getD_some]
      cases invert <;> rfl)

/-- The byte-aligned case of the bitmap blitter: the `ceil(bh / 8)` rows of the source
are stored to the pages from `y / 8` on. -/
theorem image_aligned_spec {h : i2c_ssd1306_handle_t} (hok : handle_ok h) {x y bw bh : Nat}
    (image : List Nat) (invert : Bool) (hvalid : image_call_valid h x y bw bh)
    (hy0 : y % 8 = 0) (hbh : 1 ≤ bh) (himg : (bh + 7) / 8 * bw ≤ image.length) :
    ∃ k, i2c_ssd1306_buffer_image h x y image bw bh invert = some k ∧ same_config h k ∧
      handle_ok k ∧
      ∀ q d, seg_read k q d =
        if y / 8 ≤ q ∧ q < y / 8 + (bh + 7) / 8 ∧ x ≤ d ∧ d < x + bw then
          some (to_u8 (if invert then int_not (image.getD ((q - y / 8) * bw + (d - x)) 0)
            else image.getD ((q - y / 8) * bw + (d - x)) 0))
        else seg_read h q d := by
  have hv := hvalid
  unfold image_call_valid at hv
  obtain ⟨hw, h16, h64, h8, ht⟩ := hok.1
  obtain ⟨_, hrange⟩ := image_page_range_eq hok.1 (by omega : y + bh ≤ h.height) hbh
  have hpage : to_u8 (y / 8) = y / 8 := to_u8_of_lt (by omega)
  have hoff : to_u8 (y % 8) = 0 := by rw [hy0]; rfl
  have hn : image_page_range y bh + 1 = (bh + 7) / 8 := by rw [hrange]; omega
  rw [buffer_image_eq, if_neg (not_not.2 hvalid), if_pos hoff, hpage]
  have := for_u8_plain_rule (a := 0) (n := (bh + 7) / 8)
    (c := fun i => decide (i ≤ image_page_range y bh))
    (f := fun i hi => image_row_aligned image bw invert (y / 8) x i hi)
    (Nat.zero_le _) (by omega)
    (fun i k => same_config h k ∧ handle_ok k ∧
      ∀ q d, seg_read k q d =
        if y / 8 ≤ q ∧ q < y / 8 + i ∧ x ≤ d ∧ d < x + bw then
          some (to_u8 (if invert then int_not (image.getD ((q - y / 8) * bw + (d - x)) 0)
            else image.getD ((q - y / 8) * bw + (d - x)) 0))
        else seg_read h q d)
    (by intro i _; simp; omega) (s := h)
    ⟨same_config_refl h, hok, by
      intro q d
      have : ¬ (y / 8 ≤ q ∧ q < y / 8 + 0 ∧ x ≤ d ∧ d < x + bw) := by omega
      rw [if_neg this]⟩
    (by
      intro i t _ hi ⟨hsame, hokt, hrd⟩
      have hpt : y / 8 + i < t.total_pages := by rw [hsame.2.2.2.2]; omega
      have hroom : x + bw ≤ t.width := by rw [hsame.2.2.1]; omega
      have himg1 : (i + 1) * bw ≤ image.length :=
        le_trans (Nat.mul_le_mul_right bw (by omega : i + 1 ≤ (bh + 7) / 8)) himg
      obtain ⟨k, hrun, hs1, hokk, hrd1⟩ :=
        image_row_aligned_spec image bw invert hokt hpt hroom himg1
      refine ⟨k, hrun, same_config_trans hsame hs1, hokk, ?_⟩
      intro q d
      rw [hrd1, hrd]
      by_cases hq : q = y / 8 + i ∧ x ≤ d ∧ d < x + bw
      · obtain ⟨rfl, hd1, hd2⟩ := hq
        have h2 : y / 8 ≤ y / 8 + i ∧ y / 8 + i < y / 8 + (i + 1) ∧ x ≤ d ∧ d < x + bw := by
          omega
        rw [if_pos ⟨rfl, hd1, hd2⟩, if_pos h2, Nat.add_sub_cancel_left]
      · rw [if_neg hq]
        have : (y / 8 ≤ q ∧ q < y / 8 + (i + 1) ∧ x ≤ d ∧ d < x + bw) ↔
            (y / 8 ≤ q ∧ q < y / 8 + i ∧ x ≤ d ∧ d < x + bw) := by omega
        simp only [this])
  exact this

/-- A byte of the caller's array, where it has one. -/
theorem getD_of_getElem? {l : List Nat} {i b : Nat} (hb : l[i]? = some b) :
    l.getD i 0 = b := by
  rw [List.getD_eq_getElem?_getD, hb]; rfl

/-- C5: a call of `i2c_ssd1306_buffer_image` that passes the bounds check, with
`y % 8 == 0` and a bitmap of at least one row, is a direct copy: for every source row
`i < ceil(bh / 8)` and column `j < bw` the byte `page[y / 8 + i].segment[x + j]` is
`image[i * bw + j]` (its 8-bit complement when `invert` is set), and every other byte of
the framebuffer is unchanged. -/
theorem image_aligned_is_copy (h : i2c_ssd1306_handle_t) (hok : handle_ok h)
    (x y bw bh : Nat) (image : List Nat) (invert : Bool)
    (hvalid : image_call_valid h x y bw bh) (hy0 : y % 8 = 0) (hbh : 1 ≤ bh)
    (himg : (bh + 7) / 8 * bw ≤ image.length) (hbytes : ∀ b ∈ image, b < 256) :
    ∃ k, i2c_ssd1306_buffer_image h x y image bw bh invert = some k ∧
      same_config h k ∧ handle_ok k ∧
      (∀ i j, i < (bh + 7) / 8 → j < bw → ∃ b, image[i * bw + j]? = some b ∧
        seg_read k (y / 8 + i) (x + j) = some (if invert then 255 - b else b)) ∧
      ∀ q d, ¬ (y / 8 ≤ q ∧ q < y / 8 + (bh + 7) / 8 ∧ x ≤ d ∧ d < x + bw) →
        seg_read k q d = seg_read h q d := by
  obtain ⟨k, hrun, hsame, hokk, hrd⟩ := image_aligned_spec hok image invert hvalid hy0 hbh himg
  refine ⟨k, hrun, hsame, hokk, ?_, ?_⟩
  · intro i j hi hj
    have hlt : i * bw + j < image.length := by
      have h1 : (i + 1) * bw ≤ image.length :=
        le_trans (Nat.mul_le_mul_right bw (by omega : i + 1 ≤ (bh + 7) / 8)) himg
      have h2 : (i + 1) * bw = i * bw + bw := by ring
      omega
    have hget : image[i * bw + j]? = some image[i * bw + j] := List.getElem?_eq_getElem hlt
    have hb256 : image[i * bw + j] < 256 := hbytes _ (List.getElem_mem hlt)
    refine ⟨image[i * bw + j], hget, ?_⟩
    have hin : y / 8 ≤ y / 8 + i ∧ y / 8 + i < y / 8 + (bh + 7) / 8 ∧ x ≤ x + j ∧
        x + j < x + bw := by omega
    rw [hrd, if_pos hin, Nat.add_sub_cancel_left, Nat.add_sub_cancel_left,
      getD_of_getElem? hget]
    cases invert
    · simp [to_u8_of_lt hb256]
    · simp [to_u8_int_not hb256]
  · intro q d hqd
    rw [hrd, if_neg hqd]

theorem testBit_int_shl_ff (o j : Nat) :
    (int_shl 0xFF o).testBit j = (decide (j < 32) && (decide (o ≤ j) && decide (j - o < 8))) := by
  have e : (0xFF : Nat) = 2 ^ 8 - 1 := by norm_num
  rw [testBit_int_shl, e, Nat.testBit_two_pow_sub_one]

theorem testBit_int_sar_ff (k j : Nat) :
    (int_sar 0xFF k).testBit j = decide (k + j < 8) := by
  have e : (0xFF : Nat) = 2 ^ 8 - 1 := by norm_num
  rw [testBit_int_sar_of_nonneg (by norm_num), e, Nat.testBit_two_pow_sub_one]

/-- The OR into the upper page is masked with `0xFF << o`: the bits below `o` are kept. -/
theorem or_masked_shl_keeps {b : Nat} (hb : b < 256) (w o j : Nat) (hj : j < o ∨ 8 ≤ j) :
    (to_u8 (b ||| (w &&& int_shl 0xFF o))).testBit j = b.testBit j := by
  rw [testBit_to_u8, Nat.testBit_or, Nat.testBit_and, testBit_int_shl_ff]
  rcases hj with hj | hj
  · have : ¬ o ≤ j := by omega
    by_cases h8 : j < 8
    · simp [this, h8]
    · simp [this, h8, testBit_of_byte hb (by omega : 8 ≤ j)]
  · have : ¬ j < 8 := by omega
    simp [this, testBit_of_byte hb hj]

/-- The OR into the lower page is masked with `0xFF >> (8 - o)`: the bits from `o` on
are kept. -/
theorem or_masked_sar_keeps {b : Nat} (hb : b < 256) (w o j : Nat) (ho : o ≤ 8) (hj : o ≤ j) :
    (to_u8 (b ||| (w &&& int_sar 0xFF (8 - o)))).testBit j = b.testBit j := by
  rw [testBit_to_u8, Nat.testBit_or, Nat.testBit_and, testBit_int_sar_ff]
  have : ¬ 8 - o + j < 8 := by omega
  by_cases h8 : j < 8
  · simp [this, h8]
  · simp [this, h8, testBit_of_byte hb (by omega : 8 ≤ j)]

/-- One row of the offset case, byte by byte. -/
theorem image_row_offset_spec (image : List Nat) (bw : Nat) (invert : Bool)
    {p0 o x i : Nat} {t : i2c_ssd1306_handle_t} (hok : handle_ok t)
    (hp : p0 + i + 1 < t.total_pages) (hroom : x + bw ≤ t.width)
    (himg : (i + 1) * bw ≤ image.length) :
    ∃ k, image_row_offset image bw invert p0 o x i t = some k ∧ same_config t k ∧
      handle_ok k ∧
      ∀ q d, seg_read k q d =
        if x ≤ d ∧ d < x + bw then
          (seg_read t q d).map (fun b =>
            if q = p0 + i then
              to_u8 (b ||| (int_shl (if invert then int_not (image.getD (i * bw + (d - x)) 0)
                else image.getD (i * bw + (d - x)) 0) o &&& int_shl 0xFF o))
            else if q = p0 + i + 1 then
              to_u8 (b ||| (int_sar (if invert then int_not (image.getD (i * bw + (d - x)) 0)
                else image.getD (i * bw + (d - x)) 0) (8 - o) &&& int_sar 0xFF (8 - o)))
            else b)
        else seg_read t q d := by
  unfold image_row_offset
  exact row_or_loop
    (fun j => int_shl (if invert then int_not (image.getD (i * bw + j) 0)
      else image.getD (i * bw + j) 0) o &&& int_shl 0xFF o)
    (fun j => int_sar (if invert then int_not (image.getD (i * bw + j) 0)
      else image.getD (i * bw + j) 0) (8 - o) &&& int_sar 0xFF (8 - o))
    hok hp hroom
    (by
      intro j t hj
      have hlt : i * bw + j < image.length := by
        have : (i + 1) * bw = i * bw + bw := by ring
        omega
      simp only [List.getElem?_eq_getElem hlt, List.getD_eq_getElem?_getD, Option.getD_some]
      cases invert
      · simp only [Bool.false_eq_true, if_false]
        cases seg_or_assign t (p0 + i) (x + j) (int_shl image[i * bw + j] o &&& int_shl 0xFF o) <;>
          rfl
      · simp only [if_true]
        cases seg_or_assign t (p0 + i) (x + j)
          (int_shl (int_not image[i * bw + j]) o &&& int_shl 0xFF o) <;> rfl)

/-- One row of the offset case: outside the columns of the bitmap and the 8 pixel rows
from `8 * (p0 + i) + o` on, no pixel changes. -/
theorem image_row_offset_frame (image : List Nat) (bw : Nat) (invert : Bool)
    {p0 o x i : Nat} {t : i2c_ssd1306_handle_t} (hok : handle_ok t) (ho : o < 8)
    (hp : p0 + i + 1 < t.total_pages) (hroom : x + bw ≤ t.width)
    (himg : (i + 1) * bw ≤ image.length) :
    ∃ k, image_row_offset image bw invert p0 o x i t = some k ∧ same_config t k ∧
      handle_ok k ∧
      ∀ u v, ¬ (x ≤ u ∧ u < x + bw ∧ 8 * (p0 + i) + o ≤ v ∧ v < 8 * (p0 + i) + o + 8) →
        pixel k u v = pixel t u v := by
  obtain ⟨k, hrun, hsame, hokk, hrd⟩ :=
    image_row_offset_spec image bw invert (o := o) hok hp hroom himg
  refine ⟨k, hrun, hsame, hokk, ?_⟩
  intro u v hout
  unfold pixel
  rw [hrd]
  by_cases hu : x ≤ u ∧ u < x + bw
  · rw [if_pos hu]
    cases hr : seg_read t (v / 8) u with
    | none => rfl
    | some b =>
      have hb := seg_read_lt hok.2.2 hr
      simp only [Option.map_some']
      by_cases hq : v / 8 = p0 + i
      · rw [if_pos hq]
        exact or_masked_shl_keeps hb _ o (v % 8) (by left; omega)
      · rw [if_neg hq]
        by_cases hq1 : v / 8 = p0 + i + 1
        · rw [if_pos hq1]
          exact or_masked_sar_keeps hb _ o (v % 8) (by omega) (by omega)
        · rw [if_neg hq1]
  · rw [if_neg hu]

/-- The offset case of the bitmap blitter: it terminates without a fault, and every pixel
outside the columns of the bitmap and the `8 * page_range` pixel rows from `y` on is
unchanged. -/
theorem image_offset_frame {h : i2c_ssd1306_handle_t} (hok : handle_ok h) {x y bw bh : Nat}
    (image : List Nat) (invert : Bool) (hvalid : image_call_valid h x y bw bh)
    (hoff : y % 8 ≠ 0) (hbh : 1 ≤ bh) (himg : (bh + 7) / 8 * bw ≤ image.length) :
    ∃ k, i2c_ssd1306_buffer_image h x y image bw bh invert = some k ∧ same_config h k ∧
      handle_ok k ∧
      ∀ u v, ¬ (x ≤ u ∧ u < x + bw ∧ y ≤ v ∧ v < y + 8 * image_page_range y bh) →
        pixel k u v = pixel h u v := by
  have hv := hvalid
  unfold image_call_valid at hv
  obtain ⟨hw, h16, h64, h8, ht⟩ := hok.1
  obtain ⟨_, hrange⟩ := image_page_range_eq hok.1 (by omega : y + bh ≤ h.height) hbh
  have hpage : to_u8 (y / 8) = y / 8 := to_u8_of_lt (by omega)
  have ho8 : y % 8 < 8 := Nat.mod_lt _ (by decide)
  have hoffu : to_u8 (y % 8) = y % 8 := to_u8_of_lt (by omega)
  have hoff0 : ¬ to_u8 (y % 8) = 0 := by rw [hoffu]; exact hoff
  rw [buffer_image_eq, if_neg (not_not.2 hvalid), if_neg hoff0, hpage, hoffu]
  have := for_u8_plain_rule (a := 0) (n := image_page_range y bh)
    (c := fun i => decide (i < image_page_range y bh))
    (f := fun i hi => image_row_offset image bw invert (y / 8) (y % 8) x i hi)
    (Nat.zero_le _) (by omega)
    (fun i k => same_config h k ∧ handle_ok k ∧
      ∀ u v, ¬ (x ≤ u ∧ u < x + bw ∧ y ≤ v ∧ v < y + 8 * i) → pixel k u v = pixel h u v)
    (by intro i _; simp) (s := h)
    ⟨same_config_refl h, hok, fun _ _ _ => rfl⟩
    (by
      intro i t _ hi ⟨hsame, hokt, hpix⟩
      have hpt : y / 8 + i + 1 < t.total_pages := by rw [hsame.2.2.2.2]; omega
      have hroom : x + bw ≤ t.width := by rw [hsame.2.2.1]; omega
      have himg1 : (i + 1) * bw ≤ image.length :=
        le_trans (Nat.mul_le_mul_right bw (by omega : i + 1 ≤ (bh + 7) / 8)) himg
      obtain ⟨k, hrun, hs1, hokk, hfr⟩ :=
        image_row_offset_frame image bw invert hokt ho8 hpt hroom himg1
      refine ⟨k, hrun, same_config_trans hsame hs1, hokk, ?_⟩
      intro u v hout
      rw [hfr u v (by omega), hpix u v (by omega)])
  exact this

/-- C6, counterexample: on the all-lit 32x16 framebuffer, the valid call
`i2c_ssd1306_buffer_image(0, 0, {0x00}, 1, 4, false)` clears pixel `(0, 4)`, which lies
outside the destination rectangle `[0, 1) x [0, 4)`: the aligned case stores whole
bytes. -/
theorem image_writes_below_rectangle :
    handle_ok demo_handle_lit ∧ image_call_valid demo_handle_lit 0 0 1 4 ∧
      ¬ (0 ≤ 0 ∧ 0 < 0 + 1 ∧ 0 ≤ 4 ∧ 4 < 0 + 4) ∧ pixel demo_handle_lit 0 4 = true ∧
      (i2c_ssd1306_buffer_image demo_handle_lit 0 0 [0] 1 4 false).map
        (fun k => pixel k 0 4) = some false := by
  decide

/-- C6, amended: a call of `i2c_ssd1306_buffer_image` that passes the bounds check, with a
bitmap of at least one row (aligned or not, inverted or not, any contents), leaves every
pixel outside `[x, x + bw) x [y, y + 8 * ceil(bh / 8))` unchanged: the destination
rectangle with its height rounded up to whole source rows of 8 pixels. When `bh` is a
multiple of 8 this is the destination rectangle `[x, x + bw) x [y, y + bh)` itself. -/
theorem image_frame_page_rows (h : i2c_ssd1306_handle_t) (hok : handle_ok h)
    (x y bw bh : Nat) (image : List Nat) (invert : Bool)
    (hvalid : image_call_valid h x y bw bh) (hbh : 1 ≤ bh)
    (himg : (bh + 7) / 8 * bw ≤ image.length) :
    ∃ k, i2c_ssd1306_buffer_image h x y image bw bh invert = some k ∧
      (∀ u v, ¬ (x ≤ u ∧ u < x + bw ∧ y ≤ v ∧ v < y + 8 * ((bh + 7) / 8)) →
        pixel k u v = pixel h u v) ∧
      (bh % 8 = 0 → ∀ u v, ¬ (x ≤ u ∧ u < x + bw ∧ y ≤ v ∧ v < y + bh) →
        pixel k u v = pixel h u v) := by
  have key : ∃ k, i2c_ssd1306_buffer_image h x y image bw bh invert = some k ∧
      ∀ u v, ¬ (x ≤ u ∧ u < x + bw ∧ y ≤ v ∧ v < y + 8 * ((bh + 7) / 8)) →
        pixel k u v = pixel h u v := by
    have hv := hvalid
    unfold image_call_valid at hv
    by_cases hy0 : y % 8 = 0
    · obtain ⟨k, hrun, _, _, hrd⟩ := image_aligned_spec hok image invert hvalid hy0 hbh himg
      refine ⟨k, hrun, ?_⟩
      intro u v hout
      have hq : ¬ (y / 8 ≤ v / 8 ∧ v / 8 < y / 8 + (bh + 7) / 8 ∧ x ≤ u ∧ u < x + bw) := by
        omega
      unfold pixel
      rw [hrd, if_neg hq]
    · obtain ⟨k, hrun, _, _, hfr⟩ := image_offset_frame hok image invert hvalid hy0 hbh himg
      refine ⟨k, hrun, ?_⟩
      intro u v hout
      obtain ⟨_, hrange⟩ := image_page_range_eq hok.1 (by omega : y + bh ≤ h.height) hbh
      exact hfr u v (by rw [hrange]; omega)
  obtain ⟨k, hrun, hfr⟩ := key
  refine ⟨k, hrun, hfr, ?_⟩
  intro h8 u v hout
  exact hfr u v (by omega)

theorem image_frame_page_rows_witness :
    ∃ k, i2c_ssd1306_buffer_image demo_handle_lit 3 5 [0x0F, 0xF0] 2 8 true = some k ∧
      (∀ u v, ¬ (3 ≤ u ∧ u < 3 + 2 ∧ 5 ≤ v ∧ v < 5 + 8 * ((8 + 7) / 8)) →
        pixel k u v = pixel demo_handle_lit u v) ∧
      (8 % 8 = 0 → ∀ u v, ¬ (3 ≤ u ∧ u < 3 + 2 ∧ 5 ≤ v ∧ v < 5 + 8) →
        pixel k u v = pixel demo_handle_lit u v) :=
  image_frame_page_rows demo_handle_lit (by decide) 3 5 2 8 [0x0F, 0xF0] true (by decide)
    (by decide) (by decide)

/-- C7: a call of `i2c_ssd1306_buffer_image` that passes the bounds check with a bitmap
of `bw` columns and `bh >= 1` rows, on an array of exactly the declared
`ceil(bh / 8) * bw` bytes, terminates without a fault (every read of `image` and every
access to the framebuffer is bounds-checked in the embedding); `page_range` does not
wrap; and every index of an access lies inside its array: the source index below
`ceil(bh / 8) * bw`, the column below `width`, the page below `total_pages`. -/
theorem image_call_is_safe (h : i2c_ssd1306_handle_t) (hok : handle_ok h)
    (x y bw bh : Nat) (image : List Nat) (invert : Bool)
    (hvalid : image_call_valid h x y bw bh) (hbh : 1 ≤ bh)
    (himg : image.length = (bh + 7) / 8 * bw) :
    (∃ k, i2c_ssd1306_buffer_image h x y image bw bh invert = some k ∧ same_config h k ∧
      handle_ok k) ∧
    y / 8 ≤ (y + bh - 1) / 8 ∧
    image_page_range y bh = (y + bh - 1) / 8 - y / 8 ∧
    (∀ i j, (if y % 8 = 0 then i ≤ image_page_range y bh else i < image_page_range y bh) →
      j < bw →
      i * bw + j < (bh + 7) / 8 * bw ∧ x + j < h.width ∧ y / 8 + i < h.total_pages ∧
        (y % 8 ≠ 0 → y / 8 + i + 1 < h.total_pages)) := by
  have hv := hvalid
  unfold image_call_valid at hv
  obtain ⟨hw, h16, h64, h8, ht⟩ := hok.1
  obtain ⟨hle, hrange⟩ := image_page_range_eq hok.1 (by omega : y + bh ≤ h.height) hbh
  refine ⟨?_, hle, hrange, ?_⟩
  · by_cases hy0 : y % 8 = 0
    · obtain ⟨k, hrun, hsame, hokk, _⟩ :=
        image_aligned_spec hok image invert hvalid hy0 hbh (le_of_eq himg.symm)
      exact ⟨k, hrun, hsame, hokk⟩
    · obtain ⟨k, hrun, hsame, hokk, _⟩ :=
        image_offset_frame hok image invert hvalid hy0 hbh (le_of_eq himg.symm)
      exact ⟨k, hrun, hsame, hokk⟩
  · intro i j hi hj
    have hrows : i + 1 ≤ (bh + 7) / 8 := by
      by_cases hy0 : y % 8 = 0
      · rw [if_pos hy0, hrange] at hi; omega
      · rw [if_neg hy0, hrange] at hi; omega
    have h1 : (i + 1) * bw ≤ (bh + 7) / 8 * bw := Nat.mul_le_mul_right bw hrows
    have h2 : (i + 1) * bw = i * bw + bw := by ring
    refine ⟨by omega, by omega, ?_, ?_⟩
    · by_cases hy0 : y % 8 = 0
      · rw [if_pos hy0, hrange] at hi; omega
      · rw [if_neg hy0, hrange] at hi; omega
    · intro hy0
      rw [if_neg hy0, hrange] at hi; omega

theorem image_call_is_safe_witness :
    (∃ k, i2c_ssd1306_buffer_image demo_handle 3 5 [0x0F, 0xF0, 1, 2] 2 11 true = some k ∧
      same_config demo_handle k ∧ handle_ok k) ∧
    5 / 8 ≤ (5 + 11 - 1) / 8 ∧
    image_page_range 5 11 = (5 + 11 - 1) / 8 - 5 / 8 ∧
    (∀ i j, (if 5 % 8 = 0 then i ≤ image_page_range 5 11 else i < image_page_range 5 11) →
      j < 2 →
      i * 2 + j < (11 + 7) / 8 * 2 ∧ 3 + j < demo_handle.width ∧
        5 / 8 + i < demo_handle.total_pages ∧
        (5 % 8 ≠ 0 → 5 / 8 + i + 1 < demo_handle.total_pages)) :=
  image_call_is_safe demo_handle (by decide) 3 5 2 11 [0x0F, 0xF0, 1, 2] true (by decide)
    (by decide) (by decide)

/-! ## RAM synchronisation -/

theorem list_eq_cons_of_index {arr l : List Nat} {d : Nat} (hlen : arr.length = l.length + 1)
    (h0 : arr[0]? = some d) (hk : ∀ k, k < l.length → arr[k + 1]? = l[k]?) :
    arr = d :: l := by
  apply List.ext_getElem?
  intro n
  cases n with
  | zero => simpa using h0
  | succ k =>
    by_cases hlt : k < l.length
    · simpa using hk k hlt
    · have h1 : arr[k + 1]? = none := List.getElem?_eq_none (by omega)
      have h2 : l[k]? = none := List.getElem?_eq_none (by omega)
      simp [h1, h2]

/-- The loop that copies `n` bytes `val 0 .. val (n - 1)` behind the marker of a local
array of `n + 1` elements. -/
theorem fill_array_loop {body : Nat → List Nat → Option (loop_step (List Nat))} {n : Nat}
    (hn : n ≤ 255) (val : Nat → Nat) (d : Nat) {arr0 : List Nat}
    (hlen : arr0.length = n + 1) (h0 : arr0[0]? = some d)
    (hbody : ∀ i arr, i < n → body i arr = plain (array_set arr (i + 1) (val i))) :
    for_u8 0 (fun i => decide (i < n)) body arr0 =
      some (d :: (List.range n).map (fun i => to_u8 (val i))) := by
  obtain ⟨arr, hrun, hl, hd, hv⟩ := for_u8_next_rule (a := 0) (n := n)
    (c := fun i => decide (i < n)) (b := body) (Nat.zero_le _) hn
    (fun i arr => arr.length = n + 1 ∧ arr[0]? = some d ∧
      ∀ k, k < i → arr[k + 1]? = some (to_u8 (val k)))
    (by intro i _; simp) (s := arr0)
    ⟨hlen, h0, by intro k hk; omega⟩
    (by
      intro i arr _ hi ⟨hl, hd, hv⟩
      refine ⟨arr.set (i + 1) (to_u8 (val i)), ?_, by simp [hl], ?_, ?_⟩
      · rw [hbody i arr hi]
        have : i + 1 < arr.length := by omega
        simp [plain, array_set, this]
      · rw [List.getElem?_set]
        simpa using hd
      · intro k hk
        rw [List.getElem?_set]
        by_cases hki : k = i
        · subst hki
          have : k + 1 < arr.length := by omega
          simp [this]
        · have : ¬ i + 1 = k + 1 := by omega
          rw [if_neg this]
          exact hv k (by omega))
  rw [hrun]
  congr 1
  apply list_eq_cons_of_index (by simp [hl]) hd
  intro k hk
  have hk1 : k < n := by simpa using hk
  rw [hv k hk1]
  simp [hk1]

theorem page_bytes_spec {h : i2c_ssd1306_handle_t} (hs : shape_ok h) {p : Nat}
    (hp : p < h.total_pages) :
    (page_bytes h p).length = h.width ∧ ∀ c, seg_read h p c = (page_bytes h p)[c]? := by
  have hp1 : p < h.page.length := by rw [hs.1]; exact hp
  have hm : h.page[p] ∈ h.page := List.getElem_mem hp1
  unfold page_bytes seg_read
  rw [List.getElem?_eq_getElem hp1]
  exact ⟨hs.2 _ hm, fun _ => rfl⟩

theorem range_map_getD (l : List Nat) (first n : Nat) (hfit : first + n ≤ l.length) :
    (List.range n).map (fun i => l.getD (first + i) 0) = (l.drop first).take n := by
  apply List.ext_getElem?
  intro k
  by_cases hk : k < n
  · have h1 : first + k < l.length := by omega
    simp [List.getElem?_take, List.getElem?_drop, hk, List.getD_eq_getElem?_getD,
      List.getElem?_eq_getElem h1]
  · simp [List.getElem?_take, hk]
    omega

/-- The data command built by `i2c_ssd1306_segments_to_ram`: the data marker, then the
bytes of the columns `first .. last` of the page. -/
theorem segments_data_cmd_spec (cmd : oled_cmd_t) {h : i2c_ssd1306_handle_t}
    (hok : handle_ok h) {p first last : Nat} (hp : p < h.total_pages) (hfl : first ≤ last)
    (hl : last < h.width) :
    segments_data_cmd cmd h p first last =
      some (transfer_data_cmd cmd (((page_bytes h p).drop first).take (last - first + 1))) := by
  obtain ⟨hlen, hrd⟩ := page_bytes_spec hok.2.1 hp
  have hw := hok.1.1
  unfold segments_data_cmd
  have harr : array_set (array_new (last - first + 2)) 0 cmd.OLED_CONTROL_BYTE_DATA =
      some ((array_new (last - first + 2)).set 0 (to_u8 cmd.OLED_CONTROL_BYTE_DATA)) := by
    simp [array_set, array_new]
  rw [harr]
  simp only []
  rw [fill_array_loop (by omega) (fun i => (page_bytes h p).getD (first + i) 0)
    (to_u8 cmd.OLED_CONTROL_BYTE_DATA) (by simp [array_new]) (by simp [array_new])]
  · unfold transfer_data_cmd
    congr 2
    rw [← range_map_getD (page_bytes h p) first (last - first + 1) (by omega)]
    apply List.map_congr_left
    intro i hi
    have hi1 : first + i < (page_bytes h p).length := by
      have := List.mem_range.1 hi
      omega
    have hmem : (page_bytes h p)[first + i] ∈ (page_bytes h p) := List.getElem_mem hi1
    have hb : (page_bytes h p)[first + i] < 256 := by
      have hr := hrd (first + i)
      rw [List.getElem?_eq_getElem hi1] at hr
      exact seg_read_lt hok.2.2 hr
    simp [List.getD_eq_getElem?_getD, List.getElem?_eq_getElem hi1, to_u8_of_lt hb]
  · intro i arr hi
    have hi1 : first + i < (page_bytes h p).length := by omega
    simp [hrd, List.getD_eq_getElem?_getD, List.getElem?_eq_getElem hi1]

/-- The data command built by `i2c_ssd1306_page_to_ram`: the data marker, then the
`width` bytes of the page. -/
theorem page_data_cmd_spec (cmd : oled_cmd_t) {h : i2c_ssd1306_handle_t}
    (hok : handle_ok h) {p : Nat} (hp : p < h.total_pages) :
    page_data_cmd cmd h p = some (transfer_data_cmd cmd (page_bytes h p)) := by
  obtain ⟨hlen, hrd⟩ := page_bytes_spec hok.2.1 hp
  have hw := hok.1.1
  unfold page_data_cmd
  have harr : array_set (array_new (h.width + 1)) 0 cmd.OLED_CONTROL_BYTE_DATA =
      some ((array_new (h.width + 1)).set 0 (to_u8 cmd.OLED_CONTROL_BYTE_DATA)) := by
    simp [array_set, array_new]
  rw [harr]
  simp only []
  rw [fill_array_loop (by omega) (fun i => (page_bytes h p).getD i 0)
    (to_u8 cmd.OLED_CONTROL_BYTE_DATA) (by simp [array_new]) (by simp [array_new])]
  · unfold transfer_data_cmd
    congr 2
    have e := range_map_getD (page_bytes h p) 0 h.width (by omega)
    simp only [Nat.zero_add, List.drop_zero] at e
    have e3 : List.take h.width (page_bytes h p) = page_bytes h p :=
      List.take_of_length_le (by omega)
    refine Eq.trans (List.map_congr_left ?_) (e.trans e3)
    intro i hi
    have hi1 : i < (page_bytes h p).length := by
      have := List.mem_range.1 hi
      omega
    have hb : (page_bytes h p)[i] < 256 := by
      have hr := hrd i
      rw [List.getElem?_eq_getElem hi1] at hr
      exact seg_read_lt hok.2.2 hr
    simp [List.getD_eq_getElem?_getD, List.getElem?_eq_getElem hi1, to_u8_of_lt hb]
  · intro i arr hi
    have hi1 : i < (page_bytes h p).length := by omega
    simp [hrd, List.getD_eq_getElem?_getD, List.getElem?_eq_getElem hi1]

theorem transmit_ok {T : transport_t} (hT : ∀ l b, T l b = ESP_OK) (log : List (List Nat))
    (buf : List Nat) :
    esp_error_check_transmit T { sent := log, aborted := none } buf =
      { sent := log ++ [buf], aborted := none } := by
  simp [esp_error_check_transmit, hT]

/-- On a transport that succeeds, `i2c_ssd1306_page_to_ram` of a valid page appends the
set-address command for `(p, 0)` and the data command with the bytes of the page. -/
theorem page_to_ram_spec (cmd : oled_cmd_t) {T : transport_t} (hT : ∀ l b, T l b = ESP_OK)
    {h : i2c_ssd1306_handle_t} (hok : handle_ok h) {p : Nat} (hp : p < h.total_pages)
    (log : List (List Nat)) :
    i2c_ssd1306_page_to_ram cmd T h p { sent := log, aborted := none } =
      some { sent := log ++ [set_address_cmd cmd p 0, transfer_data_cmd cmd (page_bytes h p)],
             aborted := none } := by
  have hg : ¬ (p ≥ h.total_pages) := by omega
  unfold i2c_ssd1306_page_to_ram
  rw [if_neg hg]
  simp only [transmit_ok hT, page_data_cmd_spec cmd hok hp]
  simp [set_address_cmd]

/-- C8: for a valid page `p` and a transport that succeeds, `i2c_ssd1306_page_to_ram`
performs exactly two transactions, in this order: the set-address command
`[command marker, page opcode | p, low-column opcode | 0, high-column opcode | 0]`, then
the data marker followed by the `width` bytes `page[p].segment[0 .. width)` in column
order; for an all-zero page the payload is `width` zero bytes. -/
theorem page_to_ram_two_transactions (cmd : oled_cmd_t) (T : transport_t)
    (hT : ∀ l b, T l b = ESP_OK) (h : i2c_ssd1306_handle_t) (hok : handle_ok h) (p : Nat)
    (hp : p < h.total_pages) (log : List (List Nat)) :
    i2c_ssd1306_page_to_ram cmd T h p { sent := log, aborted := none } =
      some { sent := log ++
               [[to_u8 cmd.OLED_CONTROL_BYTE_CMD, to_u8 (cmd.OLED_MASK_PAGE_ADDR ||| p),
                 to_u8 (cmd.OLED_MASK_LSB_NIBBLE_SEG_ADDR ||| 0),
                 to_u8 (cmd.OLED_MASK_HSB_NIBBLE_SEG_ADDR ||| 0)],
                to_u8 cmd.OLED_CONTROL_BYTE_DATA :: page_bytes h p],
             aborted := none } ∧
    (page_bytes h p).length = h.width ∧
    (∀ c, c < h.width → (page_bytes h p)[c]? = seg_read h p c) ∧
    ((∀ c b, seg_read h p c = some b → b = 0) →
      page_bytes h p = List.replicate h.width 0) := by
  obtain ⟨hlen, hrd⟩ := page_bytes_spec hok.2.1 hp
  refine ⟨?_, hlen, fun c _ => (hrd c).symm, ?_⟩
  · rw [page_to_ram_spec cmd hT hok hp]
    rfl
  · intro hz
    apply List.ext_getElem?
    intro c
    by_cases hc : c < h.width
    · have hc1 : c < (page_bytes h p).length := by omega
      have hr := hrd c
      rw [List.getElem?_eq_getElem hc1] at hr
      simp [List.getElem?_eq_getElem hc1, hc, hz c _ hr]
    · have h1 : (page_bytes h p)[c]? = none := List.getElem?_eq_none (by omega)
      simp [h1, hc]
      omega

theorem seg_read_uniform {h : i2c_ssd1306_handle_t} {P W v : Nat}
    (hpg : h.page = uniform_pages P W v) {p c b : Nat} (hr : seg_read h p c = some b) :
    b = v := by
  unfold seg_read at hr
  rw [hpg] at hr
  unfold uniform_pages at hr
  rw [List.getElem?_replicate] at hr
  by_cases hp : p < P
  · rw [if_pos hp] at hr
    simp only [List.getElem?_replicate] at hr
    by_cases hc : c < W
    · rw [if_pos hc] at hr
      exact (Option.some.inj hr).symm
    · rw [if_neg hc] at hr
      exact absurd hr (by simp)
  · rw [if_neg hp] at hr
    exact absurd hr (by simp)

theorem page_bytes_uniform {h : i2c_ssd1306_handle_t} {P W v : Nat}
    (hpg : h.page = uniform_pages P W v) {p : Nat} (hp : p < P) :
    page_bytes h p = List.replicate W v := by
  unfold page_bytes
  rw [hpg]
  unfold uniform_pages
  rw [List.getElem?_replicate, if_pos hp]

/-- The loop of `i2c_ssd1306_buffer_fill`: every page is set to the fill byte. -/
theorem buffer_fill_spec {h : i2c_ssd1306_handle_t} (hok : handle_ok h) (fill : Bool) :
    ∃ k, i2c_ssd1306_buffer_fill h fill = some k ∧ same_config h k ∧ handle_ok k ∧
      k.page = uniform_pages h.total_pages h.width (if fill then 0xFF else 0x00) := by
  obtain ⟨hcfg, ⟨hlen, hwid⟩, _⟩ := hok
  obtain ⟨hw, h16, h64, h8, ht⟩ := hcfg
  unfold i2c_ssd1306_buffer_fill
  obtain ⟨k, hrun, hsame, hl, hget⟩ := for_u8_next_rule (a := 0) (n := h.total_pages)
    (c := fun i => decide (i < h.total_pages))
    (b := fun i hh =>
      if fill then plain (memset_page hh i 0xFF h.width)
      else plain (memset_page hh i 0x00 h.width))
    (Nat.zero_le _) (by omega)
    (fun i k => same_config h k ∧ k.page.length = h.total_pages ∧
      ∀ q, k.page[q]? =
        if q < i then some ⟨List.replicate h.width (if fill then 0xFF else 0x00)⟩
        else h.page[q]?)
    (by intro i _; simp) (s := h)
    ⟨same_config_refl h, hlen, by intro q; simp⟩
    (by
      intro i t _ hi ⟨hsame, hl, hget⟩
      have hi1 : i < h.page.length := by omega
      have hti : t.page[i]? = some h.page[i] := by
        rw [hget i, if_neg (lt_irrefl _)]
        exact List.getElem?_eq_getElem hi1
      have hsl : (h.page[i]).segment.length = h.width := hwid _ (List.getElem_mem hi1)
      have hms : ∀ v, v < 256 → memset_page t i v h.width =
          some { t with page := t.page.set i ⟨List.replicate h.width v⟩ } := by
        intro v hv
        have hdrop : List.drop h.width (h.page[i]).segment = [] :=
          List.drop_eq_nil_of_le (by omega)
        unfold memset_page
        rw [hti]
        simp [hsl, to_u8_of_lt hv, hdrop]
      refine ⟨{ t with
          page := t.page.set i ⟨List.replicate h.width (if fill then 0xFF else 0x00)⟩ },
        ?_, hsame, ?_, ?_⟩
      · cases fill
        · simp [plain, hms 0x00 (by decide)]
        · simp [plain, hms 0xFF (by decide)]
      · simp [hl]
      · intro q
        simp only [List.getElem?_set]
        by_cases hq : i = q
        · subst hq
          have : i < t.page.length := by omega
          simp [this]
        · rw [if_neg hq, hget q]
          by_cases hqi : q < i
          · have : q < i + 1 := by omega
            simp [hqi, this]
          · have : ¬ q < i + 1 := by omega
            simp [hqi, this])
  have hpage : k.page = uniform_pages h.total_pages h.width (if fill then 0xFF else 0x00) := by
    apply List.ext_getElem?
    intro q
    rw [hget q]
    unfold uniform_pages
    rw [List.getElem?_replicate]
    by_cases hq : q < h.total_pages
    · rw [if_pos hq, if_pos hq]
    · rw [if_neg hq, if_neg hq]
      exact List.getElem?_eq_none (by omega)
  refine ⟨k, hrun, hsame, ⟨config_ok_of_same hsame ⟨hw, h16, h64, h8, ht⟩, ?_, ?_⟩, hpage⟩
  · refine ⟨by rw [hl, hsame.2.2.2.2], ?_⟩
    intro pg hpg
    rw [hpage] at hpg
    rw [List.eq_of_mem_replicate hpg, hsame.2.2.1]
    simp
  · intro pg hpg b hb
    rw [hpage] at hpg
    rw [List.eq_of_mem_replicate hpg] at hb
    rw [List.eq_of_mem_replicate hb]
    cases fill <;> simp

/-- On a transport that succeeds, `i2c_ssd1306_pages_to_ram` appends the transactions of
the pages `0 .. total_pages - 1`, in this order. -/
theorem pages_to_ram_spec (cmd : oled_cmd_t) {T : transport_t} (hT : ∀ l b, T l b = ESP_OK)
    {h : i2c_ssd1306_handle_t} (hok : handle_ok h) (log : List (List Nat)) :
    i2c_ssd1306_pages_to_ram cmd T h { sent := log, aborted := none } =
      some { sent := log ++ (List.range h.total_pages).flatMap (page_transactions cmd h),
             aborted := none } := by
  obtain ⟨hw, h16, h64, h8, ht⟩ := hok.1
  unfold i2c_ssd1306_pages_to_ram
  obtain ⟨s, hrun, hs⟩ := for_u8_next_rule (a := 0) (n := h.total_pages)
    (c := fun i => decide (i < h.total_pages))
    (b := fun i si =>
      match i2c_ssd1306_page_to_ram cmd T h i si with
      | none => none
      | some sj =>
        if sj.aborted.isSome then some (loop_step.exit sj) else some (loop_step.next sj))
    (Nat.zero_le _) (by omega)
    (fun i s => s = { sent := log ++ (List.range i).flatMap (page_transactions cmd h),
                      aborted := none })
    (by intro i _; simp) (s := { sent := log, aborted := none })
    (by simp)
    (by
      intro i s _ hi hs
      subst hs
      refine ⟨_, ?_, rfl⟩
      simp only [page_to_ram_spec cmd hT hok hi]
      simp [List.range_succ, List.flatMap_append, page_transactions])
  rw [hrun, hs]

theorem handle_ok_of_uniform {h : i2c_ssd1306_handle_t} (hc : config_ok h) {v : Nat}
    (hpg : h.page = uniform_pages h.total_pages h.width v) (hv : v < 256) : handle_ok h := by
  refine ⟨hc, ⟨?_, ?_⟩, ?_⟩
  · rw [hpg]; simp [uniform_pages]
  · intro pg hm
    rw [hpg] at hm
    rw [List.eq_of_mem_replicate hm]
    simp
  · intro pg hm b hb
    rw [hpg] at hm
    rw [List.eq_of_mem_replicate hm] at hb
    rw [List.eq_of_mem_replicate hb]
    exact hv

theorem display_128x64_ok : handle_ok display_128x64 :=
  handle_ok_of_uniform (by decide) rfl (by decide)

theorem length_flatMap_pairs (f : Nat → List (List Nat)) (hf : ∀ p, (f p).length = 2)
    (n : Nat) : ((List.range n).flatMap f).length = 2 * n := by
  induction n with
  | zero => simp
  | succ n ih =>
    rw [List.range_succ, List.flatMap_append, List.length_append, ih]
    simp [hf]
    ring

/-- C9: on a transport that succeeds, the transactions of `i2c_ssd1306_pages_to_ram` are
the concatenation, for `p = 0, 1, .., total_pages - 1` in increasing order, of the two
transactions of `i2c_ssd1306_page_to_ram(p)`, which makes `2 * total_pages` transactions;
on a 128x64 display after `i2c_ssd1306_buffer_fill(true)` these are 8 page transfers,
each carrying 128 bytes `0xFF`. -/
theorem pages_to_ram_all_pages (cmd : oled_cmd_t) (T : transport_t)
    (hT : ∀ l b, T l b = ESP_OK) (h : i2c_ssd1306_handle_t) (hok : handle_ok h)
    (log : List (List Nat)) :
    i2c_ssd1306_pages_to_ram cmd T h { sent := log, aborted := none } =
      some { sent := log ++ (List.range h.total_pages).flatMap (page_transactions cmd h),
             aborted := none } ∧
    (∀ p l, p < h.total_pages →
      i2c_ssd1306_page_to_ram cmd T h p { sent := l, aborted := none } =
        some { sent := l ++ page_transactions cmd h p, aborted := none }) ∧
    ((List.range h.total_pages).flatMap (page_transactions cmd h)).length =
      2 * h.total_pages ∧
    (h.width = 128 → h.height = 64 →
      ∃ k, i2c_ssd1306_buffer_fill h true = some k ∧
        i2c_ssd1306_pages_to_ram cmd T k { sent := log, aborted := none } =
          some { sent := log ++ (List.range 8).flatMap (fun p =>
                   [set_address_cmd cmd p 0,
                    transfer_data_cmd cmd (List.replicate 128 0xFF)]),
                 aborted := none }) := by
  refine ⟨pages_to_ram_spec cmd hT hok log, ?_, ?_, ?_⟩
  · intro p l hp
    exact page_to_ram_spec cmd hT hok hp l
  · exact length_flatMap_pairs (page_transactions cmd h) (fun _ => rfl) h.total_pages
  · intro hw hh
    obtain ⟨k, hrun, hsame, hokk, hpage⟩ := buffer_fill_spec hok true
    refine ⟨k, hrun, ?_⟩
    have ht : h.total_pages = 8 := by
      have := hok.1.2.2.2.2
      omega
    have htk : k.total_pages = 8 := by rw [hsame.2.2.2.2, ht]
    have e : (List.range 8).flatMap (page_transactions cmd k) =
        (List.range 8).flatMap (fun p =>
          [set_address_cmd cmd p 0, transfer_data_cmd cmd (List.replicate 128 0xFF)]) := by
      apply List.flatMap_congr
      intro p hp
      have hp8 : p < h.total_pages := by
        have := List.mem_range.1 hp
        omega
      simp [page_transactions, page_bytes_uniform hpage hp8, hw]
    rw [pages_to_ram_spec cmd hT hokk log, htk, e]

theorem pages_to_ram_all_pages_witness :
    ∃ k, i2c_ssd1306_buffer_fill display_128x64 true = some k ∧
      i2c_ssd1306_pages_to_ram demo_cmd transport_ok k { sent := [], aborted := none } =
        some { sent := [] ++ (List.range 8).flatMap (fun p =>
                 [set_address_cmd demo_cmd p 0,
                  transfer_data_cmd demo_cmd (List.replicate 128 0xFF)]),
               aborted := none } :=
  (pages_to_ram_all_pages demo_cmd transport_ok (fun _ _ => rfl) display_128x64
    display_128x64_ok []).2.2.2 rfl rfl

theorem take_one_drop {l : List Nat} {i : Nat} (hi : i < l.length) :
    (l.drop i).take 1 = [l[i]] := by
  apply List.ext_getElem?
  intro k
  cases k with
  | zero => simp [List.getElem?_take, List.getElem?_drop, List.getElem?_eq_getElem hi]
  | succ k => simp [List.getElem?_take]

/-- C10: for a valid page and `first <= last < width`, on a transport that succeeds,
`i2c_ssd1306_segments_to_ram` sends one set-address command for `(page, first)` and one
data command of `last - first + 2` bytes, whose payload behind the data marker is
`page[page].segment[first .. last]` in column order; `i2c_ssd1306_segment_to_ram(page, s)`
sends the same two transactions as `i2c_ssd1306_segments_to_ram(page, s, s)`, with a
payload of one byte. -/
theorem segments_to_ram_transactions (cmd : oled_cmd_t) (T : transport_t)
    (hT : ∀ l b, T l b = ESP_OK) (h : i2c_ssd1306_handle_t) (hok : handle_ok h)
    (page first last : Nat) (hp : page < h.total_pages) (hfl : first ≤ last)
    (hl : last < h.width) (log : List (List Nat)) :
    i2c_ssd1306_segments_to_ram cmd T h page first last { sent := log, aborted := none } =
      some { sent := log ++
               [set_address_cmd cmd page first,
                transfer_data_cmd cmd
                  (((page_bytes h page).drop first).take (last - first + 1))],
             aborted := none } ∧
    (transfer_data_cmd cmd
      (((page_bytes h page).drop first).take (last - first + 1))).length = last - first + 2 ∧
    (∀ i, i ≤ last - first →
      (((page_bytes h page).drop first).take (last - first + 1))[i]? =
        seg_read h page (first + i)) ∧
    i2c_ssd1306_segment_to_ram cmd T h page first { sent := log, aborted := none } =
      i2c_ssd1306_segments_to_ram cmd T h page first first { sent := log, aborted := none } ∧
    ∃ b, seg_read h page first = some b ∧
      i2c_ssd1306_segment_to_ram cmd T h page first { sent := log, aborted := none } =
        some { sent := log ++
                 [set_address_cmd cmd page first, [to_u8 cmd.OLED_CONTROL_BYTE_DATA, b]],
               aborted := none } := by
  obtain ⟨hlen, hrd⟩ := page_bytes_spec hok.2.1 hp
  have hg1 : ¬ (page ≥ h.total_pages) := by omega
  have hfirst : first < (page_bytes h page).length := by omega
  have hseg : ∀ a b, a ≤ b → b < h.width →
      i2c_ssd1306_segments_to_ram cmd T h page a b { sent := log, aborted := none } =
        some { sent := log ++
                 [set_address_cmd cmd page a,
                  transfer_data_cmd cmd (((page_bytes h page).drop a).take (b - a + 1))],
               aborted := none } := by
    intro a b hab hb
    have hg2 : ¬ (a ≥ h.width ∨ b ≥ h.width ∨ a > b) := by omega
    unfold i2c_ssd1306_segments_to_ram
    rw [if_neg hg1, if_neg hg2]
    simp only [transmit_ok hT, segments_data_cmd_spec cmd hok hp hab hb]
    simp [set_address_cmd]
  have hone : i2c_ssd1306_segment_to_ram cmd T h page first { sent := log, aborted := none } =
      some { sent := log ++
               [set_address_cmd cmd page first,
                [to_u8 cmd.OLED_CONTROL_BYTE_DATA, (page_bytes h page)[first]]],
             aborted := none } := by
    have hg2 : ¬ (first ≥ h.width) := by omega
    unfold i2c_ssd1306_segment_to_ram
    rw [if_neg hg1, if_neg hg2]
    simp only [transmit_ok hT, hrd, List.getElem?_eq_getElem hfirst]
    simp [set_address_cmd]
  refine ⟨hseg first last hfl hl, ?_, ?_, ?_, ?_⟩
  · simp [transfer_data_cmd, List.length_take, List.length_drop, hlen]
    omega
  · intro i hi
    rw [List.getElem?_take, if_pos (by omega), List.getElem?_drop, hrd]
  · rw [hone, hseg first first (le_refl _) (by omega)]
    simp [transfer_data_cmd, take_one_drop hfirst]
  · exact ⟨(page_bytes h page)[first], by rw [hrd, List.getElem?_eq_getElem hfirst], hone⟩

theorem segments_to_ram_transactions_witness :
    i2c_ssd1306_segments_to_ram demo_cmd transport_ok demo_handle_lit 1 19 21
        { sent := [], aborted := none } =
      some { sent := [[0x00, 0xB1, 0x03, 0x11], [0x40, 0xFF, 0xFF, 0xFF]], aborted := none } ∧
    i2c_ssd1306_segment_to_ram demo_cmd transport_ok demo_handle_lit 1 19
        { sent := [], aborted := none } =
      some { sent := [[0x00, 0xB1, 0x03, 0x11], [0x40, 0xFF]], aborted := none } := by
  obtain ⟨hrun, _, _, _, b, hb, hone⟩ :=
    segments_to_ram_transactions demo_cmd transport_ok (fun _ _ => rfl) demo_handle_lit
      (by decide) 1 19 21 (by decide) (by decide) (by decide) []
  have hb1 : b = 0xFF := seg_read_uniform (h := demo_handle_lit) rfl hb
  subst hb1
  refine ⟨?_, ?_⟩
  · rw [hrun]; decide
  · rw [hone]; decide

/-! ## Examples on the 32x16 display -/

theorem demo_handle_zero (p c b : Nat) (hr : seg_read demo_handle p c = some b) : b = 0 :=
  seg_read_uniform (h := demo_handle) rfl hr

theorem fill_space_rectangle_witness :
    ∃ k, i2c_ssd1306_buffer_fill_space demo_handle 2 5 6 9 true = some k ∧
      (∀ u v, 2 ≤ u → u ≤ 5 → 6 ≤ v → v ≤ 9 → pixel k u v = true) ∧
      (∀ u v, ¬ (2 ≤ u ∧ u ≤ 5 ∧ 6 ≤ v ∧ v ≤ 9) → pixel k u v = false) ∧
      lit_pixels k = 16 := by
  obtain ⟨k, hrun, _, _, hin, hout, hcount⟩ :=
    fill_space_rectangle demo_handle (by decide) 2 5 6 9 (by decide) (by decide) (by decide)
      (by decide) true
  exact ⟨k, hrun, hin,
    fun u v hn => by rw [hout u v hn, pixel_false_of_zero demo_handle_zero],
    hcount rfl demo_handle_zero⟩

theorem page_to_ram_two_transactions_witness :
    i2c_ssd1306_page_to_ram demo_cmd transport_ok demo_handle 1
        { sent := [], aborted := none } =
      some { sent := [[0x00, 0xB1, 0x00, 0x10], 0x40 :: List.replicate 32 0],
             aborted := none } := by
  obtain ⟨hrun, _, _, hzero⟩ :=
    page_to_ram_two_transactions demo_cmd transport_ok (fun _ _ => rfl) demo_handle
      (by decide) 1 (by decide) []
  rw [hrun, hzero (fun c b hr => demo_handle_zero 1 c b hr)]
  decide

theorem image_aligned_is_copy_witness :
    ∃ k, i2c_ssd1306_buffer_image demo_handle 3 8 [0x0F, 0xF0] 2 8 true = some k ∧
      seg_read k 1 3 = some 0xF0 ∧ seg_read k 1 4 = some 0x0F ∧
      ∀ q d, ¬ (1 ≤ q ∧ q < 2 ∧ 3 ≤ d ∧ d < 5) → seg_read k q d = seg_read demo_handle q d := by
  obtain ⟨k, hrun, _, _, hcopy, hframe⟩ :=
    image_aligned_is_copy demo_handle (by decide) 3 8 2 8 [0x0F, 0xF0] true (by decide)
      (by decide) (by decide) (by decide) (by decide)
  obtain ⟨b0, hb0, hr0⟩ := hcopy 0 0 (by decide) (by decide)
  obtain ⟨b1, hb1, hr1⟩ := hcopy 0 1 (by decide) (by decide)
  have e0 : b0 = 0x0F := (Option.some.inj hb0).symm
  have e1 : b1 = 0xF0 := (Option.some.inj hb1).symm
  subst e0 e1
  exact ⟨k, hrun, hr0, hr1, fun q d hn => hframe q d (by omega)⟩

/-! ## Rejected calls -/

/-- C11: `i2c_ssd1306_buffer_fill_pixel` with `x >= width` or `y >= height`, and
`i2c_ssd1306_buffer_fill_space` with `x1 > x2`, `y1 > y2`, `x2 >= width` or
`y2 >= height`, return with the handle, and so every byte of the framebuffer, unchanged;
this holds for every handle, whatever its framebuffer. -/
theorem out_of_range_pixel_and_space_unchanged (h : i2c_ssd1306_handle_t)
    (x y x1 x2 y1 y2 : Nat) (lit : Bool) :
    ((x ≥ h.width ∨ y ≥ h.height) → i2c_ssd1306_buffer_fill_pixel h x y lit = some h) ∧
    ((x1 > x2 ∨ y1 > y2 ∨ x2 ≥ h.width ∨ y2 ≥ h.height) →
      i2c_ssd1306_buffer_fill_space h x1 x2 y1 y2 lit = some h) := by
  constructor
  · intro hg
    unfold i2c_ssd1306_buffer_fill_pixel
    rw [if_pos hg]
  · intro hg
    have hg1 : x1 ≥ h.width ∨ x2 ≥ h.width ∨ y1 ≥ h.height ∨ y2 ≥ h.height ∨ x1 > x2 ∨
        y1 > y2 := by omega
    unfold i2c_ssd1306_buffer_fill_space
    rw [if_pos hg1]

theorem out_of_range_pixel_and_space_unchanged_witness :
    i2c_ssd1306_buffer_fill_pixel demo_handle_lit 32 3 false = some demo_handle_lit ∧
    i2c_ssd1306_buffer_fill_pixel demo_handle_lit 3 16 false = some demo_handle_lit ∧
    i2c_ssd1306_buffer_fill_space demo_handle_lit 5 2 0 3 false = some demo_handle_lit ∧
    i2c_ssd1306_buffer_fill_space demo_handle_lit 0 3 0 16 false = some demo_handle_lit :=
  ⟨(out_of_range_pixel_and_space_unchanged demo_handle_lit 32 3 0 0 0 0 false).1
      (by decide),
   (out_of_range_pixel_and_space_unchanged demo_handle_lit 3 16 0 0 0 0 false).1
      (by decide),
   (out_of_range_pixel_and_space_unchanged demo_handle_lit 0 0 5 2 0 3 false).2
      (by decide),
   (out_of_range_pixel_and_space_unchanged demo_handle_lit 0 0 0 3 0 16 false).2
      (by decide)⟩

/-- C14: `i2c_ssd1306_buffer_text` returns with the handle, and so every byte of the
framebuffer, unchanged when `x >= width` or `y >= height`, and also when `y % 8 != 0` and
`y / 8 + 1 >= total_pages`; `y` is the `uint8_t` the function receives. This holds for
every handle, glyph table and string. -/
theorem text_rejected_unchanged (font8x8 : Nat → Nat → Nat) (h : i2c_ssd1306_handle_t)
    (x y : Nat) (text : List Nat) (invert : Bool) (hy8 : y < 256)
    (hrej : x ≥ h.width ∨ y ≥ h.height ∨ (y % 8 ≠ 0 ∧ y / 8 + 1 ≥ h.total_pages)) :
    i2c_ssd1306_buffer_text font8x8 h x y text invert = some h := by
  rw [buffer_text_eq]
  by_cases hg : x ≥ h.width ∨ y ≥ h.height
  · rw [if_pos hg]
  · rw [if_neg hg]
    have hoff : y % 8 ≠ 0 ∧ y / 8 + 1 ≥ h.total_pages := by
      rcases hrej with h1 | h1 | h1
      · exact absurd (Or.inl h1) hg
      · exact absurd (Or.inr h1) hg
      · exact h1
    have hoffu : to_u8 (y % 8) = y % 8 := to_u8_of_lt (by omega)
    have hpage : to_u8 (y / 8) = y / 8 := to_u8_of_lt (by omega)
    rw [hoffu, hpage, if_neg hoff.1, if_pos hoff.2]

theorem text_rejected_unchanged_witness :
    i2c_ssd1306_buffer_text demo_font8x8 demo_handle_lit 0 10 [72, 105] false =
      some demo_handle_lit :=
  text_rejected_unchanged demo_font8x8 demo_handle_lit 0 10 [72, 105] false (by decide)
    (by decide)

/-- C16: `i2c_ssd1306_segment_to_ram`, `i2c_ssd1306_segments_to_ram` and
`i2c_ssd1306_page_to_ram` return with the bus untouched (no transaction is added to the
log, nothing is asked of the transport) whenever `page >= total_pages`, a segment index is
`>= width`, or `first > last`. The functions only read the handle: the framebuffer is the
same after the call. This holds for every handle, transport and bus state. -/
theorem sync_rejected_sends_nothing (cmd : oled_cmd_t) (T : transport_t)
    (h : i2c_ssd1306_handle_t) (page segment first last : Nat) (s : bus_state) :
    ((page ≥ h.total_pages ∨ segment ≥ h.width) →
      i2c_ssd1306_segment_to_ram cmd T h page segment s = some s) ∧
    ((page ≥ h.total_pages ∨ first ≥ h.width ∨ last ≥ h.width ∨ first > last) →
      i2c_ssd1306_segments_to_ram cmd T h page first last s = some s) ∧
    (page ≥ h.total_pages → i2c_ssd1306_page_to_ram cmd T h page s = some s) := by
  refine ⟨?_, ?_, ?_⟩
  · intro hg
    unfold i2c_ssd1306_segment_to_ram
    by_cases hp : page ≥ h.total_pages
    · rw [if_pos hp]
    · rw [if_neg hp, if_pos (hg.resolve_left hp)]
  · intro hg
    unfold i2c_ssd1306_segments_to_ram
    by_cases hp : page ≥ h.total_pages
    · rw [if_pos hp]
    · rw [if_neg hp, if_pos (hg.resolve_left hp)]
  · intro hg
    unfold i2c_ssd1306_page_to_ram
    rw [if_pos hg]

theorem sync_rejected_sends_nothing_witness :
    i2c_ssd1306_segment_to_ram demo_cmd transport_ok demo_handle 2 0
        { sent := [], aborted := none } = some { sent := [], aborted := none } ∧
    i2c_ssd1306_segment_to_ram demo_cmd transport_ok demo_handle 0 32
        { sent := [], aborted := none } = some { sent := [], aborted := none } ∧
    i2c_ssd1306_segments_to_ram demo_cmd transport_ok demo_handle 0 5 4
        { sent := [], aborted := none } = some { sent := [], aborted := none } ∧
    i2c_ssd1306_page_to_ram demo_cmd transport_ok demo_handle 2
        { sent := [], aborted := none } = some { sent := [], aborted := none } :=
  ⟨(sync_rejected_sends_nothing demo_cmd transport_ok demo_handle 2 0 0 0
      { sent := [], aborted := none }).1 (by decide),
   (sync_rejected_sends_nothing demo_cmd transport_ok demo_handle 0 32 0 0
      { sent := [], aborted := none }).1 (by decide),
   (sync_rejected_sends_nothing demo_cmd transport_ok demo_handle 0 0 5 4
      { sent := [], aborted := none }).2.1 (by decide),
   (sync_rejected_sends_nothing demo_cmd transport_ok demo_handle 2 0 0 0
      { sent := [], aborted := none }).2.2 (by decide)⟩

/-! ## Whole framebuffers -/

/-- Two handles with the same configuration and the allocated shape are equal when they
hold the same bytes. -/
theorem handle_ext {h k : i2c_ssd1306_handle_t} (hsame : same_config h k)
    (hs : shape_ok h) (ks : shape_ok k)
    (hrd : ∀ p c, seg_read k p c = seg_read h p c) : k = h := by
  obtain ⟨e1, e2, e3, e4, e5⟩ := hsame
  have hpage : k.page = h.page := by
    apply List.ext_getElem?
    intro p
    by_cases hp : p < h.total_pages
    · have hp1 : p < h.page.length := by rw [hs.1]; exact hp
      have hp2 : p < k.page.length := by rw [ks.1, e5]; exact hp
      rw [List.getElem?_eq_getElem hp1, List.getElem?_eq_getElem hp2]
      have hseg : (k.page[p]).segment = (h.page[p]).segment := by
        apply List.ext_getElem?
        intro c
        have := hrd p c
        simpa [seg_read, List.getElem?_eq_getElem hp1, List.getElem?_eq_getElem hp2] using this
      cases hk : k.page[p] with
      | mk sk =>
        cases hh : h.page[p] with
        | mk sh =>
          rw [hk, hh] at hseg
          simp only at hseg
          rw [hseg]
    · have h1 : h.page[p]? = none := List.getElem?_eq_none (by rw [hs.1]; omega)
      have h2 : k.page[p]? = none := List.getElem?_eq_none (by rw [ks.1, e5]; omega)
      rw [h1, h2]
  cases h
  cases k
  simp only at e1 e2 e3 e4 e5 hpage
  subst e1 e2 e3 e4 e5 hpage
  rfl

/-- C12, counterexample: on the all-lit 32x16 framebuffer, lighting pixel `(3, 9)` and
then clearing it leaves the pixel cleared: the framebuffer is not the one before the two
calls. -/
theorem set_then_clear_loses_lit_pixel :
    handle_ok demo_handle_lit ∧ 3 < demo_handle_lit.width ∧ 9 < demo_handle_lit.height ∧
      (i2c_ssd1306_buffer_fill_pixel demo_handle_lit 3 9 true).bind
        (fun k => i2c_ssd1306_buffer_fill_pixel k 3 9 false) ≠ some demo_handle_lit := by
  decide

/-- C12, amended: for an in-range `(x, y)`, `i2c_ssd1306_buffer_fill_pixel(x, y, true)`
followed by `i2c_ssd1306_buffer_fill_pixel(x, y, false)` leaves the framebuffer that
`i2c_ssd1306_buffer_fill_pixel(x, y, false)` alone leaves; when pixel `(x, y)` was not lit
before the two calls, that is exactly the framebuffer before the two calls. -/
theorem set_then_clear_pixel (h : i2c_ssd1306_handle_t) (hok : handle_ok h) (x y : Nat)
    (hx : x < h.width) (hy : y < h.height) :
    ∃ k, i2c_ssd1306_buffer_fill_pixel h x y true = some k ∧
      i2c_ssd1306_buffer_fill_pixel k x y false =
        i2c_ssd1306_buffer_fill_pixel h x y false ∧
      (pixel h x y = false → i2c_ssd1306_buffer_fill_pixel k x y false = some h) := by
  have hg : ¬ (x ≥ h.width ∨ y ≥ h.height) := by omega
  obtain ⟨k, b, c, hrun, hsame, hokk, hb, hc, hbits, hframe⟩ := store_bit_spec hok hx hy true
  have hxk : x < k.width := by rw [hsame.2.2.1]; exact hx
  have hyk : y < k.height := by rw [hsame.2.2.2.1]; exact hy
  have hgk : ¬ (x ≥ k.width ∨ y ≥ k.height) := by omega
  obtain ⟨k2, b2, c2, hrun2, hsame2, hok2, hb2, hc2, hbits2, hframe2⟩ :=
    store_bit_spec hokk hxk hyk false
  obtain ⟨k3, b3, c3, hrun3, hsame3, hok3, hb3, hc3, hbits3, hframe3⟩ :=
    store_bit_spec hok hx hy false
  have e2 : b2 = c := Option.some.inj (hb2.symm.trans hc)
  have e3 : b3 = b := Option.some.inj (hb3.symm.trans hb)
  subst e2 e3
  have hcc : c2 = c3 := by
    apply Nat.eq_of_testBit_eq
    intro j
    rw [hbits2, hbits3, hbits]
    by_cases hj : j = y % 8 <;> simp [hj]
  have h23 : k2 = k3 := by
    have hs23 : same_config k3 k2 := by
      obtain ⟨a1, a2, a3, a4, a5⟩ := same_config_trans hsame hsame2
      obtain ⟨d1, d2, d3, d4, d5⟩ := hsame3
      exact ⟨a1.trans d1.symm, a2.trans d2.symm, a3.trans d3.symm, a4.trans d4.symm,
        a5.trans d5.symm⟩
    apply handle_ext hs23 hok3.2.1 hok2.2.1
    intro p d
    by_cases hpd : p = y / 8 ∧ d = x
    · obtain ⟨rfl, rfl⟩ := hpd
      rw [hc2, hc3, hcc]
    · rw [hframe2 p d hpd, hframe p d hpd, hframe3 p d hpd]
  have hfalse : i2c_ssd1306_buffer_fill_pixel h x y false = some k3 := by
    unfold i2c_ssd1306_buffer_fill_pixel
    rw [if_neg hg]
    simpa using hrun3
  have hkfalse : i2c_ssd1306_buffer_fill_pixel k x y false = some k2 := by
    unfold i2c_ssd1306_buffer_fill_pixel
    rw [if_neg hgk]
    simpa using hrun2
  refine ⟨k, ?_, by rw [hkfalse, hfalse, h23], ?_⟩
  · unfold i2c_ssd1306_buffer_fill_pixel
    rw [if_neg hg]
    simpa using hrun
  · intro hpix
    rw [hkfalse, h23]
    congr 1
    apply handle_ext hsame3 hok.2.1 hok3.2.1
    intro p d
    by_cases hpd : p = y / 8 ∧ d = x
    · obtain ⟨rfl, rfl⟩ := hpd
      rw [hc3, hb]
      congr 1
      apply Nat.eq_of_testBit_eq
      intro j
      rw [hbits3]
      by_cases hj : j = y % 8
      · subst hj
        have : b3.testBit (y % 8) = false := by simpa [pixel, hb] using hpix
        simp [this]
      · simp [hj]
    · rw [hframe3 p d hpd]

theorem set_then_clear_pixel_witness :
    ∃ k, i2c_ssd1306_buffer_fill_pixel demo_handle 3 9 true = some k ∧
      i2c_ssd1306_buffer_fill_pixel k 3 9 false = some demo_handle := by
  obtain ⟨k, hrun, _, hback⟩ :=
    set_then_clear_pixel demo_handle (by decide) 3 9 (by decide) (by decide)
  exact ⟨k, hrun, hback (by decide)⟩

/-- The loop of `i2c_ssd1306_buffer_clear` is the loop of `i2c_ssd1306_buffer_fill` with
`fill = false`. -/
theorem buffer_clear_eq_fill_false (h : i2c_ssd1306_handle_t) :
    i2c_ssd1306_buffer_clear h = i2c_ssd1306_buffer_fill h false := rfl

/-- C20: on every initialised handle `i2c_ssd1306_buffer_fill(true)` leaves every byte of
every page `0xFF`, `i2c_ssd1306_buffer_fill(false)` leaves every byte `0x00`, and
`i2c_ssd1306_buffer_clear` gives the same all-zero framebuffer as
`i2c_ssd1306_buffer_fill(false)`; the configuration, the number of pages and the length
of each page are unchanged. -/
theorem fill_and_clear_set_every_byte (h : i2c_ssd1306_handle_t) (hok : handle_ok h)
    (fill : Bool) :
    ∃ k, i2c_ssd1306_buffer_fill h fill = some k ∧ same_config h k ∧ handle_ok k ∧
      k.page = uniform_pages h.total_pages h.width (if fill then 0xFF else 0x00) ∧
      (∀ p c, p < h.total_pages → c < h.width →
        seg_read k p c = some (if fill then 0xFF else 0x00)) ∧
      k.page.length = h.page.length ∧
      (∀ p, (page_bytes k p).length = (page_bytes h p).length) ∧
      i2c_ssd1306_buffer_clear h = i2c_ssd1306_buffer_fill h false := by
  obtain ⟨k, hrun, hsame, hokk, hpage⟩ := buffer_fill_spec hok fill
  refine ⟨k, hrun, hsame, hokk, hpage, ?_, ?_, ?_, buffer_clear_eq_fill_false h⟩
  · intro p c hp hc
    obtain ⟨b, hb⟩ := seg_read_some hokk.2.1 (by rw [hsame.2.2.2.2]; exact hp)
      (by rw [hsame.2.2.1]; exact hc)
    rw [hb, seg_read_uniform hpage hb]
  · rw [hokk.2.1.1, hok.2.1.1, hsame.2.2.2.2]
  · intro p
    by_cases hp : p < h.total_pages
    · rw [(page_bytes_spec hokk.2.1 (by rw [hsame.2.2.2.2]; exact hp)).1,
        (page_bytes_spec hok.2.1 hp).1, hsame.2.2.1]
    · have h1 : h.page[p]? = none := List.getElem?_eq_none (by rw [hok.2.1.1]; omega)
      have h2 : k.page[p]? = none :=
        List.getElem?_eq_none (by rw [hokk.2.1.1, hsame.2.2.2.2]; omega)
      simp [page_bytes, h1, h2]

theorem fill_and_clear_set_every_byte_witness :
    (∃ k, i2c_ssd1306_buffer_fill demo_handle true = some k ∧
      k.page = uniform_pages 2 32 0xFF ∧ k.page.length = demo_handle.page.length) ∧
    (∃ k, i2c_ssd1306_buffer_fill demo_handle_lit false = some k ∧
      k.page = uniform_pages 2 32 0x00 ∧
      i2c_ssd1306_buffer_clear demo_handle_lit = some k) := by
  obtain ⟨k, hrun, _, _, hpage, _, hlen, _, _⟩ :=
    fill_and_clear_set_every_byte demo_handle (by decide) true
  obtain ⟨k0, hrun0, _, _, hpage0, _, _, _, hclear⟩ :=
    fill_and_clear_set_every_byte demo_handle_lit (by decide) false
  exact ⟨⟨k, hrun, hpage, hlen⟩, ⟨k0, hrun0, hpage0, by rw [hclear, hrun0]⟩⟩

/-! ## Transport failures -/

theorem transmit_all_of_aborted (T : transport_t) {s : bus_state}
    (hs : s.aborted.isSome = true) (txs : List (List Nat)) : transmit_all T s txs = s := by
  cases txs with
  | nil => rfl
  | cons b bs => simp [transmit_all, hs]

theorem transmit_all_append (T : transport_t) (s : bus_state) (l1 l2 : List (List Nat)) :
    transmit_all T s (l1 ++ l2) = transmit_all T (transmit_all T s l1) l2 := by
  induction l1 generalizing s with
  | nil => rfl
  | cons b bs ih =>
    by_cases hs : s.aborted.isSome = true
    · rw [List.cons_append, transmit_all_of_aborted T hs, transmit_all_of_aborted T hs,
        transmit_all_of_aborted T hs]
    · simp only [List.cons_append, transmit_all, hs]
      exact ih _

/-- The two transactions of one sync call, sent through `ESP_ERROR_CHECK`. -/
theorem transmit_all_pair (T : transport_t) {s : bus_state} (hs : s.aborted = none)
    (a d : List Nat) :
    transmit_all T s [a, d] =
      if (esp_error_check_transmit T s a).aborted.isSome then esp_error_check_transmit T s a
      else esp_error_check_transmit T (esp_error_check_transmit T s a) d := by
  simp [transmit_all, hs]

/-- Sending in order and stopping at the first failure is what `stops_at_first_failure`
says. -/
theorem transmit_all_stops (T : transport_t) (txs : List (List Nat)) :
    ∀ log : List (List Nat),
      stops_at_first_failure T log txs
        (some (transmit_all T { sent := log, aborted := none } txs)) := by
  induction txs with
  | nil =>
    intro log
    refine ⟨fun _ => by simp [transmit_all], ?_⟩
    intro k hk
    exact absurd hk (by simp)
  | cons b bs ih =>
    intro log
    obtain ⟨ih1, ih2⟩ := ih (log ++ [b])
    have hshift : ∀ j, log ++ [b] ++ bs.take j = log ++ (b :: bs).take (j + 1) := by
      intro j; simp
    have hget : ∀ j, bs.getD j [] = (b :: bs).getD (j + 1) [] := by
      intro j; simp
    constructor
    · intro hall
      have h0 : T log b = ESP_OK := by
        have := hall 0 (by simp)
        simpa using this
      have hrest : ∀ j, j < bs.length → T (log ++ [b] ++ bs.take j) (bs.getD j []) = ESP_OK := by
        intro j hj
        rw [hshift, hget]
        exact hall (j + 1) (by simpa using hj)
      have := ih1 hrest
      simp only [transmit_all, esp_error_check_transmit, h0]
      simpa using this
    · intro k hk hprev hfail
      cases k with
      | zero =>
        have hf : T log b ≠ ESP_OK := by simpa using hfail
        simp [transmit_all, esp_error_check_transmit, hf, transmit_all_of_aborted]
      | succ k =>
        have h0 : T log b = ESP_OK := by
          have := hprev 0 (by omega)
          simpa using this
        have hprev1 : ∀ j, j < k → T (log ++ [b] ++ bs.take j) (bs.getD j []) = ESP_OK := by
          intro j hj
          rw [hshift, hget]
          exact hprev (j + 1) (by omega)
        have hfail1 : T (log ++ [b] ++ bs.take k) (bs.getD k []) ≠ ESP_OK := by
          rw [hshift, hget]; exact hfail
        have := ih2 k (by simpa using hk) hprev1 hfail1
        simp only [transmit_all, esp_error_check_transmit, h0]
        rw [hshift, hget] at this
        simpa using this

/-- For every transport, `i2c_ssd1306_page_to_ram` of a valid page sends its two
transactions in order through `ESP_ERROR_CHECK`. -/
theorem page_to_ram_transmits (cmd : oled_cmd_t) (T : transport_t)
    {h : i2c_ssd1306_handle_t} (hok : handle_ok h) {p : Nat} (hp : p < h.total_pages)
    {s : bus_state} (hs : s.aborted = none) :
    i2c_ssd1306_page_to_ram cmd T h p s =
      some (transmit_all T s (page_transactions cmd h p)) := by
  have hg : ¬ (p ≥ h.total_pages) := by omega
  unfold i2c_ssd1306_page_to_ram page_transactions
  rw [if_neg hg, transmit_all_pair T hs]
  simp only [page_data_cmd_spec cmd hok hp]
  by_cases ha : (esp_error_check_transmit T s (set_address_cmd cmd p 0)).aborted.isSome = true
  · have ha1 := ha
    unfold set_address_cmd at ha1
    rw [if_pos ha1, if_pos ha]
    rfl
  · have ha1 := ha
    unfold set_address_cmd at ha1
    rw [if_neg ha1, if_neg ha]
    rfl

/-- For every transport, `i2c_ssd1306_segments_to_ram` of a valid range sends its two
transactions in order through `ESP_ERROR_CHECK`. -/
theorem segments_to_ram_transmits (cmd : oled_cmd_t) (T : transport_t)
    {h : i2c_ssd1306_handle_t} (hok : handle_ok h) {p first last : Nat}
    (hp : p < h.total_pages) (hfl : first ≤ last) (hl : last < h.width)
    {s : bus_state} (hs : s.aborted = none) :
    i2c_ssd1306_segments_to_ram cmd T h p first last s =
      some (transmit_all T s
        [set_address_cmd cmd p first,
         transfer_data_cmd cmd (((page_bytes h p).drop first).take (last - first + 1))]) := by
  have hg : ¬ (p ≥ h.total_pages) := by omega
  have hg2 : ¬ (first ≥ h.width ∨ last ≥ h.width ∨ first > last) := by omega
  unfold i2c_ssd1306_segments_to_ram
  rw [if_neg hg, if_neg hg2, transmit_all_pair T hs]
  simp only [segments_data_cmd_spec cmd hok hp hfl hl]
  by_cases ha : (esp_error_check_transmit T s (set_address_cmd cmd p first)).aborted.isSome = true
  · have ha1 := ha
    unfold set_address_cmd at ha1
    rw [if_pos ha1, if_pos ha]
    rfl
  · have ha1 := ha
    unfold set_address_cmd at ha1
    rw [if_neg ha1, if_neg ha]
    rfl

/-- For every transport, `i2c_ssd1306_segment_to_ram` of a valid segment sends its two
transactions in order through `ESP_ERROR_CHECK`. -/
theorem segment_to_ram_transmits (cmd : oled_cmd_t) (T : transport_t)
    {h : i2c_ssd1306_handle_t} (hok : handle_ok h) {p seg : Nat}
    (hp : p < h.total_pages) (hseg : seg < h.width)
    {s : bus_state} (hs : s.aborted = none) :
    i2c_ssd1306_segment_to_ram cmd T h p seg s =
      some (transmit_all T s
        [set_address_cmd cmd p seg,
         [to_u8 cmd.OLED_CONTROL_BYTE_DATA, (page_bytes h p).getD seg 0]]) := by
  obtain ⟨hlen, hrd⟩ := page_bytes_spec hok.2.1 hp
  have hg : ¬ (p ≥ h.total_pages) := by omega
  have hg2 : ¬ (seg ≥ h.width) := by omega
  have hlt : seg < (page_bytes h p).length := by omega
  unfold i2c_ssd1306_segment_to_ram
  rw [if_neg hg, if_neg hg2, transmit_all_pair T hs]
  simp only [hrd, List.getElem?_eq_getElem hlt, List.getD_eq_getElem?_getD, Option.getD_some]
  by_cases ha : (esp_error_check_transmit T s (set_address_cmd cmd p seg)).aborted.isSome = true
  · have ha1 := ha
    unfold set_address_cmd at ha1
    rw [if_pos ha1, if_pos ha]
    rfl
  · have ha1 := ha
    unfold set_address_cmd at ha1
    rw [if_neg ha1, if_neg ha]
    rfl

/-- For every transport, `i2c_ssd1306_pages_to_ram` sends the transactions of the pages
`0 .. total_pages - 1` in order through `ESP_ERROR_CHECK`. -/
theorem pages_to_ram_transmits (cmd : oled_cmd_t) (T : transport_t)
    {h : i2c_ssd1306_handle_t} (hok : handle_ok h) (log : List (List Nat)) :
    i2c_ssd1306_pages_to_ram cmd T h { sent := log, aborted := none } =
      some (transmit_all T { sent := log, aborted := none }
        ((List.range h.total_pages).flatMap (page_transactions cmd h))) := by
  obtain ⟨hw, h16, h64, h8, ht⟩ := hok.1
  unfold i2c_ssd1306_pages_to_ram
  obtain ⟨s, hrun, hs⟩ := for_u8_rule (a := 0) (n := h.total_pages)
    (c := fun i => decide (i < h.total_pages))
    (b := fun i si =>
      match i2c_ssd1306_page_to_ram cmd T h i si with
      | none => none
      | some sj =>
        if sj.aborted.isSome then some (loop_step.exit sj) else some (loop_step.next sj))
    (Nat.zero_le _) (by omega)
    (fun i s => s.aborted = none ∧
      s = transmit_all T { sent := log, aborted := none }
        ((List.range i).flatMap (page_transactions cmd h)))
    (fun s => s = transmit_all T { sent := log, aborted := none }
        ((List.range h.total_pages).flatMap (page_transactions cmd h)))
    (by intro i _; simp) (s := { sent := log, aborted := none })
    ⟨rfl, by simp [transmit_all]⟩
    (by
      intro i s _ hi ⟨hsa, hs⟩
      have hstep : transmit_all T s (page_transactions cmd h i) =
          transmit_all T { sent := log, aborted := none }
            ((List.range (i + 1)).flatMap (page_transactions cmd h)) := by
        rw [List.range_succ, List.flatMap_append, transmit_all_append, ← hs]
        simp
      have hpg := page_to_ram_transmits cmd T hok hi hsa
      by_cases hab : (transmit_all T s (page_transactions cmd h i)).aborted.isSome = true
      · right
        refine ⟨_, by simp only [hpg, hab]; rfl, ?_⟩
        have hsplit : List.range h.total_pages =
            List.range (i + 1) ++ (List.range h.total_pages).drop (i + 1) := by
          have := List.take_append_drop (i + 1) (List.range h.total_pages)
          rw [List.take_range, Nat.min_eq_left (by omega)] at this
          exact this.symm
        rw [hsplit, List.flatMap_append, transmit_all_append, ← hstep,
          transmit_all_of_aborted T hab]
      · left
        refine ⟨_, by simp only [hpg, hab]; rfl, ?_, hstep⟩
        simpa using hab)
    (fun s hs => hs.2)
  rw [hrun, hs]

/-- C17: with the transport a function that may fail, each of
`i2c_ssd1306_segment_to_ram`, `i2c_ssd1306_segments_to_ram`, `i2c_ssd1306_page_to_ram` and
`i2c_ssd1306_pages_to_ram` stops at the first transaction that fails: with `k` the number
of the transactions that succeeded before it, exactly these `k` transactions are in the
log, none after them, and the program is aborted with the error the transport returned
(`ESP_ERROR_CHECK`). A failed set-address command is not followed by its data command,
and `i2c_ssd1306_pages_to_ram` sends nothing for the later pages. When no transaction
fails, all are sent. -/
theorem sync_stops_at_first_failure (cmd : oled_cmd_t) (T : transport_t)
    (h : i2c_ssd1306_handle_t) (hok : handle_ok h) (page first last : Nat)
    (hp : page < h.total_pages) (hfl : first ≤ last) (hl : last < h.width)
    (log : List (List Nat)) :
    stops_at_first_failure T log
      [set_address_cmd cmd page first,
       [to_u8 cmd.OLED_CONTROL_BYTE_DATA, (page_bytes h page).getD first 0]]
      (i2c_ssd1306_segment_to_ram cmd T h page first { sent := log, aborted := none }) ∧
    stops_at_first_failure T log
      [set_address_cmd cmd page first,
       transfer_data_cmd cmd (((page_bytes h page).drop first).take (last - first + 1))]
      (i2c_ssd1306_segments_to_ram cmd T h page first last
        { sent := log, aborted := none }) ∧
    stops_at_first_failure T log (page_transactions cmd h page)
      (i2c_ssd1306_page_to_ram cmd T h page { sent := log, aborted := none }) ∧
    stops_at_first_failure T log
      ((List.range h.total_pages).flatMap (page_transactions cmd h))
      (i2c_ssd1306_pages_to_ram cmd T h { sent := log, aborted := none }) := by
  refine ⟨?_, ?_, ?_, ?_⟩
  · rw [segment_to_ram_transmits cmd T hok hp (by omega : first < h.width) rfl]
    exact transmit_all_stops T _ log
  · rw [segments_to_ram_transmits cmd T hok hp hfl hl rfl]
    exact transmit_all_stops T _ log
  · rw [page_to_ram_transmits cmd T hok hp rfl]
    exact transmit_all_stops T _ log
  · rw [pages_to_ram_transmits cmd T hok log]
    exact transmit_all_stops T _ log

theorem sync_stops_at_first_failure_witness :
    i2c_ssd1306_page_to_ram demo_cmd (transport_fails_at 0) demo_handle 1
        { sent := [], aborted := none } =
      some { sent := [], aborted := some 0xFFFFFFFF } ∧
    i2c_ssd1306_pages_to_ram demo_cmd (transport_fails_at 2) demo_handle
        { sent := [], aborted := none } =
      some { sent := [[0x00, 0xB0, 0x00, 0x10], 0x40 :: List.replicate 32 0],
             aborted := some 0xFFFFFFFF } := by
  obtain ⟨_, _, hpage, hall⟩ :=
    sync_stops_at_first_failure demo_cmd (transport_fails_at 0) demo_handle (by decide)
      1 0 0 (by decide) (by decide) (by decide) []
  obtain ⟨_, _, _, hall2⟩ :=
    sync_stops_at_first_failure demo_cmd (transport_fails_at 2) demo_handle (by decide)
      0 0 0 (by decide) (by decide) (by decide) []
  refine ⟨?_, ?_⟩
  · rw [hpage.2 0 (by decide) (by decide) (by decide)]
    decide
  · rw [hall2.2 2 (by decide) (by decide) (by decide)]
    decide

/-! ## Construction -/

/-- The allocation loop returns for every behaviour of `calloc`. -/
theorem init_alloc_segments_total (env : init_env) (width : Nat) {total_pages : Nat}
    (ht : total_pages ≤ 255) {pages : List ssd1306_page_t}
    (hlen : pages.length = total_pages) :
    ∃ r, init_alloc_segments env width total_pages pages = some r := by
  unfold init_alloc_segments
  obtain ⟨r, hrun, _⟩ := for_u8_rule (a := 0) (n := total_pages)
    (c := fun i => decide (i < total_pages))
    (b := fun i (s : List ssd1306_page_t × Bool) =>
      if env.calloc_ok (i + 1) then
        match page_set s.1 i (List.replicate width 0) with
        | none => none
        | some pages1 => some (loop_step.next (pages1, false))
      else some (loop_step.exit (s.1, true)))
    (Nat.zero_le _) ht
    (fun _ s => s.1.length = total_pages) (fun _ => True)
    (by intro i _; simp) (s := (pages, false)) hlen
    (by
      intro i s _ hi hs
      by_cases hc : env.calloc_ok (i + 1) = true
      · left
        have hi1 : i < s.1.length := by omega
        exact ⟨(s.1.set i ⟨List.replicate width 0⟩, false), by simp [hc, page_set, hi1],
          by simp [hs]⟩
      · right
        exact ⟨(s.1, true), by simp [hc], trivial⟩)
    (fun _ _ => trivial)
  exact ⟨r, hrun⟩

/-- When every `calloc` returns memory, the allocation loop gives every page `width`
zero bytes. -/
theorem init_alloc_segments_ok (env : init_env) (halloc : ∀ n, env.calloc_ok n = true)
    (width : Nat) {total_pages : Nat} (ht : total_pages ≤ 255) :
    init_alloc_segments env width total_pages
        (List.replicate total_pages { segment := [] }) =
      some (uniform_pages total_pages width 0, false) := by
  unfold init_alloc_segments
  obtain ⟨r, hrun, hr⟩ := for_u8_rule (a := 0) (n := total_pages)
    (c := fun i => decide (i < total_pages))
    (b := fun i (s : List ssd1306_page_t × Bool) =>
      if env.calloc_ok (i + 1) then
        match page_set s.1 i (List.replicate width 0) with
        | none => none
        | some pages1 => some (loop_step.next (pages1, false))
      else some (loop_step.exit (s.1, true)))
    (Nat.zero_le _) ht
    (fun i s => s.2 = false ∧ s.1.length = total_pages ∧
      ∀ q, s.1[q]? =
        if q < i then some ⟨List.replicate width 0⟩
        else if q < total_pages then some ⟨[]⟩ else none)
    (fun s => s = (uniform_pages total_pages width 0, false))
    (by intro i _; simp) (s := (List.replicate total_pages { segment := [] }, false))
    ⟨rfl, by simp, by
      intro q
      simp [List.getElem?_replicate]⟩
    (by
      intro i s _ hi ⟨hf, hl, hget⟩
      left
      have hi1 : i < s.1.length := by omega
      refine ⟨(s.1.set i ⟨List.replicate width 0⟩, false),
        by simp [halloc, page_set, hi1], rfl, by simp [hl], ?_⟩
      intro q
      simp only [List.getElem?_set]
      by_cases hq : i = q
      · subst hq
        simp [hi1]
      · rw [if_neg hq, hget q]
        by_cases hqi : q < i
        · have : q < i + 1 := by omega
          simp [hqi, this]
        · have : ¬ q < i + 1 := by omega
          simp [hqi, this])
    (by
      intro s ⟨hf, hl, hget⟩
      have hpages : s.1 = uniform_pages total_pages width 0 := by
        apply List.ext_getElem?
        intro q
        rw [hget q]
        unfold uniform_pages
        rw [List.getElem?_replicate]
        by_cases hq : q < total_pages
        · simp [hq]
        · simp [hq]
      exact Prod.ext hpages hf)
  rw [hrun, hr]

theorem byte_count_uniform {h : i2c_ssd1306_handle_t} {P W v : Nat}
    (hpg : h.page = uniform_pages P W v) : byte_count h = P * W := by
  unfold byte_count
  rw [hpg]
  simp [uniform_pages]

/-- C18: for every configuration that `i2c_ssd1306_init` accepts (`scl <= 400000`,
`width <= 128`, `16 <= height <= 64`, `height % 8 == 0`), when device registration, the
power-up transmit and every allocation succeed, the call returns `ESP_OK` and the handle
has `total_pages = height / 8` and a framebuffer of exactly `total_pages` pages of
`width` bytes each, `total_pages * width` bytes in all, every one of them zero. -/
theorem init_creates_zero_framebuffer (cmd : oled_cmd_t) (icmd : oled_init_cmd_t)
    (env : init_env) (log : List (List Nat)) (i2c_addr scl width height : Nat)
    (wise : ssd1306_wise_t) (hscl : scl ≤ 400000) (hw : width ≤ 128) (h16 : 16 ≤ height)
    (h64 : height ≤ 64) (h8 : height % 8 = 0) (hdev : env.add_device = ESP_OK)
    (hT : ∀ l b, env.T l b = ESP_OK) (halloc : ∀ n, env.calloc_ok n = true) :
    ∃ hd, i2c_ssd1306_init cmd icmd env log i2c_addr scl width height wise =
        some { ret := ESP_OK, add_device_called := true,
               sent := log ++ [ssd1306_init_cmd cmd icmd height wise], handle := some hd } ∧
      hd.i2c_addr = i2c_addr ∧ hd.scl_speed_hz = scl ∧ hd.width = width ∧
      hd.height = height ∧ hd.total_pages = height / 8 ∧
      hd.page = uniform_pages (height / 8) width 0 ∧
      hd.page.length = hd.total_pages ∧
      (∀ pg ∈ hd.page, pg.segment.length = width) ∧
      byte_count hd = hd.total_pages * width ∧
      (∀ p c, p < hd.total_pages → c < width → seg_read hd p c = some 0) ∧
      handle_ok hd := by
  have hg : ¬ (scl > 400000 ∨ width > 128 ∨ height < 16 ∨ height > 64 ∨ height % 8 ≠ 0) := by
    omega
  have htp : to_u8 (height / 8) = height / 8 := to_u8_of_lt (by omega)
  have hrun : i2c_ssd1306_init cmd icmd env log i2c_addr scl width height wise =
      some { ret := ESP_OK, add_device_called := true,
             sent := log ++ [ssd1306_init_cmd cmd icmd height wise],
             handle := some { i2c_addr := i2c_addr, scl_speed_hz := scl, width := width,
                              height := height, total_pages := height / 8,
                              page := uniform_pages (height / 8) width 0 } } := by
    unfold i2c_ssd1306_init
    rw [if_neg hg]
    simp [hdev, hT, halloc, htp, init_alloc_segments_ok env halloc width
      (by omega : height / 8 ≤ 255)]
  have hok : handle_ok
      (⟨i2c_addr, scl, width, height, height / 8, uniform_pages (height / 8) width 0⟩ :
        i2c_ssd1306_handle_t) :=
    handle_ok_of_uniform ⟨hw, h16, h64, h8, rfl⟩ rfl (by decide)
  refine ⟨_, hrun, rfl, rfl, rfl, rfl, rfl, rfl, hok.2.1.1, ?_, byte_count_uniform rfl,
    ?_, hok⟩
  · intro pg hpg
    exact hok.2.1.2 pg hpg
  · intro p c hp hc
    obtain ⟨b, hb⟩ := seg_read_some hok.2.1 hp hc
    rw [hb, seg_read_uniform rfl hb]

theorem init_creates_zero_framebuffer_witness :
    i2c_ssd1306_init demo_cmd demo_init_cmd init_env_ok [] 0x3C 400000 128 64
        ssd1306_wise_t.SSD1306_TOP_TO_BOTTOM =
      some { ret := ESP_OK, add_device_called := true,
             sent := [ssd1306_init_cmd demo_cmd demo_init_cmd 64
               ssd1306_wise_t.SSD1306_TOP_TO_BOTTOM],
             handle := some display_128x64 } := by
  obtain ⟨hd, hrun, e1, e2, e3, e4, e5, e6, _⟩ :=
    init_creates_zero_framebuffer demo_cmd demo_init_cmd init_env_ok [] 0x3C 400000 128 64
      ssd1306_wise_t.SSD1306_TOP_TO_BOTTOM (by decide) (by decide) (by decide) (by decide)
      (by decide) rfl (fun _ _ => rfl) (fun _ => rfl)
  have hhd : hd = display_128x64 := by
    cases hd
    simp only at e1 e2 e3 e4 e5 e6
    subst e1 e2 e3 e4 e5 e6
    rfl
  rw [hrun, hhd]
  rfl

/-- C19, counterexample: with `width = 0` (outside 1..128) and collaborators that succeed,
`i2c_ssd1306_init` reports no configuration error: it registers the device, sends the
power-up sequence and returns `ESP_OK` with a framebuffer of 2 pages of 0 bytes. -/
theorem init_accepts_width_zero :
    ¬ (1 ≤ 0 ∧ 0 ≤ 128) ∧
    (i2c_ssd1306_init demo_cmd demo_init_cmd init_env_ok [] 0x3C 400000 0 16
        ssd1306_wise_t.SSD1306_TOP_TO_BOTTOM).map
      (fun r => (r.ret, r.add_device_called, r.sent.length, r.handle.map byte_count)) =
      some (ESP_OK, true, 1, some 0) := by
  decide

/-- C19, amended: `i2c_ssd1306_init` returns `ESP_ERR_INVALID_ARG`, without calling the
device registration, sending anything on the transport or writing the handle, for every
parameter set with `scl > 400000`, `width > 128`, `height < 16`, `height > 64` or
`height % 8 != 0`. For every other parameter set (`width = 0` included) it passes the
configuration check: the device registration is called, the value returned is the error
of the registration, the error of the power-up transmit, `ESP_ERR_NO_MEM` or `ESP_OK`,
and it is `ESP_OK` when registration, transmit and allocation succeed. -/
theorem init_configuration_check (cmd : oled_cmd_t) (icmd : oled_init_cmd_t)
    (env : init_env) (log : List (List Nat)) (i2c_addr scl width height : Nat)
    (wise : ssd1306_wise_t) :
    ((scl > 400000 ∨ width > 128 ∨ height < 16 ∨ height > 64 ∨ height % 8 ≠ 0) →
      i2c_ssd1306_init cmd icmd env log i2c_addr scl width height wise =
        some { ret := ESP_ERR_INVALID_ARG, add_device_called := false, sent := log,
               handle := none }) ∧
    ((scl ≤ 400000 ∧ width ≤ 128 ∧ 16 ≤ height ∧ height ≤ 64 ∧ height % 8 = 0) →
      ∃ r, i2c_ssd1306_init cmd icmd env log i2c_addr scl width height wise = some r ∧
        r.add_device_called = true ∧
        (r.ret = env.add_device ∨
          r.ret = env.T log (ssd1306_init_cmd cmd icmd height wise) ∨
          r.ret = ESP_ERR_NO_MEM ∨ r.ret = ESP_OK) ∧
        (env.add_device = ESP_OK → (∀ l b, env.T l b = ESP_OK) →
          (∀ n, env.calloc_ok n = true) → r.ret = ESP_OK)) := by
  constructor
  · intro hbad
    unfold i2c_ssd1306_init
    rw [if_pos hbad]
  · intro ⟨hscl, hw, h16, h64, h8⟩
    have hg : ¬ (scl > 400000 ∨ width > 128 ∨ height < 16 ∨ height > 64 ∨ height % 8 ≠ 0) := by
      omega
    have htp : to_u8 (height / 8) = height / 8 := to_u8_of_lt (by omega)
    unfold i2c_ssd1306_init
    rw [if_neg hg]
    by_cases hdev : env.add_device = ESP_OK
    · by_cases hT : env.T log (ssd1306_init_cmd cmd icmd height wise) = ESP_OK
      · by_cases hc0 : env.calloc_ok 0 = true
        · obtain ⟨⟨pages, failed⟩, hr⟩ := init_alloc_segments_total env width
            (by omega : height / 8 ≤ 255)
            (by simp : (List.replicate (height / 8) ({ segment := [] } : ssd1306_page_t)).length
              = height / 8)
          cases failed
          · refine ⟨_, by simp [hdev, hT, hc0, htp, hr]; rfl, rfl, Or.inr (Or.inr (Or.inr rfl)),
              fun _ _ _ => rfl⟩
          · refine ⟨_, by simp [hdev, hT, hc0, htp, hr]; rfl, rfl, Or.inr (Or.inr (Or.inl rfl)),
              ?_⟩
            intro _ _ halloc
            rw [init_alloc_segments_ok env halloc width (by omega : height / 8 ≤ 255)] at hr
            exact absurd (congrArg Prod.snd (Option.some.inj hr)) (by simp)
        · refine ⟨_, by simp [hdev, hT, hc0]; rfl, rfl, Or.inr (Or.inr (Or.inl rfl)), ?_⟩
          intro _ _ halloc
          exact absurd (halloc 0) hc0
      · refine ⟨_, by simp [hdev, hT]; rfl, rfl, Or.inr (Or.inl rfl), ?_⟩
        intro _ hTok _
        exact absurd (hTok _ _) hT
    · refine ⟨_, by simp [hdev]; rfl, rfl, Or.inl rfl, ?_⟩
      intro hd _ _
      exact absurd hd hdev

theorem init_configuration_check_witness :
    i2c_ssd1306_init demo_cmd demo_init_cmd init_env_ok [] 0x3C 400000 128 17
        ssd1306_wise_t.SSD1306_TOP_TO_BOTTOM =
      some { ret := ESP_ERR_INVALID_ARG, add_device_called := false, sent := [],
             handle := none } ∧
    ∃ r, i2c_ssd1306_init demo_cmd demo_init_cmd init_env_ok [] 0x3C 400000 32 16
        ssd1306_wise_t.SSD1306_TOP_TO_BOTTOM = some r ∧
      r.add_device_called = true ∧ r.ret = ESP_OK := by
  refine ⟨(init_configuration_check demo_cmd demo_init_cmd init_env_ok [] 0x3C 400000 128 17
      ssd1306_wise_t.SSD1306_TOP_TO_BOTTOM).1 (by decide), ?_⟩
  obtain ⟨r, hrun, hcalled, _, hret⟩ :=
    (init_configuration_check demo_cmd demo_init_cmd init_env_ok [] 0x3C 400000 32 16
      ssd1306_wise_t.SSD1306_TOP_TO_BOTTOM).2 (by decide)
  exact ⟨r, hrun, hcalled, hret rfl (fun _ _ => rfl) (fun _ => rfl)⟩

/-! ## Bounds that are documented and not checked -/

/-- A call of `i2c_ssd1306_buffer_image` that fails the bounds check returns with the
handle, and so every byte of the framebuffer, unchanged. -/
theorem image_rejected_unchanged (h : i2c_ssd1306_handle_t) (x y : Nat) (image : List Nat)
    (bw bh : Nat) (invert : Bool) (hrej : ¬ image_call_valid h x y bw bh) :
    i2c_ssd1306_buffer_image h x y image bw bh invert = some h := by
  rw [buffer_image_eq, if_pos hrej]

theorem image_rejected_unchanged_witness :
    i2c_ssd1306_buffer_image demo_handle 30 0 [1, 2, 3, 4] 4 8 false = some demo_handle :=
  image_rejected_unchanged demo_handle 30 0 [1, 2, 3, 4] 4 8 false (by decide)

/-- C15, the code at a failing input: a bitmap height of 0 is outside the documented
`1 .. display height`, yet the call `i2c_ssd1306_buffer_image(0, 0, {0xFF}, 1, 0, false)`
on the all-zero 32x16 framebuffer passes the bounds check and stores `0xFF` to
`page[0].segment[0]`; at `y = 8` the same bitmap makes `page_range` wrap to 255 and the
call runs out of the arrays. -/
theorem image_height_zero_not_rejected :
    ¬ (1 ≤ 0 ∧ 0 ≤ demo_handle.height) ∧
    image_call_valid demo_handle 0 0 1 0 ∧
    (i2c_ssd1306_buffer_image demo_handle 0 0 [0xFF] 1 0 false).map
      (fun k => seg_read k 0 0) = some (some 0xFF) ∧
    seg_read demo_handle 0 0 = some 0 ∧
    image_page_range 8 0 = 255 ∧
    i2c_ssd1306_buffer_image demo_handle 0 8 [0xFF] 1 0 false = none := by
  decide

set_option maxRecDepth 20000 in
/-- C13, the code at a failing input: on the 32-column display, a text of 256 characters
drawn at `(0, 0)` leaves the framebuffer unchanged, because `uint8_t len = strlen(text)`
is 0; drawing the first `min(256, (32 - 0) / 8) = 4` characters changes it. -/
theorem text_of_256_chars_draws_nothing :
    handle_ok demo_handle ∧
    i2c_ssd1306_buffer_text demo_font8x8 demo_handle 0 0 (List.replicate 256 72) false =
      some demo_handle ∧
    i2c_ssd1306_buffer_text demo_font8x8 demo_handle 0 0
        ((List.replicate 256 72).take (min 256 ((32 - 0) / 8))) false ≠ some demo_handle := by
  decide

/-! ## Text that does not fit -/

/-- The loop over the characters run on a text and on its first `m` characters, `m` the
number of characters that fit: the two runs agree. -/
theorem text_loop_take (width : Nat) (hw : width < 256) (text : List Nat)
    (hlen : text.length < 256)
    (draw : i2c_ssd1306_handle_t → Nat → Nat → Option i2c_ssd1306_handle_t) (x m : Nat)
    (hm : m = min text.length ((width - x) / 8)) :
    ∀ (d i fuel : Nat) (s : Nat × i2c_ssd1306_handle_t), i + d = m → d + 1 ≤ fuel →
      s.1 = x + 8 * i →
      loop_u8 (fun i => decide (i < text.length))
          (fun i (s : Nat × i2c_ssd1306_handle_t) =>
            if s.1 + 8 > width then some (loop_step.exit s)
            else
              match text[i]? with
              | none => none
              | some ch =>
                (draw s.2 s.1 ch).map (fun hh => loop_step.next (to_u8 (s.1 + 8), hh)))
          fuel i s =
        loop_u8 (fun i => decide (i < m))
          (fun i (s : Nat × i2c_ssd1306_handle_t) =>
            if s.1 + 8 > width then some (loop_step.exit s)
            else
              match (text.take m)[i]? with
              | none => none
              | some ch =>
                (draw s.2 s.1 ch).map (fun hh => loop_step.next (to_u8 (s.1 + 8), hh)))
          fuel i s := by
  have hml : m ≤ text.length := by omega
  intro d
  induction d with
  | zero =>
    intro i fuel s hi hf hs
    obtain ⟨f, rfl⟩ : ∃ f, fuel = f + 1 := ⟨fuel - 1, by omega⟩
    have him : i = m := by omega
    subst him
    by_cases hlt : i < text.length
    · have hex : s.1 + 8 > width := by omega
      simp [loop_u8, hlt, hex]
    · simp [loop_u8, hlt]
  | succ d ih =>
    intro i fuel s hi hf hs
    obtain ⟨f, rfl⟩ : ∃ f, fuel = f + 1 := ⟨fuel - 1, by omega⟩
    have him : i < m := by omega
    have hil : i < text.length := by omega
    have hget : text[i]? = some text[i] := List.getElem?_eq_getElem hil
    have htake : (text.take m)[i]? = some text[i] := by
      rw [List.getElem?_take, if_pos him, hget]
    by_cases hex : s.1 + 8 > width
    · simp [loop_u8, him, hil, hex]
    · cases hdraw : draw s.2 s.1 text[i] with
      | none => simp [loop_u8, him, hil, hex, hget, htake, hdraw]
      | some hh =>
        have hnext := ih (i + 1) f (to_u8 (s.1 + 8), hh) (by omega) (by omega)
          (by
            show to_u8 (s.1 + 8) = x + 8 * (i + 1)
            rw [to_u8_of_lt (by omega)]; omega)
        have hwrap : to_u8 (i + 1) = i + 1 := to_u8_of_lt (by omega)
        simp only [loop_u8, him, hil, hex, hget, htake, hdraw, decide_True, if_true, if_false,
          Option.map_some', hwrap]
        exact hnext

/-- The loop over the characters draws the characters that fit and no more. -/
theorem text_chars_take (width : Nat) (hw : width < 256) (text : List Nat)
    (hlen : text.length < 256)
    (draw : i2c_ssd1306_handle_t → Nat → Nat → Option i2c_ssd1306_handle_t) (x : Nat)
    (h : i2c_ssd1306_handle_t) :
    text_chars width text draw x h =
      text_chars width (text.take (min text.length ((width - x) / 8))) draw x h := by
  have hml : min text.length ((width - x) / 8) ≤ text.length := Nat.min_le_left _ _
  have hl1 : to_u8 text.length = text.length := to_u8_of_lt hlen
  have hl2 : to_u8 (text.take (min text.length ((width - x) / 8))).length =
      min text.length ((width - x) / 8) := by
    rw [List.length_take, Nat.min_eq_left hml]
    exact to_u8_of_lt (by omega)
  unfold text_chars for_u8
  rw [hl1, hl2]
  rw [text_loop_take width hw text hlen draw x _ rfl
    (min text.length ((width - x) / 8)) 0 257 (x, h) (by omega) (by omega) (by simp)]

/-- The nearby statement of C13 that the code satisfies: for a text of fewer than 256
characters, `i2c_ssd1306_buffer_text` leaves the framebuffer that drawing only the first
`min(|text|, (width - x) / 8)` characters leaves. -/
theorem text_short_truncated_to_fit (font8x8 : Nat → Nat → Nat) (h : i2c_ssd1306_handle_t)
    (hw : h.width < 256) (x y : Nat) (text : List Nat) (invert : Bool)
    (hlen : text.length < 256) :
    i2c_ssd1306_buffer_text font8x8 h x y text invert =
      i2c_ssd1306_buffer_text font8x8 h x y
        (text.take (min text.length ((h.width - x) / 8))) invert := by
  rw [buffer_text_eq, buffer_text_eq,
    text_chars_take h.width hw text hlen
      (text_glyph_aligned font8x8 invert (to_u8 (y / 8))) x h,
    text_chars_take h.width hw text hlen
      (text_glyph_offset font8x8 invert (to_u8 (y / 8)) (to_u8 (y % 8))) x h]

theorem text_short_truncated_to_fit_witness :
    i2c_ssd1306_buffer_text demo_font8x8 demo_handle 12 3 [72, 105, 33, 33] true =
      i2c_ssd1306_buffer_text demo_font8x8 demo_handle 12 3
        ([72, 105, 33, 33].take (min [72, 105, 33, 33].length ((demo_handle.width - 12) / 8)))
        true :=
  text_short_truncated_to_fit demo_font8x8 demo_handle (by decide) 12 3 [72, 105, 33, 33]
    true (by decide)

/-! ## A single character drawn at a non-aligned row -/

/-- The framebuffer after `i2c_ssd1306_buffer_text` drew one character at a non-aligned
row. -/
theorem buffer_text_single_offset (font8x8 : Nat → Nat → Nat) {h : i2c_ssd1306_handle_t}
    (hok : handle_ok h) {x y : Nat} (ch : Nat) (invert : Bool) (hoff : y % 8 ≠ 0)
    (hpages : y / 8 + 1 < h.total_pages) (hfit : x + 8 ≤ h.width) :
    ∃ k, i2c_ssd1306_buffer_text font8x8 h x y [ch] invert = some k ∧ same_config h k ∧
      handle_ok k ∧
      ∀ q d, seg_read k q d =
        if x ≤ d ∧ d < x + 8 then
          (seg_read h q d).map (fun b =>
            if q = y / 8 then
              to_u8 (b ||| int_shl (if invert then int_not (font8x8 (to_u8 ch) (d - x))
                else font8x8 (to_u8 ch) (d - x)) (y % 8))
            else if q = y / 8 + 1 then
              to_u8 (b ||| int_sar (if invert then int_not (font8x8 (to_u8 ch) (d - x))
                else font8x8 (to_u8 ch) (d - x)) (8 - y % 8))
            else b)
        else seg_read h q d := by
  obtain ⟨_, _, hh64, h8, ht⟩ := hok.1
  have hy : y < h.height := by omega
  have hg : ¬ (x ≥ h.width ∨ y ≥ h.height) := by omega
  have hpage : to_u8 (y / 8) = y / 8 := to_u8_of_lt (by omega)
  have ho8 : y % 8 < 8 := Nat.mod_lt _ (by decide)
  have hoffu : to_u8 (y % 8) = y % 8 := to_u8_of_lt (by omega)
  have hoff0 : ¬ to_u8 (y % 8) = 0 := by rw [hoffu]; exact hoff
  have hpg : ¬ (y / 8 + 1 ≥ h.total_pages) := by omega
  rw [buffer_text_eq, if_neg hg, if_neg hoff0, hpage, if_neg hpg, hoffu]
  have hfit1 : x + 8 * [ch].length ≤ h.width := by simpa using hfit
  obtain ⟨k, hrun, hsame, hokk, hrd⟩ := text_chars_fits hok hfit1
    (text_glyph_offset font8x8 invert (y / 8) (y % 8))
    (fun ch q j b =>
      if q = y / 8 then
        to_u8 (b ||| int_shl (if invert then int_not (font8x8 (to_u8 ch) j)
          else font8x8 (to_u8 ch) j) (y % 8))
      else if q = y / 8 + 1 then
        to_u8 (b ||| int_sar (if invert then int_not (font8x8 (to_u8 ch) j)
          else font8x8 (to_u8 ch) j) (8 - y % 8))
      else b)
    (by
      intro t xc c hsame hokt hroom
      exact text_glyph_offset_spec font8x8 invert c hokt
        (by rw [hsame.2.2.2.2]; exact hpages) (by rw [hsame.2.2.1]; exact hroom))
  refine ⟨k, hrun, hsame, hokk, ?_⟩
  intro q d
  rw [hrd]
  by_cases hin : x ≤ d ∧ d < x + 8
  · have hin1 : x ≤ d ∧ d < x + 8 * [ch].length := by simpa using hin
    have e1 : (d - x) / 8 = 0 := by omega
    have e2 : (d - x) % 8 = d - x := by omega
    rw [if_pos hin, if_pos hin1, e1, e2]
    rfl
  · have hin1 : ¬ (x ≤ d ∧ d < x + 8 * [ch].length) := by simpa using hin
    rw [if_neg hin, if_neg hin1]

/-- The low bits of `v >> k` on an `int`, whatever the sign of `v`. -/
theorem testBit_int_sar_low (v : Nat) {k j : Nat} (hk : k ≤ 24) (hj : j < 8) :
    (int_sar v k).testBit j = v.testBit (k + j) := by
  unfold int_sar
  by_cases hv : v < 2 ^ 31
  · rw [if_pos hv, Nat.testBit_shiftRight]
  · rw [if_neg hv, Nat.testBit_or, Nat.testBit_shiftRight, testBit_int_shl]
    have : ¬ 32 - k ≤ j := by omega
    simp [this]

/-- The byte after `|= ~g << o` for a byte `g`: the complement is taken on 8 bits. -/
theorem or_shl_not_byte {old g : Nat} (hold : old < 256) (hg : g < 256) (o : Nat) :
    to_u8 (old ||| int_shl (int_not g) o) = old ||| to_u8 ((255 - g) <<< o) := by
  apply Nat.eq_of_testBit_eq
  intro j
  have e : 255 - g = 2 ^ 8 - (g + 1) := by norm_num; omega
  rw [testBit_to_u8, Nat.testBit_or, Nat.testBit_or, testBit_to_u8, testBit_int_shl,
    Nat.testBit_shiftLeft, testBit_int_not, e,
    Nat.testBit_two_pow_sub_succ (by simpa using hg)]
  by_cases hj : j < 8
  · have h32 : j < 32 := by omega
    have h32b : j - o < 32 := by omega
    have h8b : j - o < 8 := by omega
    simp [hj, h32, h32b, h8b]
  · simp [hj, testBit_of_byte hold (by omega : 8 ≤ j)]

/-- The byte after `|= ~g >> (8 - o)` for a byte `g`: the `int` value `~g` is negative, the
shift keeps its sign, and the bits `o..7` of the byte are set as well. -/
theorem or_sar_not_byte {old g o : Nat} (hold : old < 256) (hg : g < 256) (ho : 0 < o)
    (ho8 : o < 8) :
    to_u8 (old ||| int_sar (int_not g) (8 - o)) =
      old ||| ((255 - g) >>> (8 - o)) ||| to_u8 (0xFF <<< o) := by
  apply Nat.eq_of_testBit_eq
  intro j
  have e : 255 - g = 2 ^ 8 - (g + 1) := by norm_num; omega
  have eff : (0xFF : Nat) = 2 ^ 8 - 1 := by norm_num
  rw [testBit_to_u8, Nat.testBit_or, Nat.testBit_or, Nat.testBit_or, testBit_to_u8,
    Nat.testBit_shiftLeft, Nat.testBit_shiftRight, e,
    Nat.testBit_two_pow_sub_succ (by simpa using hg), eff, Nat.testBit_two_pow_sub_one]
  by_cases hj : j < 8
  · rw [testBit_int_sar_low _ (by omega : 8 - o ≤ 24) hj, testBit_int_not]
    have h32 : 8 - o + j < 32 := by omega
    have h8b : j - o < 8 := by omega
    by_cases hlo : j < o
    · have h1 : 8 - o + j < 8 := by omega
      have h2 : ¬ o ≤ j := by omega
      simp [hj, h32, h1, h2]
    · have h1 : ¬ 8 - o + j < 8 := by omega
      have h2 : o ≤ j := by omega
      have h3 : g.testBit (8 - o + j) = false := testBit_of_byte hg (by omega)
      simp [hj, h32, h1, h2, h8b, h3]
  · have h1 : ¬ 8 - o + j < 8 := by omega
    simp [hj, h1, testBit_of_byte hold (by omega : 8 ≤ j)]

/-- The bytes left by one character drawn at a non-aligned row, for both values of `invert`,
with `b` the glyph byte or its 8-bit complement: page `y / 8` gets
`old | ((b << offset) mod 256)`; page `y / 8 + 1` gets `old | (b >> (8 - offset))` when
`invert` is false, and that value with the bits `offset..7` set in addition when `invert` is
true. Without `invert` no pixel row outside `[y, y + 8)` changes; with `invert` the last row
of page `y / 8 + 1`, which lies below `y + 8`, is lit in the 8 columns of the character. -/
theorem text_offset_bytes (font8x8 : Nat → Nat → Nat)
    (hfont : ∀ c j, font8x8 c j < 256) (h : i2c_ssd1306_handle_t) (hok : handle_ok h)
    (x y ch : Nat) (invert : Bool) (hoff : y % 8 ≠ 0) (hpages : y / 8 + 1 < h.total_pages)
    (hfit : x + 8 ≤ h.width) :
    ∃ k, i2c_ssd1306_buffer_text font8x8 h x y [ch] invert = some k ∧
      (∀ j, j < 8 → ∃ hi lo,
        seg_read h (y / 8) (x + j) = some hi ∧ seg_read h (y / 8 + 1) (x + j) = some lo ∧
        seg_read k (y / 8) (x + j) =
          some (hi ||| to_u8 ((if invert then 255 - font8x8 (to_u8 ch) j
            else font8x8 (to_u8 ch) j) <<< (y % 8))) ∧
        seg_read k (y / 8 + 1) (x + j) =
          some (lo ||| ((if invert then 255 - font8x8 (to_u8 ch) j
              else font8x8 (to_u8 ch) j) >>> (8 - y % 8)) |||
            (if invert then to_u8 (0xFF <<< (y % 8)) else 0))) ∧
      (∀ q d, ¬ (x ≤ d ∧ d < x + 8 ∧ (q = y / 8 ∨ q = y / 8 + 1)) →
        seg_read k q d = seg_read h q d) ∧
      (invert = false → ∀ u v, v < y ∨ y + 8 ≤ v → pixel k u v = pixel h u v) ∧
      (invert = true → ∀ j, j < 8 →
        y + 8 ≤ 8 * (y / 8) + 15 ∧ pixel k (x + j) (8 * (y / 8) + 15) = true) := by
  obtain ⟨k, hrun, _, _, hrd⟩ :=
    buffer_text_single_offset font8x8 hok ch invert hoff hpages hfit
  have ho8 : y % 8 < 8 := Nat.mod_lt _ (by decide)
  have hbytes : ∀ j, j < 8 → ∃ hi lo,
      seg_read h (y / 8) (x + j) = some hi ∧ seg_read h (y / 8 + 1) (x + j) = some lo ∧
      seg_read k (y / 8) (x + j) =
        some (hi ||| to_u8 ((if invert then 255 - font8x8 (to_u8 ch) j
          else font8x8 (to_u8 ch) j) <<< (y % 8))) ∧
      seg_read k (y / 8 + 1) (x + j) =
        some (lo ||| ((if invert then 255 - font8x8 (to_u8 ch) j
            else font8x8 (to_u8 ch) j) >>> (8 - y % 8)) |||
          (if invert then to_u8 (0xFF <<< (y % 8)) else 0)) := by
    intro j hj
    obtain ⟨hi, hhi⟩ := seg_read_some hok.2.1 (by omega : y / 8 < h.total_pages)
      (by omega : x + j < h.width)
    obtain ⟨lo, hlo⟩ := seg_read_some hok.2.1 hpages (by omega : x + j < h.width)
    have hhi8 := seg_read_lt hok.2.2 hhi
    have hlo8 := seg_read_lt hok.2.2 hlo
    have hin : x ≤ x + j ∧ x + j < x + 8 := by omega
    have e : x + j - x = j := by omega
    have hne : ¬ (y / 8 + 1 = y / 8) := by omega
    have hg256 := hfont (to_u8 ch) j
    refine ⟨hi, lo, hhi, hlo, ?_, ?_⟩
    · rw [hrd, if_pos hin, hhi, e]
      cases invert
      · simp [or_shl_byte hhi8]
      · simp [or_shl_not_byte hhi8 hg256]
    · rw [hrd, if_pos hin, hlo, e]
      cases invert
      · simp [hne, or_sar_byte hlo8 hg256]
      · simp [hne, or_sar_not_byte hlo8 hg256 (by omega : 0 < y % 8) ho8]
  refine ⟨k, hrun, hbytes, ?_, ?_, ?_⟩
  · intro q d hout
    rw [hrd]
    by_cases hin : x ≤ d ∧ d < x + 8
    · have h1 : ¬ q = y / 8 := fun e => hout ⟨hin.1, hin.2, Or.inl e⟩
      have h2 : ¬ q = y / 8 + 1 := fun e => hout ⟨hin.1, hin.2, Or.inr e⟩
      rw [if_pos hin]
      simp [h1, h2]
    · rw [if_neg hin]
  · intro hinv u v hv
    subst hinv
    unfold pixel
    by_cases hin : x ≤ u ∧ u < x + 8
    · obtain ⟨hi, lo, hhi, hlo, hkhi, hklo⟩ := hbytes (u - x) (by omega)
      have e : x + (u - x) = u := by omega
      rw [e] at hhi hlo hkhi hklo
      by_cases hq : v / 8 = y / 8
      · rw [hq, hkhi, hhi]
        have hlt : ¬ y % 8 ≤ v % 8 := by omega
        simp [Nat.testBit_or, testBit_to_u8, Nat.testBit_shiftLeft, hlt]
      · by_cases hq1 : v / 8 = y / 8 + 1
        · rw [hq1, hklo, hlo]
          have hge : 8 ≤ 8 - y % 8 + v % 8 := by omega
          simp [Nat.testBit_or, Nat.testBit_shiftRight,
            testBit_of_byte (hfont (to_u8 ch) (u - x)) hge]
        · rw [hrd, if_pos hin]
          simp [hq, hq1]
    · rw [hrd, if_neg hin]
  · intro hinv j hj
    subst hinv
    refine ⟨by omega, ?_⟩
    obtain ⟨hi, lo, hhi, hlo, hkhi, hklo⟩ := hbytes j hj
    have e1 : (8 * (y / 8) + 15) / 8 = y / 8 + 1 := by omega
    have e2 : (8 * (y / 8) + 15) % 8 = 7 := by omega
    have eff : (0xFF : Nat) = 2 ^ 8 - 1 := by norm_num
    unfold pixel
    rw [e1, e2, hklo]
    have h7 : 7 - y % 8 < 8 := by omega
    have hle : y % 8 ≤ 7 := by omega
    simp only [if_true, Nat.testBit_or, testBit_to_u8, Nat.testBit_shiftLeft, eff,
      Nat.testBit_two_pow_sub_one]
    simp [hle, h7]

theorem text_offset_bytes_witness :
    ∃ k, i2c_ssd1306_buffer_text demo_font8x8 demo_handle 0 3 [72] true = some k ∧
      pixel k 0 15 = true :=
  (text_offset_bytes demo_font8x8 demo_font8x8_lt demo_handle (by decide) 0 3 72 true
      (by decide) (by decide) (by decide)).imp
    (fun _ hk => ⟨hk.1, (hk.2.2.2.2 rfl 0 (by decide)).2⟩)

/-- C21: evaluation of `i2c_ssd1306_buffer_text` on the blank 32x16 display, one character
drawn inverted at `(0, 3)`: the glyph byte of column 0 is 65, its 8-bit complement is 190; page
0 gets `(190 << 3) mod 256 = 240`, but page 1 gets 253 where `190 >> 5` is 5, and the pixel
rows 11 and 15, outside `[3, 11)`, are lit although they were unlit before the call. -/
theorem text_offset_inverted_lights_rows_below :
    demo_font8x8 (to_u8 72) 0 = 65 ∧
    (i2c_ssd1306_buffer_text demo_font8x8 demo_handle 0 3 [72] true).map
        (fun k => (seg_read k 0 0, seg_read k 1 0, pixel k 0 11, pixel k 0 15)) =
      some (some 240, some 253, true, true) ∧
    to_u8 ((255 - 65) <<< 3) = 240 ∧ (255 - 65) >>> (8 - 3) = 5 ∧
    pixel demo_handle 0 11 = false ∧ pixel demo_handle 0 15 = false := by
  decide

/-! ## Which source pixels the bitmap blitter lights -/

/-- One row of the offset case without `invert`: lit pixels stay lit, and the set bits of
source page `i` are lit at the pixel rows `8 * (p0 + i) + o ..`. -/
theorem image_row_offset_lights (image : List Nat) (bw : Nat)
    {p0 o x i : Nat} {t : i2c_ssd1306_handle_t} (hok : handle_ok t) (ho : 0 < o) (ho8 : o < 8)
    (hp : p0 + i + 1 < t.total_pages) (hroom : x + bw ≤ t.width)
    (himg : (i + 1) * bw ≤ image.length) :
    ∃ k, image_row_offset image bw false p0 o x i t = some k ∧ same_config t k ∧
      handle_ok k ∧
      (∀ u v, pixel t u v = true → pixel k u v = true) ∧
      ∀ c j, c < bw → j < 8 → (image.getD (i * bw + c) 0).testBit j = true →
        pixel k (x + c) (8 * (p0 + i) + o + j) = true := by
  obtain ⟨k, hrun, hsame, hokk, hrd⟩ :=
    image_row_offset_spec image bw false (o := o) hok hp hroom himg
  refine ⟨k, hrun, hsame, hokk, ?_, ?_⟩
  · intro u v hlit
    unfold pixel at hlit ⊢
    rw [hrd]
    have h8 : v % 8 < 8 := Nat.mod_lt _ (by decide)
    cases hr : seg_read t (v / 8) u with
    | none => rw [hr] at hlit; exact absurd hlit (by simp)
    | some b =>
      rw [hr] at hlit
      have hb : b.testBit (v % 8) = true := hlit
      by_cases hu : x ≤ u ∧ u < x + bw
      · rw [if_pos hu]
        simp only [Option.map_some']
        by_cases hq : v / 8 = p0 + i
        · rw [if_pos hq]
          show (to_u8 _).testBit (v % 8) = true
          rw [testBit_to_u8, Nat.testBit_or, hb]
          simp [h8]
        · rw [if_neg hq]
          by_cases hq1 : v / 8 = p0 + i + 1
          · rw [if_pos hq1]
            show (to_u8 _).testBit (v % 8) = true
            rw [testBit_to_u8, Nat.testBit_or, hb]
            simp [h8]
          · rw [if_neg hq1]
            exact hb
      · rw [if_neg hu]
        exact hb
  · intro c j hc hj hbit
    have hu : x ≤ x + c ∧ x + c < x + bw := by omega
    have e : x + c - x = c := by omega
    unfold pixel
    rw [hrd, if_pos hu, e]
    by_cases hlo : o + j < 8
    · have e1 : (8 * (p0 + i) + o + j) / 8 = p0 + i := by omega
      have e2 : (8 * (p0 + i) + o + j) % 8 = o + j := by omega
      obtain ⟨b, hb⟩ := seg_read_some hok.2.1 (by omega : p0 + i < t.total_pages)
        (by omega : x + c < t.width)
      rw [e1, e2, hb]
      simp only [Option.map_some', if_true]
      show (to_u8 _).testBit (o + j) = true
      have e3 : o + j - o = j := by omega
      have h32 : o + j < 32 := by omega
      rw [testBit_to_u8, Nat.testBit_or, Nat.testBit_and, testBit_int_shl,
        testBit_int_shl_ff, e3]
      simp only [Bool.false_eq_true, if_false, hbit]
      simp [hlo, h32, hj]
    · have e1 : (8 * (p0 + i) + o + j) / 8 = p0 + i + 1 := by omega
      have e2 : (8 * (p0 + i) + o + j) % 8 = o + j - 8 := by omega
      obtain ⟨b, hb⟩ := seg_read_some hok.2.1 hp (by omega : x + c < t.width)
      have hne : ¬ (p0 + i + 1 = p0 + i) := by omega
      rw [e1, e2, hb]
      simp only [Option.map_some', if_neg hne, if_true]
      show (to_u8 _).testBit (o + j - 8) = true
      have e3 : 8 - o + (o + j - 8) = j := by omega
      have h8 : o + j - 8 < 8 := by omega
      rw [testBit_to_u8, Nat.testBit_or, Nat.testBit_and,
        testBit_int_sar_low _ (by omega : 8 - o ≤ 24) h8, testBit_int_sar_ff, e3]
      simp only [Bool.false_eq_true, if_false, hbit]
      simp [h8, hj]

/-- The source pixels the bitmap blitter lights (without `invert`): when `y` is a multiple of
8, every set source pixel; otherwise every set source pixel of a row `r` whose source page ends
before the last pixel row spanned, `8 * (r / 8) + 8 < y % 8 + height` (true of every row when
`height` is a multiple of 8). -/
theorem image_lights_covered_rows (h : i2c_ssd1306_handle_t) (hok : handle_ok h)
    (x y bw bh : Nat) (image : List Nat) (hvalid : image_call_valid h x y bw bh)
    (hbh : 1 ≤ bh) (himg : (bh + 7) / 8 * bw ≤ image.length) :
    ∃ k, i2c_ssd1306_buffer_image h x y image bw bh false = some k ∧
      ∀ c r, c < bw → r < bh → (y % 8 = 0 ∨ 8 * (r / 8) + 8 < y % 8 + bh) →
        (image.getD (r / 8 * bw + c) 0).testBit (r % 8) = true →
        pixel k (x + c) (y + r) = true := by
  have hv := hvalid
  unfold image_call_valid at hv
  obtain ⟨hw, h16, h64, h8, ht⟩ := hok.1
  by_cases hy0 : y % 8 = 0
  · obtain ⟨k, hrun, _, _, hrd⟩ := image_aligned_spec hok image false hvalid hy0 hbh himg
    refine ⟨k, hrun, ?_⟩
    intro c r hc hr _ hbit
    have e1 : (y + r) / 8 = y / 8 + r / 8 := by omega
    have e2 : (y + r) % 8 = r % 8 := by omega
    have hin : y / 8 ≤ y / 8 + r / 8 ∧ y / 8 + r / 8 < y / 8 + (bh + 7) / 8 ∧
        x ≤ x + c ∧ x + c < x + bw := by omega
    have e3 : y / 8 + r / 8 - y / 8 = r / 8 := by omega
    have e4 : x + c - x = c := by omega
    have hr8 : r % 8 < 8 := Nat.mod_lt _ (by decide)
    unfold pixel
    rw [e1, e2, hrd, if_pos hin, e3, e4]
    show (to_u8 _).testBit (r % 8) = true
    rw [testBit_to_u8]
    simp only [Bool.false_eq_true, if_false, hbit]
    simp [hr8]
  · obtain ⟨_, hrange⟩ := image_page_range_eq hok.1 (by omega : y + bh ≤ h.height) hbh
    have hpage : to_u8 (y / 8) = y / 8 := to_u8_of_lt (by omega)
    have ho8 : y % 8 < 8 := Nat.mod_lt _ (by decide)
    have hoffu : to_u8 (y % 8) = y % 8 := to_u8_of_lt (by omega)
    have hoff0 : ¬ to_u8 (y % 8) = 0 := by rw [hoffu]; exact hy0
    rw [buffer_image_eq, if_neg (not_not.2 hvalid), if_neg hoff0, hpage, hoffu]
    obtain ⟨k, hrun, _, _, hlit⟩ := for_u8_plain_rule (a := 0) (n := image_page_range y bh)
      (c := fun i => decide (i < image_page_range y bh))
      (f := fun i hi => image_row_offset image bw false (y / 8) (y % 8) x i hi)
      (Nat.zero_le _) (by omega)
      (fun i k => same_config h k ∧ handle_ok k ∧
        ∀ c r, c < bw → r / 8 < i →
          (image.getD (r / 8 * bw + c) 0).testBit (r % 8) = true →
          pixel k (x + c) (y + r) = true)
      (by intro i _; simp) (s := h)
      ⟨same_config_refl h, hok, fun _ _ _ hr => absurd hr (by omega)⟩
      (by
        intro i t _ hi ⟨hsame, hokt, hpix⟩
        have hpt : y / 8 + i + 1 < t.total_pages := by rw [hsame.2.2.2.2]; omega
        have hroom : x + bw ≤ t.width := by rw [hsame.2.2.1]; omega
        have himg1 : (i + 1) * bw ≤ image.length :=
          le_trans (Nat.mul_le_mul_right bw (by omega : i + 1 ≤ (bh + 7) / 8)) himg
        obtain ⟨k, hrun, hs1, hokk, hmono, hnew⟩ :=
          image_row_offset_lights image bw hokt (by omega : 0 < y % 8) ho8 hpt hroom himg1
        refine ⟨k, hrun, same_config_trans hsame hs1, hokk, ?_⟩
        intro c r hc hr hbit
        by_cases hri : r / 8 < i
        · exact hmono _ _ (hpix c r hc hri hbit)
        · have ei : r / 8 = i := by omega
          have hr8 : r % 8 < 8 := Nat.mod_lt _ (by decide)
          have ev : y + r = 8 * (y / 8 + i) + y % 8 + r % 8 := by omega
          rw [ev]
          rw [ei] at hbit
          exact hnew c (r % 8) hc hr8 hbit)
    refine ⟨k, hrun, ?_⟩
    intro c r hc hr hcov hbit
    exact hlit c r hc (by omega) hbit

theorem image_lights_covered_rows_witness :
    ∃ k, i2c_ssd1306_buffer_image demo_handle 2 4 [0xFF] 1 8 false = some k ∧
      pixel k 2 11 = true :=
  (image_lights_covered_rows demo_handle (by decide) 2 4 1 8 [0xFF] (by decide) (by decide)
      (by decide)).imp
    (fun _ hk => ⟨hk.1, hk.2 0 7 (by decide) (by decide) (by decide) (by decide)⟩)

/-- C22: evaluation of `i2c_ssd1306_buffer_image` on the blank 32x16 display. The valid call
that draws the 1x4 bitmap `[0x0F]` at `(0, 4)` without `invert` runs its offset loop zero
times (`page_range = 0`) and returns the framebuffer unchanged, so the set source pixel
`(0, 0)` is not lit at `(0, 4)`. The valid call with the 1x12 bitmap `[0xFF, 0x0F]` at
`(0, 4)` draws the source page 0 only: source pixel `(0, 8)` is set and pixel `(0, 12)` stays
unlit. With `y = 0` the same bitmap is drawn in full. -/
theorem image_offset_skips_last_source_page :
    image_call_valid demo_handle 0 4 1 4 ∧ image_page_range 4 4 = 0 ∧
    ([0x0F].getD (0 / 8 * 1 + 0) 0).testBit (0 % 8) = true ∧
    i2c_ssd1306_buffer_image demo_handle 0 4 [0x0F] 1 4 false = some demo_handle ∧
    pixel demo_handle 0 4 = false ∧
    image_call_valid demo_handle 0 4 1 12 ∧
    ([0xFF, 0x0F].getD (8 / 8 * 1 + 0) 0).testBit (8 % 8) = true ∧
    (i2c_ssd1306_buffer_image demo_handle 0 4 [0xFF, 0x0F] 1 12 false).map
        (fun k => (seg_read k 0 0, seg_read k 1 0, pixel k 0 11, pixel k 0 12)) =
      some (some 240, some 15, true, false) ∧
    (i2c_ssd1306_buffer_image demo_handle 0 0 [0xFF, 0x0F] 1 12 false).map
        (fun k => (seg_read k 0 0, seg_read k 1 0, pixel k 0 8)) =
      some (some 255, some 15, true) := by
  decide

/-! ## The set-address encoding -/

theorem transmit_all_ok (T : transport_t) (hT : ∀ l b, T l b = ESP_OK)
    (log txs : List (List Nat)) :
    transmit_all T { sent := log, aborted := none } txs =
      { sent := log ++ txs, aborted := none } :=
  Option.some.inj ((transmit_all_stops T txs log).1 (fun _ _ => hT _ _))

theorem testBit_of_low_zero {op : Nat} (hop : op % 16 = 0) {j : Nat} (hj : j < 4) :
    op.testBit j = false := by
  have e : (op % 2 ^ 4).testBit j = false := by
    have : op % 2 ^ 4 = 0 := hop
    rw [this, Nat.zero_testBit]
  rw [Nat.testBit_mod_two_pow] at e
  simpa [hj] using e

/-- An opcode whose low nibble is zero leaves a nibble operand readable. -/
theorem low_nibble_of_or {op v : Nat} (hop : op % 16 = 0) (hv : v < 16) :
    to_u8 (op ||| v) &&& 0x0F = v := by
  apply Nat.eq_of_testBit_eq
  intro j
  have h15 : (0x0F : Nat) = 2 ^ 4 - 1 := by norm_num
  rw [Nat.testBit_and, testBit_to_u8, Nat.testBit_or, h15, Nat.testBit_two_pow_sub_one]
  by_cases hj : j < 4
  · have h8 : j < 8 := by omega
    simp [hj, h8, testBit_of_low_zero hop hj]
  · have : v.testBit j = false := by
      apply Nat.testBit_lt_two_pow
      calc v < 2 ^ 4 := hv
        _ ≤ 2 ^ j := Nat.pow_le_pow_right (by decide) (by omega)
    simp [hj, this]

theorem and_15_eq_mod (s : Nat) : s &&& 0x0F = s % 16 := by
  have h15 : (0x0F : Nat) = 2 ^ 4 - 1 := by norm_num
  rw [h15, Nat.and_pow_two_sub_one_eq_mod]

theorem shr_4_eq_div (s : Nat) : s >>> 4 = s / 16 := by
  rw [Nat.shiftRight_eq_div_pow]

/-- C23: the address command that both column transfers send for a valid page and starting
column is the marker, the page opcode or-ed with the page and the two column opcodes or-ed with
the low and the high nibble of the column; when the low nibbles of the three opcodes are zero
(as for 0xB0, 0x00 and 0x10) the column and the page are read back from the low nibbles of the
bytes, so distinct (page, column) pairs give distinct address commands. -/
theorem set_address_encoding_lossless (cmd : oled_cmd_t)
    (hpage : cmd.OLED_MASK_PAGE_ADDR % 16 = 0)
    (hlsb : cmd.OLED_MASK_LSB_NIBBLE_SEG_ADDR % 16 = 0)
    (hhsb : cmd.OLED_MASK_HSB_NIBBLE_SEG_ADDR % 16 = 0)
    (page s : Nat) (hp : page < 8) (hs : s < 128) :
    (∀ (T : transport_t) (h : i2c_ssd1306_handle_t) (log : List (List Nat)),
      (∀ l b, T l b = ESP_OK) → handle_ok h → page < h.total_pages → s < h.width →
      (∃ data, i2c_ssd1306_segment_to_ram cmd T h page s { sent := log, aborted := none } =
        some { sent := log ++
                 [[to_u8 cmd.OLED_CONTROL_BYTE_CMD,
                   to_u8 (cmd.OLED_MASK_PAGE_ADDR ||| page),
                   to_u8 (cmd.OLED_MASK_LSB_NIBBLE_SEG_ADDR ||| (s &&& 0x0F)),
                   to_u8 (cmd.OLED_MASK_HSB_NIBBLE_SEG_ADDR ||| ((s >>> 4) &&& 0x0F))], data],
               aborted := none }) ∧
      ∀ last, s ≤ last → last < h.width →
        ∃ data, i2c_ssd1306_segments_to_ram cmd T h page s last
            { sent := log, aborted := none } =
          some { sent := log ++
                   [[to_u8 cmd.OLED_CONTROL_BYTE_CMD,
                     to_u8 (cmd.OLED_MASK_PAGE_ADDR ||| page),
                     to_u8 (cmd.OLED_MASK_LSB_NIBBLE_SEG_ADDR ||| (s &&& 0x0F)),
                     to_u8 (cmd.OLED_MASK_HSB_NIBBLE_SEG_ADDR ||| ((s >>> 4) &&& 0x0F))], data],
                 aborted := none }) ∧
    16 * (to_u8 (cmd.OLED_MASK_HSB_NIBBLE_SEG_ADDR ||| ((s >>> 4) &&& 0x0F)) &&& 0x0F) +
      (to_u8 (cmd.OLED_MASK_LSB_NIBBLE_SEG_ADDR ||| (s &&& 0x0F)) &&& 0x0F) = s ∧
    to_u8 (cmd.OLED_MASK_PAGE_ADDR ||| page) &&& 0x0F = page ∧
    ∀ page2 s2, page2 < 8 → s2 < 128 →
      set_address_cmd cmd page s = set_address_cmd cmd page2 s2 → page = page2 ∧ s = s2 := by
  have dec : ∀ q c, q < 8 → c < 128 →
      16 * (to_u8 (cmd.OLED_MASK_HSB_NIBBLE_SEG_ADDR ||| ((c >>> 4) &&& 0x0F)) &&& 0x0F) +
        (to_u8 (cmd.OLED_MASK_LSB_NIBBLE_SEG_ADDR ||| (c &&& 0x0F)) &&& 0x0F) = c ∧
      to_u8 (cmd.OLED_MASK_PAGE_ADDR ||| q) &&& 0x0F = q := by
    intro q c hq hc
    have e1 : (c >>> 4) &&& 0x0F = c / 16 := by
      rw [and_15_eq_mod, shr_4_eq_div]; omega
    have e2 : c &&& 0x0F = c % 16 := and_15_eq_mod c
    rw [e1, e2, low_nibble_of_or hhsb (by omega), low_nibble_of_or hlsb (by omega),
      low_nibble_of_or hpage (by omega)]
    exact ⟨by omega, rfl⟩
  refine ⟨?_, (dec page s hp hs).1, (dec page s hp hs).2, ?_⟩
  · intro T h log hT hok hpt hsw
    refine ⟨⟨[to_u8 cmd.OLED_CONTROL_BYTE_DATA, (page_bytes h page).getD s 0], ?_⟩,
      fun last hle hlast =>
        ⟨transfer_data_cmd cmd (((page_bytes h page).drop s).take (last - s + 1)), ?_⟩⟩
    · rw [segment_to_ram_transmits cmd T hok hpt hsw rfl, transmit_all_ok T hT]
      rfl
    · rw [segments_to_ram_transmits cmd T hok hpt hle hlast rfl, transmit_all_ok T hT]
      rfl
  · intro page2 s2 hp2 hs2 heq
    obtain ⟨d1, d2⟩ := dec page s hp hs
    obtain ⟨d3, d4⟩ := dec page2 s2 hp2 hs2
    unfold set_address_cmd at heq
    simp only [List.cons.injEq, and_true, true_and] at heq
    obtain ⟨ha, hb, hc⟩ := heq
    rw [ha] at d2
    rw [hb, hc] at d1
    exact ⟨d2.symm.trans d4, d1.symm.trans d3⟩

theorem set_address_encoding_lossless_witness :
    16 * (to_u8 (demo_cmd.OLED_MASK_HSB_NIBBLE_SEG_ADDR ||| ((37 >>> 4) &&& 0x0F)) &&& 0x0F) +
      (to_u8 (demo_cmd.OLED_MASK_LSB_NIBBLE_SEG_ADDR ||| (37 &&& 0x0F)) &&& 0x0F) = 37 ∧
    to_u8 (demo_cmd.OLED_MASK_PAGE_ADDR ||| 5) &&& 0x0F = 5 :=
  ⟨(set_address_encoding_lossless demo_cmd (by decide) (by decide) (by decide) 5 37
      (by decide) (by decide)).2.1,
   (set_address_encoding_lossless demo_cmd (by decide) (by decide) (by decide) 5 37
      (by decide) (by decide)).2.2.1⟩

/-! ## A character drawn as text and as a bitmap -/

theorem glyph_image_length (font8x8 : Nat → Nat → Nat) (ch : Nat) :
    (glyph_image font8x8 ch).length = 8 := by
  simp [glyph_image]

theorem glyph_image_getD (font8x8 : Nat → Nat → Nat) (ch : Nat) {j : Nat} (hj : j < 8) :
    (glyph_image font8x8 ch).getD j 0 = font8x8 (to_u8 ch) j := by
  simp [glyph_image, List.getD_eq_getElem?_getD, List.getElem?_map, List.getElem?_range hj]

/-- The framebuffer after `i2c_ssd1306_buffer_text` drew one character at an aligned row. -/
theorem buffer_text_single_aligned (font8x8 : Nat → Nat → Nat) {h : i2c_ssd1306_handle_t}
    (hok : handle_ok h) {x y : Nat} (ch : Nat) (invert : Bool) (hy0 : y % 8 = 0)
    (hy : y < h.height) (hfit : x + 8 ≤ h.width) :
    ∃ k, i2c_ssd1306_buffer_text font8x8 h x y [ch] invert = some k ∧ same_config h k ∧
      handle_ok k ∧
      ∀ q d, seg_read k q d =
        if q = y / 8 ∧ x ≤ d ∧ d < x + 8 then
          some (to_u8 (if invert then int_not (font8x8 (to_u8 ch) (d - x))
            else font8x8 (to_u8 ch) (d - x)))
        else seg_read h q d := by
  obtain ⟨_, _, hh64, h8, ht⟩ := hok.1
  have hg : ¬ (x ≥ h.width ∨ y ≥ h.height) := by omega
  have hpage : to_u8 (y / 8) = y / 8 := to_u8_of_lt (by omega)
  have hoff0 : to_u8 (y % 8) = 0 := by rw [hy0]; rfl
  have hpt : y / 8 < h.total_pages := by omega
  rw [buffer_text_eq, if_neg hg, if_pos hoff0, hpage]
  have hfit1 : x + 8 * [ch].length ≤ h.width := by simpa using hfit
  obtain ⟨k, hrun, hsame, hokk, hrd⟩ := text_chars_fits hok hfit1
    (text_glyph_aligned font8x8 invert (y / 8))
    (fun ch q j b =>
      if q = y / 8 then
        to_u8 (if invert then int_not (font8x8 (to_u8 ch) j) else font8x8 (to_u8 ch) j)
      else b)
    (by
      intro t xc c hsame hokt hroom
      obtain ⟨t1, hrun, hs1, hok1, hrd1⟩ := text_glyph_aligned_spec font8x8 invert c hokt
        (by rw [hsame.2.2.2.2]; exact hpt) (by rw [hsame.2.2.1]; exact hroom)
      refine ⟨t1, hrun, hs1, hok1, ?_⟩
      intro q d
      rw [hrd1]
      by_cases hin : xc ≤ d ∧ d < xc + 8
      · rw [if_pos hin]
        by_cases hq : q = y / 8
        · have hpt1 : y / 8 < t.total_pages := by rw [hsame.2.2.2.2]; exact hpt
          have hd1 : d < t.width := by rw [hsame.2.2.1]; omega
          obtain ⟨b, hb⟩ := seg_read_some hokt.2.1 hpt1 hd1
          have hqin : q = y / 8 ∧ xc ≤ d ∧ d < xc + 8 := ⟨hq, hin⟩
          rw [if_pos hqin, hq, hb]
          simp
        · have hn : ¬ (q = y / 8 ∧ xc ≤ d ∧ d < xc + 8) := fun e => hq e.1
          rw [if_neg hn]
          cases seg_read t q d <;> simp [hq]
      · have hn : ¬ (q = y / 8 ∧ xc ≤ d ∧ d < xc + 8) := fun e => hin e.2
        rw [if_neg hn, if_neg hin])
  refine ⟨k, hrun, hsame, hokk, ?_⟩
  intro q d
  rw [hrd]
  by_cases hin : x ≤ d ∧ d < x + 8
  · have hin1 : x ≤ d ∧ d < x + 8 * [ch].length := by simpa using hin
    have e1 : (d - x) / 8 = 0 := by omega
    have e2 : (d - x) % 8 = d - x := by omega
    rw [if_pos hin1, e1, e2]
    by_cases hq : q = y / 8
    · obtain ⟨b, hb⟩ := seg_read_some hok.2.1 hpt (by omega : d < h.width)
      have hqin : q = y / 8 ∧ x ≤ d ∧ d < x + 8 := ⟨hq, hin⟩
      rw [if_pos hqin, hq, hb]
      simp
    · have hn : ¬ (q = y / 8 ∧ x ≤ d ∧ d < x + 8) := fun e => hq e.1
      rw [if_neg hn]
      cases seg_read h q d <;> simp [hq]
  · have hin1 : ¬ (x ≤ d ∧ d < x + 8 * [ch].length) := by simpa using hin
    have hn : ¬ (q = y / 8 ∧ x ≤ d ∧ d < x + 8) := fun e => hin e.2
    rw [if_neg hin1, if_neg hn]

/-- The offset case of the bitmap blitter when the bitmap spans two pages
(`page_range = 1`): one row of the source is drawn. -/
theorem image_offset_one_row {h : i2c_ssd1306_handle_t} (hok : handle_ok h) {x y bw bh : Nat}
    (image : List Nat) (invert : Bool) (hvalid : image_call_valid h x y bw bh)
    (hoff : y % 8 ≠ 0) (hrange : image_page_range y bh = 1) (hpages : y / 8 + 1 < h.total_pages)
    (himg : bw ≤ image.length) :
    ∃ k, i2c_ssd1306_buffer_image h x y image bw bh invert = some k ∧ same_config h k ∧
      handle_ok k ∧
      ∀ q d, seg_read k q d =
        if x ≤ d ∧ d < x + bw then
          (seg_read h q d).map (fun b =>
            if q = y / 8 then
              to_u8 (b ||| (int_shl (if invert then int_not (image.getD (d - x) 0)
                else image.getD (d - x) 0) (y % 8) &&& int_shl 0xFF (y % 8)))
            else if q = y / 8 + 1 then
              to_u8 (b ||| (int_sar (if invert then int_not (image.getD (d - x) 0)
                else image.getD (d - x) 0) (8 - y % 8) &&& int_sar 0xFF (8 - y % 8)))
            else b)
        else seg_read h q d := by
  have hv := hvalid
  unfold image_call_valid at hv
  obtain ⟨hw, h16, h64, h8, ht⟩ := hok.1
  have hpage : to_u8 (y / 8) = y / 8 := to_u8_of_lt (by omega)
  have ho8 : y % 8 < 8 := Nat.mod_lt _ (by decide)
  have hoffu : to_u8 (y % 8) = y % 8 := to_u8_of_lt (by omega)
  have hoff0 : ¬ to_u8 (y % 8) = 0 := by rw [hoffu]; exact hoff
  rw [buffer_image_eq, if_neg (not_not.2 hvalid), if_neg hoff0, hpage, hoffu, hrange]
  obtain ⟨k0, hrun0, hs0, hok0, hrd0⟩ :=
    @image_row_offset_spec image bw invert (y / 8) (y % 8) x 0 h hok
      (by omega) (by omega) (by omega)
  obtain ⟨k, hrun, hk⟩ := for_u8_plain_rule (a := 0) (n := 1)
    (c := fun i => decide (i < 1))
    (f := fun i hi => image_row_offset image bw invert (y / 8) (y % 8) x i hi)
    (Nat.zero_le _) (by omega)
    (fun i k => (i = 0 → k = h) ∧ (i = 1 → k = k0))
    (by intro i _; simp) (s := h)
    ⟨fun _ => rfl, fun e => absurd e (by omega)⟩
    (by
      intro i t _ hi ⟨ht0, _⟩
      have ei : i = 0 := by omega
      subst ei
      rw [ht0 rfl]
      exact ⟨k0, hrun0, fun e => absurd e (by omega), fun _ => rfl⟩)
  have ek : k = k0 := hk.2 rfl
  subst ek
  refine ⟨k, hrun, hs0, hok0, ?_⟩
  intro q d
  rw [hrd0]
  simp only [Nat.zero_mul, Nat.zero_add, Nat.add_zero]

/-- On a byte the mask `0xFF << o` of the blitter changes nothing below bit 8. -/
theorem masked_shl_byte (b g o : Nat) :
    to_u8 (b ||| (int_shl g o &&& int_shl 0xFF o)) = to_u8 (b ||| int_shl g o) := by
  apply Nat.eq_of_testBit_eq
  intro j
  rw [testBit_to_u8, testBit_to_u8, Nat.testBit_or, Nat.testBit_or, Nat.testBit_and,
    testBit_int_shl_ff, testBit_int_shl]
  by_cases hj : j < 8
  · have h32 : j < 32 := by omega
    have h8 : j - o < 8 := by omega
    by_cases hoj : o ≤ j <;> simp [hj, h32, h8, hoj]
  · simp [hj]

/-- On a byte the mask `0xFF >> (8 - o)` of the blitter changes nothing. -/
theorem masked_sar_byte (b : Nat) {g : Nat} (hg : g < 256) (o : Nat) :
    to_u8 (b ||| (int_sar g (8 - o) &&& int_sar 0xFF (8 - o))) =
      to_u8 (b ||| int_sar g (8 - o)) := by
  apply Nat.eq_of_testBit_eq
  intro j
  rw [testBit_to_u8, testBit_to_u8, Nat.testBit_or, Nat.testBit_or, Nat.testBit_and,
    testBit_int_sar_ff, testBit_int_sar_of_nonneg (by omega : g < 2 ^ 31)]
  by_cases hj : j < 8
  · by_cases hlo : 8 - o + j < 8
    · simp [hj, hlo]
    · simp [hj, hlo, testBit_of_byte hg (by omega : 8 ≤ 8 - o + j)]
  · simp [hj]

/-- C24: for a character whose 8x8 cell lies inside the display (`x + 8 <= width`,
`y + 8 <= height`), drawn without `invert` or at a row that is a multiple of 8,
`i2c_ssd1306_buffer_text` on the one-character text and `i2c_ssd1306_buffer_image` on the
8x8 bitmap `font8x8[ch]` both return, and they return the same framebuffer. -/
theorem text_agrees_with_image_on_glyph (font8x8 : Nat → Nat → Nat)
    (hfont : ∀ c j, font8x8 c j < 256) (h : i2c_ssd1306_handle_t) (hok : handle_ok h)
    (x y ch : Nat) (invert : Bool) (hx : x + 8 ≤ h.width) (hy : y + 8 ≤ h.height)
    (hcase : invert = false ∨ y % 8 = 0) :
    ∃ k, i2c_ssd1306_buffer_text font8x8 h x y [ch] invert = some k ∧
      i2c_ssd1306_buffer_image h x y (glyph_image font8x8 ch) 8 8 invert = some k := by
  obtain ⟨hw, h16, h64, h8, ht⟩ := hok.1
  have hvalid : image_call_valid h x y 8 8 := by
    unfold image_call_valid; omega
  by_cases hy0 : y % 8 = 0
  · obtain ⟨k1, hrun1, hs1, hok1, hrd1⟩ :=
      buffer_text_single_aligned font8x8 hok ch invert hy0 (by omega) hx
    obtain ⟨k2, hrun2, hs2, hok2, hrd2⟩ :=
      image_aligned_spec hok (glyph_image font8x8 ch) invert hvalid hy0 (by decide)
        (by rw [glyph_image_length])
    have e : k2 = k1 := by
      refine handle_ext ⟨hs2.1.trans hs1.1.symm, hs2.2.1.trans hs1.2.1.symm,
        hs2.2.2.1.trans hs1.2.2.1.symm, hs2.2.2.2.1.trans hs1.2.2.2.1.symm,
        hs2.2.2.2.2.trans hs1.2.2.2.2.symm⟩ hok1.2.1 hok2.2.1 ?_
      intro q d
      rw [hrd2, hrd1]
      by_cases hin : q = y / 8 ∧ x ≤ d ∧ d < x + 8
      · have hin2 : y / 8 ≤ q ∧ q < y / 8 + (8 + 7) / 8 ∧ x ≤ d ∧ d < x + 8 := by omega
        have e1 : (q - y / 8) * 8 + (d - x) = d - x := by
          rw [hin.1]; simp
        rw [if_pos hin, if_pos hin2, e1, glyph_image_getD font8x8 ch (by omega : d - x < 8)]
      · have hin2 : ¬ (y / 8 ≤ q ∧ q < y / 8 + (8 + 7) / 8 ∧ x ≤ d ∧ d < x + 8) := by
          omega
        rw [if_neg hin, if_neg hin2]
    exact ⟨k1, hrun1, by rw [hrun2, e]⟩
  · have hinv : invert = false := by
      rcases hcase with e | e
      · exact e
      · exact absurd e hy0
    subst hinv
    have hpages : y / 8 + 1 < h.total_pages := by omega
    have hrange : image_page_range y 8 = 1 := by
      rw [(image_page_range_eq hok.1 hy (by decide)).2]; omega
    obtain ⟨k1, hrun1, hs1, hok1, hrd1⟩ :=
      buffer_text_single_offset font8x8 hok ch false hy0 hpages hx
    obtain ⟨k2, hrun2, hs2, hok2, hrd2⟩ :=
      image_offset_one_row hok (glyph_image font8x8 ch) false hvalid hy0 hrange hpages
        (by rw [glyph_image_length])
    have e : k2 = k1 := by
      refine handle_ext ⟨hs2.1.trans hs1.1.symm, hs2.2.1.trans hs1.2.1.symm,
        hs2.2.2.1.trans hs1.2.2.1.symm, hs2.2.2.2.1.trans hs1.2.2.2.1.symm,
        hs2.2.2.2.2.trans hs1.2.2.2.2.symm⟩ hok1.2.1 hok2.2.1 ?_
      intro q d
      rw [hrd2, hrd1]
      by_cases hin : x ≤ d ∧ d < x + 8
      · rw [if_pos hin, if_pos hin, glyph_image_getD font8x8 ch (by omega : d - x < 8)]
        congr 1
        funext b
        simp only [Bool.false_eq_true, if_false]
        rw [masked_shl_byte, masked_sar_byte b (hfont (to_u8 ch) (d - x))]
      · rw [if_neg hin, if_neg hin]
    exact ⟨k1, hrun1, by rw [hrun2, e]⟩

theorem text_agrees_with_image_on_glyph_witness :
    ∃ k, i2c_ssd1306_buffer_text demo_font8x8 demo_handle_lit 5 3 [72] false = some k ∧
      i2c_ssd1306_buffer_image demo_handle_lit 5 3 (glyph_image demo_font8x8 72) 8 8 false =
        some k :=
  text_agrees_with_image_on_glyph demo_font8x8 demo_font8x8_lt demo_handle_lit (by decide)
    5 3 72 false (by decide) (by decide) (Or.inl rfl)

end SSD1306
